import Mathlib

/-!
The half-precision decoder and the two validators of binfiletester-siril

A shallow embedding of `binfiletester-siril.c`.  Machine integers are natural
numbers (or integers) reduced modulo `2^w` where the C type wraps; a `float`
is carried as its 32-bit IEEE-754 pattern.  The host is taken to be
little-endian (the layout the tool is built for).
-/

set_option maxRecDepth 100000

namespace Siril

/-! ## half_to_float -/

/-- The `do { ++offset; frac16 <<= 1; } while ((frac16 & 0x400) != 0x400);` loop of
`half_to_float`.  `offset` is a `uint8_t` and `frac16` a `uint16_t`, so both wrap.
The first argument bounds the number of iterations; `none` means the bound was
reached.  A 16-bit value is zero after 16 left shifts and stays zero, so with a
bound of 16 the answer `none` is exactly the case in which the C loop spins for ever. -/
def normalize : Nat → Nat → Nat → Option (Nat × Nat)
  | 0, _, _ => none
  | fuel + 1, offset, frac16 =>
    let offset1 := (offset + 1) % 256
    let frac1 := (frac16 <<< 1) % 65536
    if frac1 &&& 0x400 ≠ 0x400 then normalize fuel offset1 frac1
    else some (offset1, frac1)

/-- The exponent and fraction computed by `half_to_float` before they are packed:
`(exp32, frac16)` after the subnormal branch. -/
def half_fields (val : Nat) : Option (Nat × Nat) :=
  let exp16 := ((val &&& 0x7c00) >>> 10) % 256
  let frac16 := val &&& 0x3ff
  let exp32 := if exp16 = 0x1f then 0xff else if exp16 = 0 then 0 else exp16 + 112
  if exp16 = 0 ∧ frac16 ≠ 0 then
    match normalize 16 0 frac16 with
    | none => none
    | some (offset, frac) => some (Int.toNat ((113 - (offset : Int)) % 4294967296), frac &&& 0x3ff)
  else some (exp32, frac16)

/-- The function `half_to_float`, returning the 32-bit pattern `bits` whose reinterpretation as a
`float` the C function returns.  `none` stands for the normalisation loop not ending. -/
def half_to_float (val : Nat) : Option Nat :=
  let sign := ((val &&& 0x8000) <<< 16) % 4294967296
  match half_fields val with
  | none => none
  | some (exp32, frac16) =>
    let frac32 := (frac16 <<< 13) % 4294967296
    some ((sign ||| ((exp32 <<< 23) % 4294967296)) ||| frac32)


/-- The rational number denoted by a finite IEEE-754 binary32 pattern
(sign bit 31, biased exponent bits 30..23, fraction bits 22..0):
`(-1)^s * 2^(e-127) * (1 + f/2^23)` for `1 ≤ e ≤ 254` and `(-1)^s * 2^(-126) * (f/2^23)`
for `e = 0`.  Patterns with `e = 255` are infinities and NaNs and denote no number. -/
def f32ToRat (bits : Nat) : ℚ :=
  let s := bits / 2147483648 % 2
  let e := bits / 8388608 % 256
  let f := bits % 8388608
  if e = 0 then (-1) ^ s * 2 ^ (-126 : ℤ) * ((f : ℚ) / 8388608)
  else (-1) ^ s * 2 ^ ((e : ℤ) - 127) * (1 + (f : ℚ) / 8388608)

/-- The normalisation loop of `half_to_float` always ends, so the `none` of the bounded model
never occurs (see `half_to_float_isSome`); this is the returned pattern. -/
def half_to_float_bits (val : Nat) : Nat :=
  match half_to_float val with
  | some bits => bits
  | none => 0

/-! ## Single-precision values

The validators compare `float` values and convert them to `int16_t`.  A finite binary32
value is an integer multiple of `2^(-149)`, so it is carried as that integer. -/

/-- The value of a `float`: not-a-number, an infinity, or a finite value given as the
integer `value * 2^149`. -/
inductive FVal where
  | nan : FVal
  | inf (negative : Bool) : FVal
  | fin (scaled : Int) : FVal
deriving DecidableEq, Repr

/-- The scaling `2^149` of finite values. -/
def fscale : Nat := 713623846352979940529142984724747568191373312

/-- The scaled magnitude `2^128 * 2^149` from which a rounded result is an infinity. -/
def foverflow : Nat :=
  242833611528216133864932738352939863330300854881517440156476551217363035650651062272

/-- The value of a binary32 pattern. -/
def f32Val (bits : Nat) : FVal :=
  let s := bits / 2147483648 % 2
  let e := bits / 8388608 % 256
  let frac := bits % 8388608
  if e = 255 then (if frac = 0 then FVal.inf (decide (s = 1)) else FVal.nan)
  else
    let m : Nat := if e = 0 then frac else (8388608 + frac) * 2 ^ (e - 1)
    FVal.fin (if s = 1 then -(m : Int) else (m : Int))

/-- Number of binary digits of `a` (the first argument bounds the recursion). -/
def bitLen : Nat → Nat → Nat
  | 0, _ => 0
  | fuel + 1, a => if a = 0 then 0 else bitLen fuel (a / 2) + 1

/-- Round a scaled magnitude to the nearest one with at most 24 significant bits, ties to
even: the default rounding of binary32 arithmetic. -/
def roundNearestEven (a : Nat) : Nat :=
  let j := bitLen a a - 24
  let q := a / 2 ^ j
  let r := a % 2 ^ j
  let q1 := if 2 * r > 2 ^ j ∨ (2 * r = 2 ^ j ∧ q % 2 = 1) then q + 1 else q
  q1 * 2 ^ j

/-- The `float` nearest to an exact scaled result; magnitudes of `2^128` and above
overflow to an infinity. -/
def roundF32 (x : Int) : FVal :=
  let r := roundNearestEven x.natAbs
  if r ≥ foverflow then FVal.inf (decide (x < 0))
  else FVal.fin (if x < 0 then -(r : Int) else (r : Int))

/-- The difference `a - (float)i` in single precision, for an `int16_t` value `i` (whose conversion to
`float` is exact). -/
def fsubInt (a : FVal) (i : Int) : FVal :=
  match a with
  | FVal.nan => FVal.nan
  | FVal.inf n => FVal.inf n
  | FVal.fin x => roundF32 (x - i * (fscale : Int))

/-- The comparison `a > (float)c` for a small integer `c`. -/
def fgtInt (a : FVal) (c : Int) : Bool :=
  match a with
  | FVal.nan => false
  | FVal.inf n => !n
  | FVal.fin x => decide (x > c * (fscale : Int))

/-- The comparison `a < (float)c` for a small integer `c`. -/
def fltInt (a : FVal) (c : Int) : Bool :=
  match a with
  | FVal.nan => false
  | FVal.inf n => n
  | FVal.fin x => decide (x < c * (fscale : Int))

/-- The conversion `float -> int16_t` of the assignment `mag = unscaled_data.mag`.  The value
is truncated toward zero.  When the truncated value does not fit `int16_t` the C standard
leaves the conversion undefined; the model then follows the x86-64 code compilers emit
(`cvttss2si` to 32 bits, which yields `0x80000000` out of range and for NaN, then the low
16 bits). -/
def f32ToInt16 (a : FVal) : Int :=
  match a with
  | FVal.fin x =>
    let t := Int.tdiv x (fscale : Int)
    if -2147483648 ≤ t ∧ t < 2147483648 then (t + 32768) % 65536 - 32768 else 0
  | _ => 0

/-! ## Streams -/

/-- A stdio stream opened on a file: the bytes of the file and the current position. -/
structure FILE where
  bytes : List Nat
  pos : Nat
deriving DecidableEq, Repr

/-- The number stored in a list of bytes, least significant byte first (the host is
little-endian). -/
def leNat : List Nat → Nat
  | [] => 0
  | b :: bs => b + 256 * leNat bs

/-- The `n` bytes of an `n`-byte unsigned object holding `x`, least significant first. -/
def leBytes : Nat → Nat → List Nat
  | 0, _ => []
  | n + 1, x => x % 256 :: leBytes n (x / 256)

/-- The call `fread(ptr, size, 1, f)` for an object whose bytes are `obj`: the bytes available (at
most `size`) overwrite the start of the object, the position moves past them, and the
return value is 1 when all `size` bytes were read and 0 otherwise. -/
def fread (obj : List Nat) (size : Nat) (f : FILE) : List Nat × Nat × FILE :=
  let got := (f.bytes.drop f.pos).take size
  (got ++ obj.drop got.length, (if got.length = size then 1 else 0),
    { bytes := f.bytes, pos := f.pos + got.length })

/-- The call `fread(&x, size, 1, f)` for an unsigned scalar `x` of `size` bytes holding `old`. -/
def freadScalar (old : Nat) (size : Nat) (f : FILE) : Nat × Nat × FILE :=
  let r := fread (leBytes size old) size f
  (leNat r.1, r.2.1, r.2.2)

/-- The call `fseek(f, offset, SEEK_SET)`; seeking past the end is allowed, later reads then fail. -/
def fseek (f : FILE) (offset : Nat) : FILE := { bytes := f.bytes, pos := offset }

/-- The call `ftell(f)`. -/
def ftell (f : FILE) : Nat := f.pos

/-- Modelled from the spec: `byteorder.h` is not among the sources; the spec describes
`bswap_16`, `bswap_32`, `bswap_64` as the "byte-reversal operation for 16-, 32-, and 64-bit
widths".  `bswap w x` reverses the `w` bytes of `x`. -/
def bswap (w : Nat) (x : Nat) : Nat := leNat (leBytes w x).reverse

/-- See `bswap`. -/
def bswap_16 (x : Nat) : Nat := bswap 2 x

/-- See `bswap`. -/
def bswap_32 (x : Nat) : Nat := bswap 4 x

/-- See `bswap`. -/
def bswap_64 (x : Nat) : Nat := bswap 8 x

/-- The constant of `#define HTM_LEVEL 6`. -/
def HTM_LEVEL : Int := 6

/-- Modelled from the spec: `binfile.h`, which defines `INDEX_ENTRY_SIZE`, is not among the
sources; the spec gives an index entry as a 4-byte trixelId, an 8-byte dataOffset and a
4-byte recordCount. -/
def INDEX_ENTRY_SIZE : Nat := 16

/-- The size `sizeof(starData)` under `#pragma pack(push, 1)`: 8 + 4*4 + 2 + 1 + 343*2. -/
def sizeof_starData : Nat := 713

/-- The value of a 16-bit pattern read as `int16_t`. -/
def toInt16 (x : Nat) : Int := if x % 65536 < 32768 then (x % 65536 : Nat) else (x % 65536 : Nat) - 65536

/-- The value of an 8-bit pattern read as `int8_t`. -/
def toInt8 (x : Nat) : Int := if x % 256 < 128 then (x % 256 : Nat) else (x % 256 : Nat) - 256

/-- The file-scope variables of the program (`de` is only ever printed and is left out). -/
structure Globals where
  nfields : Nat
  index_offset : Nat
  data_offset : Nat
  byteswap : Bool
  ntrixels : Nat
deriving DecidableEq, Repr

/-! ## starData -/

/-- The packed `starData` record; every field holds its unsigned bit pattern. -/
structure starData where
  source_id : Nat
  RA : Nat
  Dec : Nat
  dRA : Nat
  dDec : Nat
  mag : Nat
  fexpo : Nat
  flux : List Nat
deriving DecidableEq, Repr

/-- The 713 bytes of a `starData` object in memory. -/
def starData.toBytes (d : starData) : List Nat :=
  leBytes 8 d.source_id ++ leBytes 4 d.RA ++ leBytes 4 d.Dec ++ leBytes 4 d.dRA ++
    leBytes 4 d.dDec ++ leBytes 2 d.mag ++ leBytes 1 d.fexpo ++
    (List.range 343).flatMap fun k => leBytes 2 (d.flux.getD k 0)

/-- The `starData` object held by 713 bytes of memory. -/
def starData.ofBytes (b : List Nat) : starData :=
  { source_id := leNat (b.take 8)
    RA := leNat ((b.drop 8).take 4)
    Dec := leNat ((b.drop 12).take 4)
    dRA := leNat ((b.drop 16).take 4)
    dDec := leNat ((b.drop 20).take 4)
    mag := leNat ((b.drop 24).take 2)
    fexpo := leNat ((b.drop 26).take 1)
    flux := (List.range 343).map fun k => leNat ((b.drop (27 + 2 * k)).take 2) }

/-- The function `bswap_stardata`: swaps `RA`, `Dec`, `dRA`, `dDec` and `mag`; `source_id` and the flux
array are left as read. -/
def bswap_stardata (d : starData) : starData :=
  { d with
    RA := bswap_32 d.RA
    Dec := bswap_32 d.Dec
    dRA := bswap_32 d.dRA
    dDec := bswap_32 d.dDec
    mag := bswap_16 d.mag }

/-! ## verifyIndexValidity -/

/-- The local variables of `verifyIndexValidity` during the scan, with the stream. -/
structure IndexScan where
  f : FILE
  trixel : Nat
  offset : Nat
  prev_offset : Nat
  nrecs : Nat
  prev_nrecs : Nat
  nerr : Nat
deriving DecidableEq, Repr

/-- The loop `for (i = 0; i < ntrixels; ++i)` of `verifyIndexValidity`; the first argument is
the number of iterations left, `i` the loop counter.  `nerr` is an `unsigned int` and wraps;
the offset difference is computed in `u_int64_t`.  On a failed read of the trixel number the
statement executed is `+nerr;`, which changes nothing, followed by `break`.  The reads of
`offset` and `nrecs` are not checked.  (`i` is an `int`; the model is exact for fewer than
`2^31` trixels.) -/
def indexLoop (ntrixels : Nat) (byteswap : Bool) : Nat → Nat → IndexScan → IndexScan
  | 0, _, s => s
  | n + 1, i, s =>
    let r1 := freadScalar s.trixel 4 s.f
    if r1.2.1 = 0 then { s with f := r1.2.2, trixel := r1.1 }
    else
      let trixel := if byteswap then bswap_32 r1.1 else r1.1
      let nerr1 := if trixel ≥ ntrixels then (s.nerr + 1) % 4294967296 else s.nerr
      let nerr2 := if trixel ≠ i then (nerr1 + 1) % 4294967296 else nerr1
      let r2 := freadScalar s.offset 8 r1.2.2
      let offset := if byteswap then bswap_64 r2.1 else r2.1
      let r3 := freadScalar s.nrecs 4 r2.2.2
      let nrecs := if byteswap then bswap_32 r3.1 else r3.1
      if nrecs = 0 then
        indexLoop ntrixels byteswap n (i + 1)
          { f := r3.2.2, trixel := trixel, offset := offset, prev_offset := s.prev_offset,
            nrecs := nrecs, prev_nrecs := s.prev_nrecs, nerr := nerr2 }
      else
        let gap := ((18446744073709551616 - s.prev_offset + offset) % 18446744073709551616) /
          sizeof_starData
        let nerr3 := if s.prev_offset ≠ 0 ∧ s.prev_nrecs ≠ gap then (nerr2 + 1) % 4294967296
          else nerr2
        indexLoop ntrixels byteswap n (i + 1)
          { f := r3.2.2, trixel := trixel, offset := offset, prev_offset := offset,
            nrecs := nrecs, prev_nrecs := nrecs, nerr := nerr3 }

/-- What `verifyIndexValidity` leaves behind: the globals (with `index_offset` and
`data_offset` set), the stream, and the error count `nerr` it reports ("PASSED" when 0). -/
structure IndexResult where
  g : Globals
  f : FILE
  nerr : Nat
deriving DecidableEq, Repr

/-- The function `verifyIndexValidity`.  `trixel0`, `offset0`, `nrecs0` are the indeterminate initial
values of the uninitialised locals. -/
def verifyIndexValidity (g : Globals) (f : FILE) (trixel0 offset0 nrecs0 : Nat) : IndexResult :=
  let s := indexLoop g.ntrixels g.byteswap g.ntrixels 0
    { f := f, trixel := trixel0, offset := offset0, prev_offset := 0, nrecs := nrecs0,
      prev_nrecs := 0, nerr := 0 }
  { g := { g with index_offset := ftell f, data_offset := ftell s.f }, f := s.f, nerr := s.nerr }

/-! ## verifyStarData -/

/-- The variables of the record loop of `verifyStarData`. -/
structure RecordScan where
  f : FILE
  data : starData
  mag : Int
  realFaintMag : Int
  nerr_trixel : Int
deriving DecidableEq, Repr

/-- The test `mag != -500 && ((unscaled_data.mag - mag) > 20 && mag < 1250) ||
unscaled_data.mag < mag`, with `&&` binding tighter than `||`; `umag` is the `float`
`unscaled_data.mag` and `mag` the `int16_t` previous magnitude. -/
def jumpTest (umag : FVal) (mag : Int) : Bool :=
  (decide (mag ≠ -500) && (fgtInt (fsubInt umag mag) 20 && decide (mag < 1250))) ||
    fltInt umag mag

/-- The value an `int` holds when the exact result of its arithmetic is `x`.  Signed overflow
is undefined in C; the model follows the two's-complement wrap of the code compilers emit for
`++nerr_trixel`, `nerr += nerr_trixel` and `nerr++`. -/
def wrapInt32 (x : Int) : Int := (x + 2147483648) % 4294967296 - 2147483648

/-- The loop `for (i = 0; i < nstars; ++i)` of `verifyStarData`.  The result of `fread` is not
checked, so after a short read `data` keeps what it held.  `unscaled_data.mag` is
`half_to_float(data.mag)` (set by `unscaleStarData`); the other unscaled fields are only
printed.  `mag` and `realFaintMag` are `int16_t`.  The loop only increments `nerr_trixel`:
the field counts the executions of `++nerr_trixel`, and the `int` variable holds this count
reduced by `wrapInt32`, which `trixelBody` applies where the variable is read. -/
def recordLoop (byteswap : Bool) : Nat → RecordScan → RecordScan
  | 0, s => s
  | n + 1, s =>
    let r := fread s.data.toBytes sizeof_starData s.f
    let data1 := starData.ofBytes r.1
    let data := if byteswap then bswap_stardata data1 else data1
    let umag := f32Val (half_to_float_bits data.mag)
    let nerr_trixel := if jumpTest umag s.mag then s.nerr_trixel + 1 else s.nerr_trixel
    let mag := f32ToInt16 umag
    let realFaintMag := if mag > s.realFaintMag then mag else s.realFaintMag
    recordLoop byteswap n
      { f := r.2.2, data := data, mag := mag, realFaintMag := realFaintMag,
        nerr_trixel := nerr_trixel }

/-- The variables of the trixel loop of `verifyStarData`. -/
structure StarScan where
  f : FILE
  data : starData
  offset : Nat
  nstars : Nat
  mag : Int
  realFaintMag : Int
  realMSpT : Nat
  nerr : Int
  counts : List Int
deriving DecidableEq, Repr

/-- The object that directly follows `offset` in the frame of `verifyStarData`.  `offset` is a
`u_int32_t` and `fread(&offset, 8, 1, f)` writes 8 bytes at its address; where the 4 bytes
past the object land is left open by the C standard and depends on the frame the compiler
lays out.  gcc 12 on x86-64 without stack protector places `nstars` there at `-O0` and `-O1`,
and the record buffer `data` (its first field `source_id`) at `-O2`.  Other frames are not
modelled: with `-fstack-protector-strong -O0` the loop counter `trixel` follows `offset`. -/
inductive Frame where
  | nstarsAfterOffset : Frame
  | dataAfterOffset : Frame
deriving DecidableEq, Repr

/-- One iteration of the loop `for (trixel = 0; trixel < ntrixels; ++trixel)` of
`verifyStarData`.  The index entry is read again from
`index_offset + trixel * INDEX_ENTRY_SIZE + 4`, without byte swapping.  The 8 bytes that
`fread(&offset, 8, 1, f)` reads land in `offset` and in the 4 bytes after it, which belong to
`nstars` or to `data` as `fr` says; the next `fread` then overwrites `nstars` with as many
bytes as it obtains.  `realMSpT` is a `u_int16_t`, so the assignment `realMSpT = nstars` keeps
the low 16 bits.  `nerr_trixel` and `nerr` are `int` and wrap.  `counts` is not a variable of
the program: it records the value of `nerr_trixel` at the end of each iteration, the number
the program prints for the trixel. -/
def trixelBody (fr : Frame) (g : Globals) (trixel : Nat) (s : StarScan) : StarScan :=
  let f1 := fseek s.f (g.index_offset + trixel * INDEX_ENTRY_SIZE + 4)
  let after := match fr with
    | Frame.nstarsAfterOffset => leBytes 4 s.nstars
    | Frame.dataAfterOffset => s.data.toBytes.take 4
  let r1 := fread (leBytes 4 s.offset ++ after) 8 f1
  let offset := leNat (r1.1.take 4)
  let spill := (r1.1.drop 4).take 4
  let nstars0 := match fr with
    | Frame.nstarsAfterOffset => leNat spill
    | Frame.dataAfterOffset => s.nstars
  let data0 := match fr with
    | Frame.nstarsAfterOffset => s.data
    | Frame.dataAfterOffset => starData.ofBytes (spill ++ s.data.toBytes.drop 4)
  let r2 := freadScalar nstars0 4 r1.2.2
  let nstars := r2.1
  if nstars = 0 then
    { s with f := r2.2.2, data := data0, offset := offset, nstars := nstars, mag := -500,
             counts := s.counts ++ [0] }
  else
    let realMSpT := if nstars > s.realMSpT then nstars % 65536 else s.realMSpT
    let r := recordLoop g.byteswap nstars
      { f := fseek r2.2.2 offset, data := data0, mag := -500,
        realFaintMag := s.realFaintMag, nerr_trixel := 0 }
    let nerr_trixel := wrapInt32 r.nerr_trixel
    { f := r.f, data := r.data, offset := offset, nstars := nstars, mag := r.mag,
      realFaintMag := r.realFaintMag, realMSpT := realMSpT,
      nerr := wrapInt32 (s.nerr + nerr_trixel), counts := s.counts ++ [nerr_trixel] }

/-- The loop `for (trixel = 0; trixel < ntrixels; ++trixel)` of `verifyStarData`; the first
numeric argument is the number of iterations left. -/
def trixelLoop (fr : Frame) (g : Globals) : Nat → Nat → StarScan → StarScan
  | 0, _, s => s
  | n + 1, trixel, s => trixelLoop fr g n (trixel + 1) (trixelBody fr g trixel s)

/-- The values `verifyStarData` holds when it reaches its final report: `jumps` is `nerr` as the
trixel loop leaves it, `counts` the per-trixel values of `nerr_trixel`. -/
structure StarFinal where
  faintMag : Int
  MSpT : Nat
  realFaintMag : Int
  realMSpT : Nat
  jumps : Int
  nerr : Int
  f : FILE
  counts : List Int
deriving DecidableEq, Repr

/-- How `verifyStarData` ends: at the `return 0` of the HTM level check, or after the scan. -/
inductive StarResult where
  | formatMismatch (f : FILE) : StarResult
  | finished (r : StarFinal) : StarResult
deriving DecidableEq, Repr

/-- The value `verifyStarData` returns: 0 at the HTM level check, otherwise 0 when
`nerr > 0` and 1 when not. -/
def StarResult.ret : StarResult → Nat
  | StarResult.formatMismatch _ => 0
  | StarResult.finished r => if r.nerr > 0 then 0 else 1

/-- What the C standard leaves open about the frame of `verifyStarData`: the indeterminate
initial values of its uninitialised locals, and the object that follows `offset`. -/
structure StarLocals where
  faintMag : Nat
  HTM_Level : Nat
  MSpT : Nat
  offset : Nat
  nstars : Nat
  data : starData
  frame : Frame
deriving DecidableEq, Repr

/-- The function `verifyStarData`.  `faintMag`, `HTM_Level` and `MSpT` are read without byte
swapping; `nerr` is an `int` and wraps. -/
def verifyStarData (g : Globals) (f : FILE) (l : StarLocals) : StarResult :=
  let r1 := freadScalar l.faintMag 2 f
  let faintMag := toInt16 r1.1
  let r2 := freadScalar l.HTM_Level 1 r1.2.2
  if toInt8 r2.1 ≠ HTM_LEVEL then StarResult.formatMismatch r2.2.2
  else
    let r3 := freadScalar l.MSpT 2 r2.2.2
    let MSpT := r3.1
    let s := trixelLoop l.frame g g.ntrixels 0
      { f := r3.2.2, data := l.data, offset := l.offset, nstars := l.nstars, mag := -500,
        realFaintMag := -500, realMSpT := 0, nerr := 0, counts := [] }
    let nerr1 := if MSpT ≠ s.realMSpT then wrapInt32 (s.nerr + 1) else s.nerr
    let nerr2 := if s.realFaintMag ≠ faintMag then wrapInt32 (nerr1 + 1) else nerr1
    StarResult.finished
      { faintMag := faintMag, MSpT := MSpT, realFaintMag := s.realFaintMag,
        realMSpT := s.realMSpT, jumps := s.nerr, nerr := nerr2, f := s.f,
        counts := s.counts }

/-! ## readFileHeader and main -/

/-- The loop of `readFileHeader` over the field descriptors: each `fread` takes
`sizeof(struct dataElement)` bytes; the descriptors are only displayed. -/
def readDescriptors (size : Nat) : Nat → FILE → FILE
  | 0, f => f
  | n + 1, f => readDescriptors size n (fread (List.replicate size 0) size f).2.2

/-- The return value of `readFileHeader` with the globals and the stream it leaves. -/
structure HeaderResult where
  ret : Nat
  g : Globals
  f : Option FILE
deriving DecidableEq, Repr

/-- The function `readFileHeader`.  `size` is `sizeof(struct dataElement)` (declared in `binfile.h`, which
is not among the sources), `endian_id0` and `version0` the indeterminate initial values of
`endian_id` and `version_no`; `none` is the `NULL` stream.  No `fread` result is checked. -/
def readFileHeader (size : Nat) (g : Globals) (f : Option FILE) (endian_id0 version0 : Nat) :
    HeaderResult :=
  match f with
  | none => { ret := 0, g := g, f := none }
  | some f0 =>
    let r1 := fread (List.replicate 124 0) 124 f0
    let r2 := freadScalar endian_id0 2 r1.2.2
    let byteswap := decide (toInt16 r2.1 ≠ 0x4B53)
    let r3 := freadScalar version0 1 r2.2.2
    let r4 := freadScalar g.nfields 2 r3.2.2
    let nfields := if byteswap then bswap_16 r4.1 else r4.1
    let f5 := readDescriptors size nfields r4.2.2
    let r6 := freadScalar g.ntrixels 4 f5
    let ntrixels := if byteswap then bswap_32 r6.1 else r6.1
    { ret := 1
      g := { g with byteswap := byteswap, nfields := nfields, ntrixels := ntrixels }
      f := some r6.2.2 }

/-- The indeterminate initial values of all uninitialised locals used in one run. -/
structure RunLocals where
  endian_id : Nat
  version_no : Nat
  trixel : Nat
  offset : Nat
  nrecs : Nat
  star : StarLocals
deriving DecidableEq, Repr

/-- The file-scope variables at program start (zero-initialised). -/
def Globals.init : Globals :=
  { nfields := 0, index_offset := 0, data_offset := 0, byteswap := false, ntrixels := 0 }

/-- The three calls `readFileHeader(f); verifyIndexValidity(f); verifyStarData(f);` of `main`
on an opened file, giving what the two validators report. -/
def runValidators (size : Nat) (bytes : List Nat) (l : RunLocals) : IndexResult × StarResult :=
  let h := readFileHeader size Globals.init (some { bytes := bytes, pos := 0 })
    l.endian_id l.version_no
  let f1 : FILE := match h.f with
    | some f => f
    | none => { bytes := bytes, pos := 0 }
  let r1 := verifyIndexValidity h.g f1 l.trixel l.offset l.nrecs
  (r1, verifyStarData r1.g r1.f l.star)

/-- The unsigned number held by the `n` bytes at position `p`. -/
def leAt (bytes : List Nat) (p n : Nat) : Nat := leNat ((bytes.drop p).take n)

/-- The byte swap applied to a field of `w` bytes when the byteswap flag is set. -/
def swapIf (byteswap : Bool) (w x : Nat) : Nat := if byteswap then bswap w x else x

/-- An index entry: trixelId, dataOffset, recordCount. -/
structure IndexEntry where
  trixelId : Nat
  offset : Nat
  nrecs : Nat
deriving DecidableEq, Repr

/-- Entry `i` of the index table that starts at position `P`, decoded in the byte order
given by the flag. -/
def indexEntryAt (byteswap : Bool) (bytes : List Nat) (P i : Nat) : IndexEntry :=
  { trixelId := swapIf byteswap 4 (leAt bytes (P + 16 * i) 4)
    offset := swapIf byteswap 8 (leAt bytes (P + 16 * i + 4) 8)
    nrecs := swapIf byteswap 4 (leAt bytes (P + 16 * i + 12) 4) }

/-- The `T` entries of the index table at position `P`. -/
def indexEntries (byteswap : Bool) (bytes : List Nat) (P T : Nat) : List IndexEntry :=
  (List.range T).map (indexEntryAt byteswap bytes P)

/-- The quotient the gap check compares the previous record count with:
`(-prev_offset + offset) / sizeof(starData)` in 64-bit unsigned arithmetic. -/
def gapQuot (prev_offset offset : Nat) : Nat :=
  ((18446744073709551616 - prev_offset + offset) % 18446744073709551616) / sizeof_starData

/-- The last entry of a list with a nonzero record count. -/
def lastNonEmpty (l : List IndexEntry) : Option IndexEntry :=
  (l.filter fun e => decide (e.nrecs ≠ 0)).getLast?

/-- The nearest entry before position `i` with a nonzero record count. -/
def prevNonEmpty (es : List IndexEntry) (i : Nat) : Option IndexEntry :=
  lastNonEmpty (es.take i)

/-- Entry `i` is non-empty, has a nearest preceding non-empty entry `A` with a nonzero offset,
and `A`'s record count differs from the quotient of the offset gap by the record size. -/
def gapBad (es : List IndexEntry) (i : Nat) : Bool :=
  match es[i]?, prevNonEmpty es i with
  | some B, some A =>
    decide (B.nrecs ≠ 0) && (decide (A.offset ≠ 0) && decide (A.nrecs ≠ gapQuot A.offset B.offset))
  | _, _ => false

/-- The errors attributed to entry `i`: out of range, out of order, gap check. -/
def entryErrors (T : Nat) (es : List IndexEntry) (i : Nat) : Nat :=
  match es[i]? with
  | none => 0
  | some e =>
    (if e.trixelId ≥ T then 1 else 0) + (if e.trixelId ≠ i then 1 else 0) +
      (if gapBad es i then 1 else 0)

/-- The `prev_offset`, `prev_nrecs` the scan holds after the entries `pre`. -/
def prevState (pre : List IndexEntry) : Nat × Nat :=
  match lastNonEmpty pre with
  | some A => (A.offset, A.nrecs)
  | none => (0, 0)

/-- The number of entries that fail the gap check. -/
def gapCount (es : List IndexEntry) : Nat :=
  ((List.range es.length).filter (gapBad es)).length

/-- The exact number of errors the index scan finds in the entries `es`, the first of which
is entry number `i`, when the previous non-empty entry had offset `po` and count `pn`
(`po = 0` also stands for "no previous entry"). -/
def indexErrors (T : Nat) : Nat → Nat → Nat → List IndexEntry → Nat
  | _, _, _, [] => 0
  | i, po, pn, e :: es =>
    (if e.trixelId ≥ T then 1 else 0) + (if e.trixelId ≠ i then 1 else 0) +
      (if e.nrecs = 0 then indexErrors T (i + 1) po pn es
       else (if po ≠ 0 ∧ pn ≠ gapQuot po e.offset then 1 else 0) +
         indexErrors T (i + 1) e.offset e.nrecs es)

/-! ## Concrete inputs -/

/-- A complete two-entry index in native byte order: entry 0 has offset 100 and 2 records,
entry 1 has offset 2239 = 100 + 3 * 713 and 3 records. -/
def gapIndexBytes : List Nat :=
  [0, 0, 0, 0, 100, 0, 0, 0, 0, 0, 0, 0, 2, 0, 0, 0,
   1, 0, 0, 0, 0xBF, 0x08, 0, 0, 0, 0, 0, 0, 3, 0, 0, 0]

/-- The globals after a header announcing `T` trixels in native byte order. -/
def nativeGlobals (T : Nat) : Globals :=
  { nfields := 0, index_offset := 0, data_offset := 0, byteswap := false, ntrixels := T }

/-- A complete two-entry index in native byte order: entry 0 has offset 100 and 2 records,
entry 1 has offset 1531 = 100 + 2 * 713 + 5 and 1 record. -/
def slackIndexBytes : List Nat :=
  [0, 0, 0, 0, 100, 0, 0, 0, 0, 0, 0, 0, 2, 0, 0, 0,
   1, 0, 0, 0, 0xFB, 0x05, 0, 0, 0, 0, 0, 0, 1, 0, 0, 0]

/-- A record whose magnitude field holds the half-precision pattern with low byte `lo` and
high byte `hi`; every other byte is zero. -/
def mkRecord (lo hi : Nat) : List Nat :=
  List.replicate 24 0 ++ [lo, hi] ++ List.replicate 687 0

/-- A 133-byte header in native byte order: 124 bytes of text, the marker 0x4B53, version 1,
no field descriptors, and a trixel count of 1. -/
def headerOneTrixel : List Nat :=
  List.replicate 124 32 ++ [0x53, 0x4B, 1, 0, 0, 1, 0, 0, 0]

/-- Locals that all start as zero, in the frame of a gcc build without optimisation. -/
def zeroLocals : RunLocals :=
  { endian_id := 0, version_no := 0, trixel := 0, offset := 0, nrecs := 0,
    star := { faintMag := 0, HTM_Level := 0, MSpT := 0, offset := 0, nstars := 0,
              data := starData.ofBytes [], frame := Frame.nstarsAfterOffset } }

/-- A catalog whose header announces one trixel and which ends 10 bytes into the only index
entry (after the trixel number and 6 of the 8 offset bytes). -/
def truncatedIndexFile : List Nat :=
  headerOneTrixel ++ [0, 0, 0, 0, 154, 0, 0, 0, 0, 0]

/-- Locals as `zeroLocals` but with `nrecs` starting as 5. -/
def staleLocals : RunLocals := { zeroLocals with nrecs := 5 }

/-- A data section that declares HTM level 5: faint magnitude 10, level 5, one star per
trixel. -/
def wrongLevelBytes : List Nat := [10, 0, 5, 1, 0]

/-- The magnitude field of the record at position `p`: the 2 bytes at `p + 24`, swapped when
the byteswap flag is set. -/
def recMag (byteswap : Bool) (bytes : List Nat) (p : Nat) : Nat :=
  swapIf byteswap 2 (leAt bytes (p + 24) 2)

/-- The magnitude fields of the `n` consecutive records that start at position `p`. -/
def recMags (byteswap : Bool) (bytes : List Nat) : Nat → Nat → List Nat
  | _, 0 => []
  | p, n + 1 => recMag byteswap bytes p :: recMags byteswap bytes (p + 713) n

/-- What one record does to `(mag, realFaintMag, nerr_trixel)`, given its magnitude field. -/
def magStep (st : Int × Int × Int) (bits : Nat) : Int × Int × Int :=
  let umag := f32Val (half_to_float_bits bits)
  let mag := f32ToInt16 umag
  (mag, (if mag > st.2.1 then mag else st.2.1),
    (if jumpTest umag st.1 then st.2.2 + 1 else st.2.2))

/-- The update of `realMSpT` by a trixel with `nstars` records. -/
def msptStep (realMSpT nstars : Nat) : Nat :=
  if nstars > realMSpT then nstars % 65536 else realMSpT

/-- The record count of index entry `i` as `verifyStarData` reads it (no byte swap). -/
def rawCount (bytes : List Nat) (P i : Nat) : Nat := leAt bytes (P + 16 * i + 12) 4

/-- The data offset of index entry `i` as `verifyStarData` reads it: the low 4 bytes of the
8-byte field, no byte swap. -/
def rawOffset (bytes : List Nat) (P i : Nat) : Nat := leAt bytes (P + 16 * i + 4) 4

/-- What one trixel does to `(realFaintMag, realMSpT, nerr)` when its records are all in the
file: nothing when its record count is 0, otherwise the record loop started with
`mag = -500` and `nerr_trixel = 0`. -/
def trixelStep (byteswap : Bool) (bytes : List Nat) (P : Nat) (st : Int × Nat × Int) (i : Nat) :
    Int × Nat × Int :=
  if rawCount bytes P i = 0 then st
  else
    let r := (recMags byteswap bytes (rawOffset bytes P i) (rawCount bytes P i)).foldl magStep
      (-500, st.1, 0)
    (r.2.1, msptStep st.2.1 (rawCount bytes P i), st.2.2 + r.2.2)

/-- The first 154 bytes of `bigTrixelFile`: header, the index entry (trixelId 0, offset 154,
65536 records) and the data-section header (faint magnitude 0, level 6, declared maximum 0). -/
def bigTrixelPrefix : List Nat :=
  headerOneTrixel ++ [0, 0, 0, 0, 154, 0, 0, 0, 0, 0, 0, 0, 0, 0, 1, 0] ++ [0, 0, 6, 0, 0]

/-- A one-trixel catalog in native byte order whose only trixel holds 65536 records (all
bytes zero, so every magnitude is 0.0); it declares faint magnitude 0, HTM level 6 and a
max-stars-per-trixel of 0.  The index starts at 133, the data section at 149, the records
at 154. -/
def bigTrixelFile : List Nat :=
  bigTrixelPrefix ++ List.replicate (65536 * 713) 0

/-- The globals once the header and the index of a one-trixel native catalog are read. -/
def oneTrixelGlobals : Globals :=
  { nfields := 0, index_offset := 133, data_offset := 149, byteswap := false, ntrixels := 1 }

/-! ## The magnitude rule of the spec -/

/-- The monotonicity rule as the spec words it, on the dequantized magnitudes `m_1..m_n` of a
trixel: the number of positions `k ≥ 2` with `(m_k - m_(k-1) > 20 and m_(k-1) < 1250) or
m_k < m_(k-1)`. -/
def specJumps : List ℚ → Nat
  | a :: b :: rest =>
    (if (b - a > 20 ∧ a < 1250) ∨ b < a then 1 else 0) + specJumps (b :: rest)
  | _ => 0

/-- The magnitude field `b` is a 16-bit pattern of a finite half-precision number whose
single-precision expansion denotes the whole number `z`. -/
def wholeMag (b : Nat) (z : Int) : Prop :=
  b < 65536 ∧ b / 1024 % 32 ≠ 31 ∧ f32ToRat (half_to_float_bits b) = (z : ℚ)

/-- A one-trixel catalog in native byte order whose trixel holds two records with magnitudes
10.5 (0x4940) and 10.25 (0x4920); it declares faint magnitude 10, HTM level 6 and two stars
per trixel. -/
def decreasingFile : List Nat :=
  headerOneTrixel ++ [0, 0, 0, 0, 154, 0, 0, 0, 0, 0, 0, 0, 2, 0, 0, 0] ++ [10, 0, 6, 2, 0] ++
    mkRecord 0x40 0x49 ++ mkRecord 0x20 0x49

/-- Two records with the whole-number magnitudes 10 (0x4900) and 35 (0x5060). -/
def twoRecords : List Nat := mkRecord 0x00 0x49 ++ mkRecord 0x60 0x50

/-- Three records with the magnitudes 10.0 (0x4900), 10.1015625 (0x490D, the half nearest to
10.1) and 10.203125 (0x491A, the half nearest to 10.2). -/
def threeRecords : List Nat := mkRecord 0x00 0x49 ++ mkRecord 0x0D 0x49 ++ mkRecord 0x1A 0x49

/-- The final values of `verifyStarData`, when it reached its final report. -/
def StarResult.final? : StarResult → Option StarFinal
  | StarResult.formatMismatch _ => none
  | StarResult.finished r => some r

/-- A well-formed catalog in native byte order, as the validators can accept it: `bytes` is
the file, `P` the position of its index, `T` the trixel count and `zs i` the magnitudes of
trixel `i`.  The index is complete and in order, the data offsets of non-empty trixels are
below `2^32` with all their records inside the file, consecutive non-empty trixels are
contiguous, the HTM level is 6, the magnitudes are whole numbers strictly between -500 and
32768 that satisfy the monotonicity rule of the spec, the declared max-stars-per-trixel is
the largest record count, and the declared faint-magnitude limit is the largest magnitude
(-500 when the file has no record). -/
structure WellFormedCatalog (bytes : List Nat) (P T : Nat) (zs : Nat → List Int) : Prop where
  isBytes : ∀ x, x ∈ bytes → x < 256
  complete : P + 16 * T + 5 ≤ bytes.length
  ids : ∀ i, i < T → (indexEntryAt false bytes P i).trixelId = i
  inFile : ∀ i, i < T → (indexEntryAt false bytes P i).nrecs ≠ 0 →
    (indexEntryAt false bytes P i).offset < 4294967296 ∧
    (indexEntryAt false bytes P i).offset + 713 * (indexEntryAt false bytes P i).nrecs ≤
      bytes.length
  contiguous : ∀ i A, i < T → prevNonEmpty (indexEntries false bytes P T) i = some A →
    (indexEntryAt false bytes P i).nrecs ≠ 0 →
    (indexEntryAt false bytes P i).offset = A.offset + A.nrecs * sizeof_starData
  level : leAt bytes (P + 16 * T + 2) 1 = 6
  whole : ∀ i, i < T → List.Forall₂ wholeMag
    (recMags false bytes (indexEntryAt false bytes P i).offset
      (indexEntryAt false bytes P i).nrecs) (zs i)
  range : ∀ i, i < T → ∀ z, z ∈ zs i → -500 < z ∧ z < 32768
  rule : ∀ i, i < T → specJumps ((zs i).map fun (z : Int) => (z : ℚ)) = 0
  maxStars : leAt bytes (P + 16 * T + 3) 2 =
    ((List.range T).map fun i => (indexEntryAt false bytes P i).nrecs).foldl max 0
  faint : toInt16 (leAt bytes (P + 16 * T) 2) =
    (List.range T).foldl (fun acc i => (zs i).foldl max acc) (-500)

/-- A one-trixel catalog in native byte order whose trixel holds three records with
magnitudes 10.5 (0x4940), 30.25 (0x4F90) and 31.0 (0x4FC0); it declares faint magnitude 31,
HTM level 6 and three stars per trixel. -/
def jumpyFile : List Nat :=
  headerOneTrixel ++ [0, 0, 0, 0, 154, 0, 0, 0, 0, 0, 0, 0, 3, 0, 0, 0] ++ [31, 0, 6, 3, 0] ++
    mkRecord 0x40 0x49 ++ mkRecord 0x90 0x4F ++ mkRecord 0xC0 0x4F

/-- A 133-byte header in native byte order like `headerOneTrixel`, with a trixel count of 2. -/
def headerTwoTrixels : List Nat :=
  List.replicate 124 32 ++ [0x53, 0x4B, 1, 0, 0, 2, 0, 0, 0]

/-- A two-trixel catalog in native byte order: trixel 0 holds two records with magnitudes
10 (0x4900) and 12 (0x4A00) at offset 170, trixel 1 holds one record with magnitude
12 at offset 1596 = 170 + 2 * 713; it declares faint magnitude 12, HTM level 6 and two stars
per trixel. -/
def goodFile : List Nat :=
  headerTwoTrixels ++
    [0, 0, 0, 0, 170, 0, 0, 0, 0, 0, 0, 0, 2, 0, 0, 0,
     1, 0, 0, 0, 0x3C, 0x06, 0, 0, 0, 0, 0, 0, 1, 0, 0, 0] ++ [12, 0, 6, 2, 0] ++
    mkRecord 0x00 0x49 ++ mkRecord 0x00 0x4A ++ mkRecord 0x00 0x4A

/-- The magnitudes of the two trixels of `goodFile`. -/
def goodMags (i : Nat) : List Int := if i = 0 then [10, 12] else [12]

/-- A one-trixel catalog in native byte order whose trixel holds one record with magnitude
10.5 (0x4940); it declares faint magnitude 10, HTM level 6 and one star per trixel. -/
def fractionalFile : List Nat :=
  headerOneTrixel ++ [0, 0, 0, 0, 154, 0, 0, 0, 0, 0, 0, 0, 1, 0, 0, 0] ++ [10, 0, 6, 1, 0] ++
    mkRecord 0x40 0x49

/-- A catalog in native byte order whose index and records are all in the file and whose
magnitudes are whole numbers: `bytes` is the file, `P` the position of its index, `p` the
position of the data-section header, `T` the trixel count and `zs i` the magnitudes of
trixel `i`, each strictly between -500 and 32768; data offsets of non-empty trixels are
below `2^32`, and the HTM level is 6. -/
structure WholeCatalog (bytes : List Nat) (P p T : Nat) (zs : Nat → List Int) : Prop where
  index : P + 16 * T ≤ bytes.length
  header : p + 5 ≤ bytes.length
  level : leAt bytes (p + 2) 1 = 6
  inFile : ∀ i, i < T → (indexEntryAt false bytes P i).nrecs ≠ 0 →
    (indexEntryAt false bytes P i).offset < 4294967296 ∧
    (indexEntryAt false bytes P i).offset + 713 * (indexEntryAt false bytes P i).nrecs ≤
      bytes.length
  whole : ∀ i, i < T → List.Forall₂ wholeMag
    (recMags false bytes (indexEntryAt false bytes P i).offset
      (indexEntryAt false bytes P i).nrecs) (zs i)
  range : ∀ i, i < T → ∀ z, z ∈ zs i → -500 < z ∧ z < 32768

/-- A record as a foreign-endian writer stores it: source_id 1 (bytes 00 .. 00 01), RA 1
(bytes 00 00 00 01), magnitude 0x4900 (bytes 49 00); every other byte is zero. -/
def foreignRecord : List Nat :=
  [0, 0, 0, 0, 0, 0, 0, 1] ++ [0, 0, 0, 1] ++ List.replicate 12 0 ++ [0x49, 0x00] ++
    List.replicate 687 0

/-- A catalog written on a foreign-endian machine: the marker bytes are 4B 53, the trixel
count 1 is stored as 00 00 00 01, and the only index entry stores trixelId 0, offset 154 as
00 00 00 00 00 00 00 9A and record count 1 as 00 00 00 01; the data-section header declares
HTM level 6, and one record follows. -/
def foreignFile : List Nat :=
  List.replicate 124 32 ++ [0x4B, 0x53, 1, 0, 0, 0, 0, 0, 1] ++
    [0, 0, 0, 0, 0, 0, 0, 0, 0, 0, 0, 154, 0, 0, 0, 1] ++ [0, 10, 6, 0, 1] ++ foreignRecord

/-- A native index entry whose 8-byte offset is 2^32 + 154: trixelId 0, one record. -/
def farIndexBytes : List Nat := [0, 0, 0, 0, 154, 0, 0, 0, 1, 0, 0, 0, 1, 0, 0, 0]

/-! ## unscaleStarData -/

/-- The value of a 32-bit pattern read as `int32_t`. -/
def toInt32 (x : Nat) : Int :=
  if x % 4294967296 < 2147483648 then (x % 4294967296 : Nat) else (x % 4294967296 : Nat) - 4294967296

/-- A `float` field computed as `raw / divisor`: the operands of the division are kept, its
rounding is not modelled. -/
structure ScaledField where
  raw : Int
  divisor : Nat
deriving DecidableEq, Repr

/-- A flux sample computed as `d / pow(10.0f, exponent)`: `sample` is the binary32 pattern of
`d`, the decoded half-precision sample, and `exponent` the `int` passed to `pow`; the rounding
of the quotient is not modelled. -/
structure FluxSample where
  sample : Nat
  exponent : Int
deriving DecidableEq, Repr

/-- The exact quotient `d / 10^exponent` of a flux sample. -/
def FluxSample.value (s : FluxSample) : ℚ := f32ToRat s.sample / (10 : ℚ) ^ s.exponent

/-- The C structure `starDataFloat`; `mag` is a binary32 pattern. -/
structure starDataFloat where
  source_id : Nat
  RA : ScaledField
  Dec : ScaledField
  dRA : ScaledField
  dDec : ScaledField
  mag : Nat
  fexpo : Nat
  flux : List FluxSample
deriving DecidableEq, Repr

/-- The function `unscaleStarData`.  `int exponent = data->fexpo;` converts the `uint8_t` field to
`int`, the flux loop runs over the 343 elements (an `int16_t` element is passed to the
`uint16_t` parameter of `half_to_float`), and `fexpo` is assigned back from `exponent`. -/
def unscaleStarData (data : starData) : starDataFloat :=
  let exponent : Int := ((data.fexpo % 256 : Nat) : Int)
  { source_id := data.source_id
    RA := ⟨toInt32 data.RA, 1000000⟩
    Dec := ⟨toInt32 data.Dec, 100000⟩
    dRA := ⟨toInt32 data.dRA, 1000⟩
    dDec := ⟨toInt32 data.dDec, 1000⟩
    mag := half_to_float_bits data.mag
    fexpo := Int.toNat (exponent % 256)
    flux := (List.range 343).map fun i =>
      ⟨half_to_float_bits (data.flux.getD i 0 % 65536), exponent⟩ }

/-- A record whose flux exponent byte is 0xFF and whose first flux sample is 1.0 (0x3C00);
every other byte is zero. -/
def exponentRecord : List Nat :=
  List.replicate 26 0 ++ [0xFF] ++ [0x00, 0x3C] ++ List.replicate 684 0

/-- A one-trixel catalog in native byte order whose index entry declares two records at
offset 154 but whose stream ends after the first record (magnitude 10.0, 0x4900); it declares
faint magnitude 10, HTM level 6 and two stars per trixel. -/
def shortFile : List Nat :=
  headerOneTrixel ++ [0, 0, 0, 0, 154, 0, 0, 0, 0, 0, 0, 0, 2, 0, 0, 0] ++ [10, 0, 6, 2, 0] ++
    mkRecord 0x00 0x49

/-- The catalog `shortFile` followed by the first 100 bytes of a second record. -/
def midRecordFile : List Nat := shortFile ++ (mkRecord 0x00 0x49).take 100

/-- An index entry in native byte order with trixelId 0xFFFFFFFF, offset 1 and one record. -/
def wrapEntry : List Nat := [255, 255, 255, 255, 1, 0, 0, 0, 0, 0, 0, 0, 1, 0, 0, 0]

/-- An index of `n` entries, each the entry `wrapEntry`. -/
def wrapIndex : Nat → List Nat
  | 0 => []
  | n + 1 => wrapEntry ++ wrapIndex n

/-- The number of entries of an index of `wrapEntry` entries whose errors sum to `2^32 + 1`. -/
def wrapCount : Nat := 1431655766

/-- A one-trixel catalog in native byte order whose trixel holds one record with magnitude
-1000 (0xE3D0); it declares faint magnitude -500 (bytes 0C FE), HTM level 6 and one star per
trixel. -/
def sentinelFile : List Nat :=
  headerOneTrixel ++ [0, 0, 0, 0, 154, 0, 0, 0, 0, 0, 0, 0, 1, 0, 0, 0] ++
    [0x0C, 0xFE, 6, 1, 0] ++ mkRecord 0xD0 0xE3

theorem and_3ff (v : Nat) : v &&& 0x3ff = v % 1024 :=
  Nat.and_pow_two_sub_one_eq_mod v 10

theorem and_two_pow_eq (v k : Nat) : v &&& 2 ^ k = v / 2 ^ k % 2 * 2 ^ k := by
  apply Nat.eq_of_testBit_eq
  intro i
  rw [Nat.testBit_and, Nat.testBit_two_pow, Nat.mul_comm, Nat.testBit_mul_pow_two]
  have h2 : v / 2 ^ k % 2 = (v >>> k) % 2 ^ 1 := by
    rw [Nat.shiftRight_eq_div_pow]; rfl
  rw [h2, Nat.testBit_mod_two_pow, Nat.testBit_shiftRight]
  by_cases hi : k = i
  · subst hi; simp
  · by_cases hk : k ≤ i
    · have : ¬ (i - k < 1) := by omega
      simp [hi, this]
    · simp [hi, hk]

theorem and_mask_shift (v k n : Nat) :
    (v &&& ((2 ^ n - 1) <<< k)) >>> k = v / 2 ^ k % 2 ^ n := by
  apply Nat.eq_of_testBit_eq
  intro i
  have h2 : v / 2 ^ k % 2 ^ n = (v >>> k) % 2 ^ n := by
    rw [Nat.shiftRight_eq_div_pow]
  rw [h2, Nat.testBit_shiftRight, Nat.testBit_and, Nat.testBit_shiftLeft,
    Nat.testBit_mod_two_pow, Nat.testBit_shiftRight, Nat.testBit_two_pow_sub_one]
  have : k + i - k = i := by omega
  simp [this, Bool.and_comm]

theorem exp_field (v : Nat) : (v &&& 0x7c00) >>> 10 = v / 1024 % 32 :=
  and_mask_shift v 10 5

theorem sign_field (v : Nat) (hv : v < 65536) :
    (v &&& 0x8000) <<< 16 = v / 32768 * 2147483648 := by
  have h : v &&& 0x8000 = v / 32768 % 2 * 32768 := and_two_pow_eq v 15
  rw [h, Nat.shiftLeft_eq]
  omega

theorem bit10_iff (f : Nat) (hf : f < 2048) : f &&& 0x400 = 0x400 ↔ 1024 ≤ f := by
  have h : f &&& 0x400 = f / 1024 % 2 * 1024 := and_two_pow_eq f 10
  rw [h]
  omega

theorem pack_fields (s e f : Nat) (_hs : s < 2) (he : e < 256) (hf : f < 8388608) :
    (s * 2147483648 ||| e * 8388608) ||| f = s * 2147483648 + e * 8388608 + f := by
  have h1 : e * 8388608 < 2 ^ 31 := by omega
  have h2 : s * 2147483648 ||| e * 8388608 = s * 2147483648 + e * 8388608 := by
    have := Nat.mul_add_lt_is_or h1 s
    rw [Nat.mul_comm] at this
    exact this.symm
  have h3 : f < 2 ^ 23 := by omega
  have h4 := Nat.mul_add_lt_is_or h3 (s * 256 + e)
  rw [h2]
  have h5 : 2 ^ 23 * (s * 256 + e) = s * 2147483648 + e * 8388608 := by ring
  rw [h5] at h4
  exact h4.symm

theorem normalize_spec (fuel : Nat) : ∀ off f, 0 < f → f < 1024 → 1024 ≤ f * 2 ^ fuel →
    off + fuel < 256 →
    ∃ k, 1 ≤ k ∧ k ≤ fuel ∧ normalize fuel off f = some (off + k, f * 2 ^ k) ∧
      1024 ≤ f * 2 ^ k ∧ f * 2 ^ k < 2048 := by
  induction fuel with
  | zero => intro off f _ h1 h2 _; omega
  | succ n ih =>
    intro off f h0 h1 h2 h3
    have hsh : (f <<< 1) % 65536 = f * 2 := by
      rw [Nat.shiftLeft_eq]; omega
    have hoff : (off + 1) % 256 = off + 1 := by omega
    by_cases hb : 1024 ≤ f * 2
    · refine ⟨1, le_refl 1, by omega, ?_, by omega, by omega⟩
      have hbit : (f * 2) &&& 0x400 = 0x400 := (bit10_iff (f * 2) (by omega)).2 hb
      simp [normalize, hsh, hoff, hbit]
    · have hbit : ¬ ((f * 2) &&& 0x400 = 0x400) := by
        rw [bit10_iff (f * 2) (by omega)]; exact hb
      have h2n : 1024 ≤ f * 2 * 2 ^ n := by
        rw [Nat.pow_succ] at h2; nlinarith
      obtain ⟨k, hk1, hk2, hk3, hk4, hk5⟩ := ih (off + 1) (f * 2) (by omega) (by omega) h2n (by omega)
      have hpow : f * 2 ^ (k + 1) = f * 2 * 2 ^ k := by
        rw [Nat.pow_succ]; ring
      refine ⟨k + 1, by omega, by omega, ?_, by rw [hpow]; exact hk4, by rw [hpow]; exact hk5⟩
      simp only [normalize, hsh, hoff]
      rw [if_pos hbit, hk3, hpow]
      congr 2
      omega

theorem half_fields_normal (v : Nat) (h : ¬ (v / 1024 % 32 = 0 ∧ v % 1024 ≠ 0)) :
    half_fields v = some
      (if v / 1024 % 32 = 31 then 255 else if v / 1024 % 32 = 0 then 0 else v / 1024 % 32 + 112,
        v % 1024) := by
  have he : ((v &&& 0x7c00) >>> 10) % 256 = v / 1024 % 32 := by
    rw [exp_field]; omega
  unfold half_fields
  simp only [he, and_3ff]
  rw [if_neg h]

theorem half_fields_subnormal (v : Nat) (he : v / 1024 % 32 = 0) (hm : v % 1024 ≠ 0) :
    ∃ k, 1 ≤ k ∧ k ≤ 10 ∧ 1024 ≤ v % 1024 * 2 ^ k ∧ v % 1024 * 2 ^ k < 2048 ∧
      half_fields v = some (113 - k, v % 1024 * 2 ^ k - 1024) := by
  have he2 : ((v &&& 0x7c00) >>> 10) % 256 = 0 := by
    rw [exp_field]; omega
  obtain ⟨k, hk1, _, hk3, hk4, hk5⟩ :=
    normalize_spec 16 0 (v % 1024) (by omega) (by omega) (by omega) (by omega)
  have hk10 : k ≤ 10 := by
    by_contra hc
    have : 2 ^ 11 ≤ 2 ^ k := Nat.pow_le_pow_right (by decide) (by omega)
    have : 1 * 2 ^ 11 ≤ v % 1024 * 2 ^ k := Nat.mul_le_mul (by omega) this
    omega
  refine ⟨k, hk1, hk10, hk4, hk5, ?_⟩
  unfold half_fields
  simp only [he2, and_3ff]
  rw [if_pos ⟨trivial, hm⟩, hk3]
  have e1 : Int.toNat ((113 - ((0 + k : Nat) : Int)) % 4294967296) = 113 - k := by omega
  have e2 : v % 1024 * 2 ^ k % 1024 = v % 1024 * 2 ^ k - 1024 := by omega
  simp only [e1, e2]

/-- The normalisation loop always ends: `half_to_float` returns a pattern for every input. -/
theorem half_to_float_isSome (val : Nat) :
    half_to_float val = some (half_to_float_bits val) := by
  have hf : ∃ E F, half_fields val = some (E, F) := by
    by_cases hsub : val / 1024 % 32 = 0 ∧ val % 1024 ≠ 0
    · obtain ⟨k, _, _, _, _, hk⟩ := half_fields_subnormal val hsub.1 hsub.2
      exact ⟨_, _, hk⟩
    · exact ⟨_, _, half_fields_normal val hsub⟩
  obtain ⟨E, F, hEF⟩ := hf
  unfold half_to_float_bits half_to_float
  rw [hEF]

theorem half_to_float_pack (v E F : Nat) (hv : v < 65536) (h : half_fields v = some (E, F))
    (hE : E < 256) (hF : F < 1024) :
    half_to_float v = some (v / 32768 * 2147483648 + E * 8388608 + F * 8192) := by
  unfold half_to_float
  rw [h]
  simp only [sign_field v hv, Nat.shiftLeft_eq]
  have h1 : v / 32768 * 2147483648 % 4294967296 = v / 32768 * 2147483648 := by omega
  have h2 : E * 2 ^ 23 % 4294967296 = E * 8388608 := by omega
  have h3 : F * 2 ^ 13 % 4294967296 = F * 8192 := by omega
  rw [h1, h2, h3, pack_fields _ _ _ (by omega) hE (by omega)]

theorem f32ToRat_pack (s E F : Nat) (hs : s < 2) (hE : E < 256) (hF : F < 8388608) :
    f32ToRat (s * 2147483648 + E * 8388608 + F) =
      if E = 0 then (-1) ^ s * 2 ^ (-126 : ℤ) * ((F : ℚ) / 8388608)
      else (-1) ^ s * 2 ^ ((E : ℤ) - 127) * (1 + (F : ℚ) / 8388608) := by
  have h1 : (s * 2147483648 + E * 8388608 + F) / 2147483648 % 2 = s := by omega
  have h2 : (s * 2147483648 + E * 8388608 + F) / 8388608 % 256 = E := by omega
  have h3 : (s * 2147483648 + E * 8388608 + F) % 8388608 = F := by omega
  simp only [f32ToRat, h1, h2, h3]

/-- C1: for every 16-bit input whose exponent field is not 0x1F, `half_to_float` returns a
finite binary32 pattern that denotes the same number as the half-precision input:
`(-1)^s * 2^(e-15) * (1 + m/1024)` for `1 ≤ e ≤ 30` and `(-1)^s * m * 2^(-24)` for `e = 0`;
0x3C00 gives 0x3F800000 and the subnormal 0x0001 gives 0x33800000. -/
theorem half_to_float_exact (val : Nat) (hv : val < 65536) (he : val / 1024 % 32 ≠ 31) :
    (∃ bits, half_to_float val = some bits ∧ bits < 4294967296 ∧ bits / 8388608 % 256 ≠ 255 ∧
      f32ToRat bits =
        if val / 1024 % 32 = 0 then
          (-1) ^ (val / 32768) * (val % 1024 : ℕ) * (2 : ℚ) ^ (-24 : ℤ)
        else
          (-1) ^ (val / 32768) * (2 : ℚ) ^ (((val / 1024 % 32 : ℕ) : ℤ) - 15) *
            (1 + ((val % 1024 : ℕ) : ℚ) / 1024)) ∧
    half_to_float 0x3C00 = some 0x3F800000 ∧ half_to_float 0x0001 = some 0x33800000 := by
  refine ⟨?_, by decide, by decide⟩
  have hs : val / 32768 < 2 := by omega
  by_cases hsub : val / 1024 % 32 = 0 ∧ val % 1024 ≠ 0
  · obtain ⟨he0, hm⟩ := hsub
    obtain ⟨k, hk1, hk10, hlo, hhi, hf⟩ := half_fields_subnormal val he0 hm
    have hpk := half_to_float_pack val _ _ hv hf (by omega) (by omega)
    refine ⟨_, hpk, by omega, by omega, ?_⟩
    rw [f32ToRat_pack _ _ _ hs (by omega) (by omega), if_neg (by omega), if_pos he0]
    have hcast : (((val % 1024 * 2 ^ k - 1024) * 8192 : ℕ) : ℚ)
        = ((val % 1024 : ℕ) : ℚ) * 2 ^ k * 8192 - 8388608 := by
      rw [Nat.cast_mul, Nat.cast_sub hlo]
      push_cast
      ring
    have hexp : (((113 - k : ℕ) : ℤ) - 127) = -14 - (k : ℤ) := by omega
    rw [hcast, hexp]
    have h2k : (2 : ℚ) ^ (-14 - (k : ℤ)) = 2 ^ (-14 : ℤ) / 2 ^ k := by
      rw [zpow_sub₀ (by norm_num : (2 : ℚ) ≠ 0), zpow_natCast]
    rw [h2k]
    have hk0 : (2 : ℚ) ^ k ≠ 0 := pow_ne_zero _ (by norm_num)
    field_simp
    norm_num
    ring
  · have hf := half_fields_normal val hsub
    have hm : val % 1024 < 1024 := Nat.mod_lt _ (by decide)
    have hpk := half_to_float_pack val _ _ hv hf (by split_ifs <;> omega) hm
    refine ⟨_, hpk, by split_ifs <;> omega, ?_, ?_⟩
    · split_ifs <;> omega
    · rw [f32ToRat_pack _ _ _ hs (by split_ifs <;> omega) (by omega)]
      by_cases he0 : val / 1024 % 32 = 0
      · have hm0 : val % 1024 = 0 := by
          by_contra hne; exact hsub ⟨he0, hne⟩
        simp [he0, hm0]
      · simp only [if_neg he, if_neg he0]
        have hE : val / 1024 % 32 + 112 ≠ 0 := by omega
        rw [if_neg hE]
        have hexp : (((val / 1024 % 32 + 112 : ℕ) : ℤ) - 127)
            = ((val / 1024 % 32 : ℕ) : ℤ) - 15 := by omega
        rw [hexp]
        push_cast
        ring

/-- C1 witness: the theorem applied to 0x3C00, whose pattern denotes 1. -/
theorem half_to_float_exact_witness :
    ∃ bits, half_to_float 0x3C00 = some bits ∧ f32ToRat bits = 1 := by
  obtain ⟨⟨bits, h1, _, _, h4⟩, _⟩ := half_to_float_exact 0x3C00 (by decide) (by decide)
  refine ⟨bits, h1, ?_⟩
  rw [h4]
  norm_num

/-- C2: `half_to_float` propagates the special values with the sign preserved.  For an
input with exponent field 0x1F the result has the same sign bit, exponent field 0xFF and
fraction `m << 13` (so infinities stay infinities and NaNs stay NaNs); for exponent field 0
and mantissa 0 the result is the zero of the same sign. -/
theorem half_to_float_special (val : Nat) (hv : val < 65536) :
    (val / 1024 % 32 = 31 →
      ∃ bits, half_to_float val = some bits ∧ bits < 4294967296 ∧
        bits / 2147483648 = val / 32768 ∧ bits / 8388608 % 256 = 255 ∧
        bits % 8388608 = (val % 1024) <<< 13 ∧
        (bits % 8388608 = 0 ↔ val % 1024 = 0)) ∧
    (val / 1024 % 32 = 0 → val % 1024 = 0 →
      half_to_float val = some (val / 32768 * 2147483648)) ∧
    half_to_float 0x7C00 = some 0x7F800000 ∧ half_to_float 0xFC00 = some 0xFF800000 ∧
    half_to_float 0x7E00 = some 0x7FC00000 ∧ half_to_float 0x0000 = some 0x00000000 ∧
    half_to_float 0x8000 = some 0x80000000 := by
  refine ⟨?_, ?_, by decide, by decide, by decide, by decide, by decide⟩
  · intro he
    have hsub : ¬ (val / 1024 % 32 = 0 ∧ val % 1024 ≠ 0) := by omega
    have hf := half_fields_normal val hsub
    rw [if_pos he] at hf
    have hm : val % 1024 < 1024 := Nat.mod_lt _ (by decide)
    have hpk := half_to_float_pack val _ _ hv hf (by omega) hm
    refine ⟨_, hpk, by omega, by omega, by omega, ?_, by omega⟩
    rw [Nat.shiftLeft_eq]
    omega
  · intro he hm
    have hsub : ¬ (val / 1024 % 32 = 0 ∧ val % 1024 ≠ 0) := by omega
    have hf := half_fields_normal val hsub
    rw [if_neg (by omega), if_pos he, hm] at hf
    have hpk := half_to_float_pack val _ _ hv hf (by omega) (by omega)
    rw [hpk]
    simp

/-- C2 witness: the theorem applied to the negative infinity 0xFC00. -/
theorem half_to_float_special_witness :
    ∃ bits, half_to_float 0xFC00 = some bits ∧ bits / 2147483648 = 1 ∧
      bits / 8388608 % 256 = 255 ∧ bits % 8388608 = 0 := by
  obtain ⟨bits, h1, _, h3, h4, _, h6⟩ :=
    (half_to_float_special 0xFC00 (by decide)).1 (by decide)
  exact ⟨bits, h1, h3, h4, h6.2 (by decide)⟩

/-! ## Stream lemmas -/

theorem fread_full (obj : List Nat) (size : Nat) (bytes : List Nat) (p : Nat)
    (h : p + size ≤ bytes.length) :
    fread obj size { bytes := bytes, pos := p } =
      ((bytes.drop p).take size ++ obj.drop size, 1, { bytes := bytes, pos := p + size }) := by
  have hl : ((bytes.drop p).take size).length = size := by
    rw [List.length_take, List.length_drop]; omega
  simp only [fread, hl, if_pos]

theorem leBytes_length (n x : Nat) : (leBytes n x).length = n := by
  induction n generalizing x with
  | zero => rfl
  | succ n ih => simp [leBytes, ih]

theorem freadScalar_full (old size : Nat) (bytes : List Nat) (p : Nat)
    (h : p + size ≤ bytes.length) :
    freadScalar old size { bytes := bytes, pos := p } =
      (leAt bytes p size, 1, { bytes := bytes, pos := p + size }) := by
  have hd : (leBytes size old).drop size = [] :=
    List.drop_eq_nil_of_le (by rw [leBytes_length])
  simp only [freadScalar, fread_full _ _ _ _ h, hd, List.append_nil, leAt]

theorem indexLoop_full (T : Nat) (bs : Bool) (bytes : List Nat) (P : Nat)
    (hlen : P + 16 * T ≤ bytes.length) :
    ∀ n i (tr off po nr pn ne0 : Nat), i + n = T → ne0 < 4294967296 →
      (indexLoop T bs n i ⟨⟨bytes, P + 16 * i⟩, tr, off, po, nr, pn, ne0⟩).nerr =
        (ne0 + indexErrors T i po pn
          ((List.range' i n).map (indexEntryAt bs bytes P))) % 4294967296 ∧
      (indexLoop T bs n i ⟨⟨bytes, P + 16 * i⟩, tr, off, po, nr, pn, ne0⟩).f =
        { bytes := bytes, pos := P + 16 * T } := by
  intro n
  induction n with
  | zero =>
    intro i tr off po nr pn ne0 hi hn
    have hiT : i = T := by omega
    simp [indexLoop, indexErrors, hiT, Nat.mod_eq_of_lt hn]
  | succ n ih =>
    intro i tr off po nr pn ne0 hi hn
    have h1 : ∀ old, freadScalar old 4 { bytes := bytes, pos := P + 16 * i } =
        (leAt bytes (P + 16 * i) 4, 1, { bytes := bytes, pos := P + 16 * i + 4 }) :=
      fun old => freadScalar_full _ _ _ _ (by omega)
    have h2 : ∀ old, freadScalar old 8 { bytes := bytes, pos := P + 16 * i + 4 } =
        (leAt bytes (P + 16 * i + 4) 8, 1, { bytes := bytes, pos := P + 16 * i + 4 + 8 }) :=
      fun old => freadScalar_full _ _ _ _ (by omega)
    have h3 : ∀ old, freadScalar old 4 { bytes := bytes, pos := P + 16 * i + 4 + 8 } =
        (leAt bytes (P + 16 * i + 12) 4, 1, { bytes := bytes, pos := P + 16 * (i + 1) }) := by
      intro old
      have := freadScalar_full old 4 bytes (P + 16 * i + 4 + 8) (by omega)
      rw [this]
      have e1 : P + 16 * i + 4 + 8 = P + 16 * i + 12 := by omega
      have e2 : P + 16 * i + 4 + 8 + 4 = P + 16 * (i + 1) := by omega
      rw [e2, e1]
    have ht : (if bs = true then bswap_32 (leAt bytes (P + 16 * i) 4)
        else leAt bytes (P + 16 * i) 4) = (indexEntryAt bs bytes P i).trixelId := rfl
    have ho : (if bs = true then bswap_64 (leAt bytes (P + 16 * i + 4) 8)
        else leAt bytes (P + 16 * i + 4) 8) = (indexEntryAt bs bytes P i).offset := rfl
    have hc : (if bs = true then bswap_32 (leAt bytes (P + 16 * i + 12) 4)
        else leAt bytes (P + 16 * i + 12) 4) = (indexEntryAt bs bytes P i).nrecs := rfl
    have hr : (List.range' i (n + 1)).map (indexEntryAt bs bytes P) =
        indexEntryAt bs bytes P i :: (List.range' (i + 1) n).map (indexEntryAt bs bytes P) := by
      simp [List.range'_succ]
    rw [indexLoop, hr, indexErrors]
    simp only [h1, h2, h3, ht, ho, hc]
    rw [if_neg Nat.one_ne_zero]
    generalize indexEntryAt bs bytes P i = e
    by_cases hz : e.nrecs = 0
    · rw [if_pos hz, if_pos hz]
      refine ⟨?_, (ih _ _ _ _ _ _ _ (by omega) ?_).2⟩
      · rw [(ih _ _ _ _ _ _ _ (by omega) ?_).1]
        · generalize indexErrors T (i + 1) po pn _ = rest
          split_ifs <;> omega
        · split_ifs <;> omega
      · split_ifs <;> omega
    · rw [if_neg hz, if_neg hz]
      refine ⟨?_, (ih _ _ _ _ _ _ _ (by omega) ?_).2⟩
      · rw [(ih _ _ _ _ _ _ _ (by omega) ?_).1]
        · simp only [gapQuot]
          generalize indexErrors T (i + 1) e.offset e.nrecs _ = rest
          split_ifs <;> omega
        · split_ifs <;> omega
      · split_ifs <;> omega

theorem lastNonEmpty_concat (pre : List IndexEntry) (e : IndexEntry) :
    lastNonEmpty (pre ++ [e]) = if e.nrecs = 0 then lastNonEmpty pre else some e := by
  unfold lastNonEmpty
  rw [List.filter_append]
  by_cases h : e.nrecs = 0
  · simp [h]
  · simp [h]

theorem prevState_concat (pre : List IndexEntry) (e : IndexEntry) :
    prevState (pre ++ [e]) = if e.nrecs = 0 then prevState pre else (e.offset, e.nrecs) := by
  unfold prevState
  rw [lastNonEmpty_concat]
  by_cases h : e.nrecs = 0
  · simp [h]
  · simp [h]

theorem entryErrors_at (T : Nat) (pre rest : List IndexEntry) (e : IndexEntry) :
    entryErrors T (pre ++ e :: rest) pre.length =
      (if e.trixelId ≥ T then 1 else 0) + (if e.trixelId ≠ pre.length then 1 else 0) +
        (if e.nrecs = 0 then 0
         else if (prevState pre).1 ≠ 0 ∧ (prevState pre).2 ≠ gapQuot (prevState pre).1 e.offset
           then 1 else 0) := by
  have hget : (pre ++ e :: rest)[pre.length]? = some e := by
    rw [List.getElem?_append_right (Nat.le_refl _)]; simp
  have htake : (pre ++ e :: rest).take pre.length = pre := by simp
  unfold entryErrors gapBad prevNonEmpty prevState
  rw [hget, htake]
  cases hl : lastNonEmpty pre with
  | none => by_cases h : e.nrecs = 0 <;> simp [h]
  | some A => by_cases h : e.nrecs = 0 <;> simp [h]

theorem indexErrors_eq_sum (T : Nat) : ∀ (suf pre : List IndexEntry),
    indexErrors T pre.length (prevState pre).1 (prevState pre).2 suf =
      ((List.range' pre.length suf.length).map (entryErrors T (pre ++ suf))).sum := by
  intro suf
  induction suf with
  | nil => intro pre; simp [indexErrors]
  | cons e rest ih =>
    intro pre
    have h := ih (pre ++ [e])
    rw [prevState_concat] at h
    have hl : (pre ++ [e]).length = pre.length + 1 := by simp
    have ha : pre ++ [e] ++ rest = pre ++ e :: rest := by simp
    rw [hl, ha] at h
    rw [List.length_cons, List.range'_succ, List.map_cons, List.sum_cons, ← h,
      entryErrors_at, indexErrors]
    by_cases hz : e.nrecs = 0
    · simp [hz]
    · simp [hz]; omega

theorem indexEntries_length (bs : Bool) (bytes : List Nat) (P T : Nat) :
    (indexEntries bs bytes P T).length = T := by
  simp [indexEntries]

theorem indexEntries_get (bs : Bool) (bytes : List Nat) (P T i : Nat) (hi : i < T) :
    (indexEntries bs bytes P T)[i]? = some (indexEntryAt bs bytes P i) := by
  simp [indexEntries, hi]

theorem entryErrors_le (T : Nat) (es : List IndexEntry) (i : Nat) : entryErrors T es i ≤ 3 := by
  unfold entryErrors
  cases es[i]? with
  | none => simp
  | some e => simp only []; split_ifs <;> omega

theorem sum_map_le (f : Nat → Nat) (c : Nat) (hf : ∀ i, f i ≤ c) :
    ∀ l : List Nat, (l.map f).sum ≤ c * l.length := by
  intro l
  induction l with
  | nil => simp
  | cons a l ih =>
    have := hf a
    simp only [List.map_cons, List.sum_cons, List.length_cons]
    nlinarith

/-- On a stream that holds all `ntrixels` entries the error count of `verifyIndexValidity` is
the sum of the errors of the entries (modulo `2^32`, as `nerr` is an `unsigned int`), and the
stream is left just after the index. -/
theorem verifyIndexValidity_full (g : Globals) (bytes : List Nat) (P : Nat) (t o n : Nat)
    (hlen : P + 16 * g.ntrixels ≤ bytes.length) :
    (verifyIndexValidity g { bytes := bytes, pos := P } t o n).nerr =
      ((List.range g.ntrixels).map
        (entryErrors g.ntrixels (indexEntries g.byteswap bytes P g.ntrixels))).sum % 4294967296 ∧
    (verifyIndexValidity g { bytes := bytes, pos := P } t o n).f =
      { bytes := bytes, pos := P + 16 * g.ntrixels } ∧
    (verifyIndexValidity g { bytes := bytes, pos := P } t o n).g =
      { g with index_offset := P, data_offset := P + 16 * g.ntrixels } := by
  have h := indexLoop_full g.ntrixels g.byteswap bytes P hlen g.ntrixels 0 t o 0 n 0 0
    (by omega) (by omega)
  have hs := indexErrors_eq_sum g.ntrixels (indexEntries g.byteswap bytes P g.ntrixels) []
  simp only [List.length_nil, List.nil_append, indexEntries_length] at hs
  have hp : prevState [] = (0, 0) := rfl
  rw [hp] at hs
  simp only [Nat.mul_zero, Nat.add_zero, Nat.zero_add] at h
  have hr : List.map (indexEntryAt g.byteswap bytes P) (List.range' 0 g.ntrixels) =
      indexEntries g.byteswap bytes P g.ntrixels := by
    rw [indexEntries, List.range_eq_range']
  rw [hr, hs, ← List.range_eq_range'] at h
  unfold verifyIndexValidity
  simp only [ftell]
  refine ⟨h.1, h.2, ?_⟩
  rw [h.2]

theorem sum_indicator (p : Nat → Bool) : ∀ l : List Nat,
    (l.map fun i => if p i then 1 else 0).sum = (l.filter p).length := by
  intro l
  induction l with
  | nil => rfl
  | cons a l ih =>
    by_cases h : p a
    · simp [h, ih]; omega
    · simp [h, ih]

theorem filter_range_none (p : Nat → Bool) : ∀ T, (∀ i, i < T → p i = false) →
    ((List.range T).filter p).length = 0 := by
  intro T h
  rw [List.length_eq_zero, List.filter_eq_nil_iff]
  intro a ha
  rw [List.mem_range] at ha
  simp [h a ha]

theorem filter_range_one (p : Nat → Bool) : ∀ T j, j < T → p j = true →
    (∀ i, i < T → i ≠ j → p i = false) → ((List.range T).filter p).length = 1 := by
  intro T
  induction T with
  | zero => intro j hj; omega
  | succ T ih =>
    intro j hj hp ho
    rw [List.range_succ, List.filter_append, List.length_append]
    by_cases hjT : j = T
    · subst hjT
      have h0 := filter_range_none p j (fun i hi => ho i (by omega) (by omega))
      simp [h0, hp]
    · have h1 := ih j (by omega) hp (fun i hi hne => ho i (by omega) hne)
      have hT : p T = false := ho T (by omega) (by omega)
      simp [h1, hT]

/-! ## C5: the gap check -/

/-- C5 (as stated) fails: in this complete two-entry index the trixelIds are 0, 1 and the
only pair of adjacent non-empty entries satisfies `offsetB - offsetA = recordCountB *
recordSize` (2239 - 100 = 3 * 713), so the claim predicts zero errors, but
`verifyIndexValidity` counts one: it compares the gap with the record count of A (2). -/
theorem index_gap_claim_counterexample :
    indexEntries false gapIndexBytes 0 2 =
      [{ trixelId := 0, offset := 100, nrecs := 2 }, { trixelId := 1, offset := 2239, nrecs := 3 }] ∧
    2239 - 100 = 3 * sizeof_starData ∧
    (verifyIndexValidity (nativeGlobals 2) { bytes := gapIndexBytes, pos := 0 } 0 0 0).nerr = 1 := by
  refine ⟨by decide, by decide, by decide⟩

/-- C5 (amended): on a complete index whose trixelIds are 0..T-1 in order, the error count of
`verifyIndexValidity` is the number of entries failing the gap check, where a non-empty
entry B fails when its nearest preceding non-empty entry A has a nonzero offset and
`recordCountA` differs from `((offsetB - offsetA) mod 2^64) / recordSize` rounded down.  So
exactly one failing pair gives exactly one error, and no failing pair gives zero. -/
theorem index_gap_count (g : Globals) (bytes : List Nat) (P t o n : Nat)
    (hlen : P + 16 * g.ntrixels ≤ bytes.length) (hT : g.ntrixels < 4294967296)
    (hid : ∀ i, i < g.ntrixels → (indexEntryAt g.byteswap bytes P i).trixelId = i) :
    (verifyIndexValidity g { bytes := bytes, pos := P } t o n).nerr =
      gapCount (indexEntries g.byteswap bytes P g.ntrixels) ∧
    ((∃ j, j < g.ntrixels ∧ gapBad (indexEntries g.byteswap bytes P g.ntrixels) j = true ∧
        ∀ i, i < g.ntrixels → i ≠ j →
          gapBad (indexEntries g.byteswap bytes P g.ntrixels) i = false) →
      (verifyIndexValidity g { bytes := bytes, pos := P } t o n).nerr = 1) ∧
    ((∀ i, i < g.ntrixels → gapBad (indexEntries g.byteswap bytes P g.ntrixels) i = false) →
      (verifyIndexValidity g { bytes := bytes, pos := P } t o n).nerr = 0) := by
  have h := (verifyIndexValidity_full g bytes P t o n hlen).1
  have hmap : (List.range g.ntrixels).map
      (entryErrors g.ntrixels (indexEntries g.byteswap bytes P g.ntrixels)) =
      (List.range g.ntrixels).map
        (fun i => if gapBad (indexEntries g.byteswap bytes P g.ntrixels) i then 1 else 0) := by
    apply List.map_congr_left
    intro i hi
    rw [List.mem_range] at hi
    have hi1 := hid i hi
    unfold entryErrors
    rw [indexEntries_get _ _ _ _ _ hi]
    simp only [hi1]
    rw [if_neg (by omega), if_neg (by simp)]
    simp
  rw [hmap, sum_indicator] at h
  have hle : ((List.range g.ntrixels).filter
      (gapBad (indexEntries g.byteswap bytes P g.ntrixels))).length ≤ g.ntrixels := by
    have := List.length_filter_le (gapBad (indexEntries g.byteswap bytes P g.ntrixels))
      (List.range g.ntrixels)
    simpa using this
  rw [Nat.mod_eq_of_lt (by omega)] at h
  have hc : gapCount (indexEntries g.byteswap bytes P g.ntrixels) =
      ((List.range g.ntrixels).filter
        (gapBad (indexEntries g.byteswap bytes P g.ntrixels))).length := by
    rw [gapCount, indexEntries_length]
  refine ⟨by rw [h, hc], ?_, ?_⟩
  · rintro ⟨j, hj, hb, ho⟩
    rw [h]
    exact filter_range_one _ _ j hj hb ho
  · intro hall
    rw [h]
    exact filter_range_none _ _ hall

/-- C5 witness: `index_gap_count` on the two-entry index, whose single pair fails the check. -/
theorem index_gap_count_witness :
    (verifyIndexValidity (nativeGlobals 2) { bytes := gapIndexBytes, pos := 0 } 0 0 0).nerr =
      gapCount (indexEntries false gapIndexBytes 0 2) ∧
    gapCount (indexEntries false gapIndexBytes 0 2) = 1 :=
  ⟨(index_gap_count (nativeGlobals 2) gapIndexBytes 0 0 0 0 (by decide) (by decide)
    (by decide)).1, by decide⟩

/-! ## C6: what zero index errors guarantee -/

/-- C6 (as stated) fails: this complete two-entry index passes `verifyIndexValidity` with
zero errors although entry 1 does not start where the data of entry 0 ends
(1531 ≠ 100 + 2 * 713): the check divides the gap by the record size and drops the
remainder. -/
theorem index_contiguity_counterexample :
    indexEntries false slackIndexBytes 0 2 =
      [{ trixelId := 0, offset := 100, nrecs := 2 }, { trixelId := 1, offset := 1531, nrecs := 1 }] ∧
    (verifyIndexValidity (nativeGlobals 2) { bytes := slackIndexBytes, pos := 0 } 0 0 0).nerr = 0 ∧
    1531 ≠ 100 + 2 * sizeof_starData := by
  refine ⟨by decide, by decide, by decide⟩

/-- C6 (amended): when `verifyIndexValidity` counts zero errors on a stream holding all `T`
entries (with `3 * T < 2^32`, so that the 32-bit counter cannot wrap), the trixelIds are
exactly 0, 1, ..., T-1 in file order, and for every non-empty entry B whose nearest preceding
non-empty entry A has a nonzero offset, `A.recordCount` equals
`((B.dataOffset - A.dataOffset) mod 2^64) / recordSize` rounded down. -/
theorem index_zero_errors (g : Globals) (bytes : List Nat) (P t o n : Nat)
    (hlen : P + 16 * g.ntrixels ≤ bytes.length) (h3 : 3 * g.ntrixels < 4294967296)
    (hz : (verifyIndexValidity g { bytes := bytes, pos := P } t o n).nerr = 0) :
    (∀ i, i < g.ntrixels → (indexEntryAt g.byteswap bytes P i).trixelId = i) ∧
    (∀ i A, i < g.ntrixels →
      prevNonEmpty (indexEntries g.byteswap bytes P g.ntrixels) i = some A →
      (indexEntryAt g.byteswap bytes P i).nrecs ≠ 0 → A.offset ≠ 0 →
      A.nrecs = gapQuot A.offset (indexEntryAt g.byteswap bytes P i).offset) := by
  have h := (verifyIndexValidity_full g bytes P t o n hlen).1
  have hle := sum_map_le (entryErrors g.ntrixels (indexEntries g.byteswap bytes P g.ntrixels)) 3
    (entryErrors_le _ _) (List.range g.ntrixels)
  rw [List.length_range] at hle
  rw [Nat.mod_eq_of_lt (by omega), hz] at h
  have hall : ∀ i, i < g.ntrixels →
      entryErrors g.ntrixels (indexEntries g.byteswap bytes P g.ntrixels) i = 0 := by
    intro i hi
    have := (List.sum_eq_zero_iff.1 h.symm)
      (entryErrors g.ntrixels (indexEntries g.byteswap bytes P g.ntrixels) i)
      (List.mem_map.2 ⟨i, List.mem_range.2 hi, rfl⟩)
    exact this
  constructor
  · intro i hi
    have := hall i hi
    unfold entryErrors at this
    rw [indexEntries_get _ _ _ _ _ hi] at this
    simp only [] at this
    by_contra hne
    rw [if_pos hne] at this
    omega
  · intro i A hi hA hB hA0
    have := hall i hi
    unfold entryErrors at this
    rw [indexEntries_get _ _ _ _ _ hi] at this
    simp only [] at this
    by_contra hne
    have hbad : gapBad (indexEntries g.byteswap bytes P g.ntrixels) i = true := by
      unfold gapBad
      rw [indexEntries_get _ _ _ _ _ hi, hA]
      simp [hB, hA0, hne]
    rw [hbad] at this
    simp at this

/-- C6 witness: `index_zero_errors` on the two-entry index with a 5-byte remainder: the ids
are in order and the record count of entry 0 is the quotient (1531 - 100) / 713 = 2. -/
theorem index_zero_errors_witness :
    (∀ i, i < 2 → (indexEntryAt false slackIndexBytes 0 i).trixelId = i) ∧
    (∀ i A, i < 2 → prevNonEmpty (indexEntries false slackIndexBytes 0 2) i = some A →
      (indexEntryAt false slackIndexBytes 0 i).nrecs ≠ 0 → A.offset ≠ 0 →
      A.nrecs = gapQuot A.offset (indexEntryAt false slackIndexBytes 0 i).offset) :=
  index_zero_errors (nativeGlobals 2) slackIndexBytes 0 0 0 0 (by decide) (by decide)
    (by decide)

/-! ## C7: the value returned by verifyStarData -/

theorem recordLoop_nerr_ge (bs : Bool) : ∀ n (s : RecordScan),
    s.nerr_trixel ≤ (recordLoop bs n s).nerr_trixel := by
  intro n
  induction n with
  | zero => intro s; simp [recordLoop]
  | succ n ih =>
    intro s
    rw [recordLoop]
    refine le_trans ?_ (ih _)
    simp only []
    split_ifs <;> omega

theorem recordLoop_nerr_nonneg (bs : Bool) (n : Nat) (f : FILE) (d : starData) (m rf : Int) :
    0 ≤ (recordLoop bs n ⟨f, d, m, rf, 0⟩).nerr_trixel :=
  recordLoop_nerr_ge bs n ⟨f, d, m, rf, 0⟩

theorem recordLoop_nerr_le (bs : Bool) : ∀ n (s : RecordScan),
    (recordLoop bs n s).nerr_trixel ≤ s.nerr_trixel + n := by
  intro n
  induction n with
  | zero => intro s; simp [recordLoop]
  | succ n ih =>
    intro s
    rw [recordLoop]
    refine le_trans (ih _) ?_
    simp only []
    push_cast
    split_ifs <;> omega

theorem wrapInt32_eq (x : Int) (h1 : -2147483648 ≤ x) (h2 : x < 2147483648) :
    wrapInt32 x = x := by
  unfold wrapInt32; omega

theorem wrapInt32_range (x : Int) : -2147483648 ≤ wrapInt32 x ∧ wrapInt32 x < 2147483648 := by
  unfold wrapInt32; omega

theorem wrapInt32_idem (x : Int) : wrapInt32 (wrapInt32 x) = wrapInt32 x := by
  unfold wrapInt32; omega

theorem wrapInt32_add_left (a b : Int) : wrapInt32 (wrapInt32 a + b) = wrapInt32 (a + b) := by
  unfold wrapInt32; omega

theorem wrapInt32_add_right (a b : Int) : wrapInt32 (a + wrapInt32 b) = wrapInt32 (a + b) := by
  unfold wrapInt32; omega

/-- The error count after the two aggregate checks, when no `int` wraps. -/
theorem nerr_exact (j : Int) (a b : Prop) [Decidable a] [Decidable b] (h0 : 0 ≤ j)
    (h1 : j < 2147483646) :
    (if b then wrapInt32 ((if a then wrapInt32 (j + 1) else j) + 1)
      else (if a then wrapInt32 (j + 1) else j)) =
      j + (if a then 1 else 0) + (if b then 1 else 0) := by
  have e1 : wrapInt32 (j + 1) = j + 1 := wrapInt32_eq _ (by omega) (by omega)
  have e2 : wrapInt32 (j + 1 + 1) = j + 1 + 1 := wrapInt32_eq _ (by omega) (by omega)
  by_cases ha : a <;> by_cases hb : b <;> simp [ha, hb, e1, e2]

/-- The error count after the two aggregate checks, as a wrapped sum. -/
theorem nerr_wrapped (j : Int) (a b : Prop) [Decidable a] [Decidable b]
    (hj : wrapInt32 j = j) :
    (if b then wrapInt32 ((if a then wrapInt32 (j + 1) else j) + 1)
      else (if a then wrapInt32 (j + 1) else j)) =
      wrapInt32 (j + (if a then 1 else 0) + (if b then 1 else 0)) := by
  by_cases ha : a <;> by_cases hb : b <;>
    simp only [ha, hb, if_true, if_false, wrapInt32_add_left, Int.add_zero, hj]

theorem trixelBody_counts (fr : Frame) (g : Globals) (i : Nat) (s : StarScan)
    (hs : wrapInt32 s.nerr = s.nerr) :
    ∃ c : Int, (trixelBody fr g i s).counts = s.counts ++ [c] ∧
      (trixelBody fr g i s).nerr = wrapInt32 (s.nerr + c) := by
  unfold trixelBody
  simp only []
  split_ifs
  all_goals first
    | exact ⟨0, rfl, by rw [Int.add_zero, hs]⟩
    | exact ⟨_, rfl, rfl⟩

/-- The trixel loop adds one entry per trixel to `counts`, and `nerr` is the wrapped sum of
what it held and the entries added. -/
theorem trixelLoop_counts (fr : Frame) (g : Globals) : ∀ n i (s : StarScan), wrapInt32 s.nerr = s.nerr →
    ∃ cs : List Int, (trixelLoop fr g n i s).counts = s.counts ++ cs ∧ cs.length = n ∧
      (trixelLoop fr g n i s).nerr = wrapInt32 (s.nerr + cs.sum) := by
  intro n
  induction n with
  | zero => intro i s hs; exact ⟨[], by simp [trixelLoop], rfl, by simp [trixelLoop, hs]⟩
  | succ n ih =>
    intro i s hs
    obtain ⟨c, hc1, hc2⟩ := trixelBody_counts fr g i s hs
    have hs1 : wrapInt32 (trixelBody fr g i s).nerr = (trixelBody fr g i s).nerr := by
      rw [hc2, wrapInt32_idem]
    obtain ⟨cs, h1, h2, h3⟩ := ih (i + 1) (trixelBody fr g i s) hs1
    refine ⟨c :: cs, ?_, by simp [h2], ?_⟩
    · rw [trixelLoop, h1, hc1]; simp
    · rw [trixelLoop, h3, hc2, wrapInt32_add_left, List.sum_cons, add_assoc]

/-- C8 (code at the failing inputs): when the index is cut short, `verifyIndexValidity`
reports zero errors.  The first file ends right after the header, the second 10 bytes into
the only index entry (tried with two different initial values of the uninitialised
`nrecs`); in each case the count stays 0 because the statement executed on a failed read is
`+nerr;`, not `++nerr;`, and the reads of `offset` and `nrecs` are not checked. -/
theorem index_truncation_not_counted :
    (runValidators 16 headerOneTrixel zeroLocals).1.nerr = 0 ∧
    (runValidators 16 truncatedIndexFile zeroLocals).1.nerr = 0 ∧
    (runValidators 16 truncatedIndexFile staleLocals).1.nerr = 0 := by
  refine ⟨by decide, by decide, by decide⟩

/-! ## C9: the HTM level check -/

theorem ret_zero_iff (r : StarFinal) : (StarResult.finished r).ret = 0 ↔ 0 < r.nerr := by
  simp only [StarResult.ret]
  split_ifs with hpos
  · simp [hpos]
  · simp [hpos]

theorem leAt_one (bytes : List Nat) (q b : Nat) (h : bytes[q]? = some b) :
    leAt bytes q 1 = b := by
  obtain ⟨hq, hb⟩ := List.getElem?_eq_some_iff.1 h
  unfold leAt
  rw [List.drop_eq_getElem_cons hq, hb]
  simp [leNat]

/-- C9: when the HTM level byte of the file differs from 6, `verifyStarData` returns failure
at once: the stream has moved past the 3 bytes of the faint magnitude and the level only
(the declared max-stars-per-trixel, the index and the records are not read), whatever the
rest of the file holds.  When the byte is 6 the function runs to its final report and returns
failure only if it counted at least one error. -/
theorem htm_mismatch_fatal (g : Globals) (bytes : List Nat) (p b : Nat) (l : StarLocals)
    (hb : bytes[p + 2]? = some b) (h256 : b < 256) :
    (b ≠ 6 → verifyStarData g { bytes := bytes, pos := p } l =
        StarResult.formatMismatch { bytes := bytes, pos := p + 3 } ∧
      (verifyStarData g { bytes := bytes, pos := p } l).ret = 0) ∧
    (b = 6 → ∃ r, verifyStarData g { bytes := bytes, pos := p } l = StarResult.finished r ∧
      ((verifyStarData g { bytes := bytes, pos := p } l).ret = 0 ↔ 0 < r.nerr)) := by
  have hlen : p + 2 < bytes.length := (List.getElem?_eq_some_iff.1 hb).1
  have h1 : freadScalar l.faintMag 2 { bytes := bytes, pos := p } =
      (leAt bytes p 2, 1, { bytes := bytes, pos := p + 2 }) :=
    freadScalar_full _ _ _ _ (by omega)
  have h2 : freadScalar l.HTM_Level 1 { bytes := bytes, pos := p + 2 } =
      (b, 1, { bytes := bytes, pos := p + 3 }) := by
    rw [freadScalar_full _ _ _ _ (by omega), leAt_one _ _ _ hb]
  have h8 : toInt8 b = HTM_LEVEL ↔ b = 6 := by
    unfold toInt8 HTM_LEVEL
    rw [Nat.mod_eq_of_lt h256]
    split_ifs with hlt <;> omega
  constructor
  · intro hne
    have hne8 : toInt8 b ≠ HTM_LEVEL := fun hc => hne (h8.1 hc)
    have : verifyStarData g { bytes := bytes, pos := p } l =
        StarResult.formatMismatch { bytes := bytes, pos := p + 3 } := by
      unfold verifyStarData
      simp only [h1, h2]
      rw [if_pos hne8]
    rw [this]
    exact ⟨rfl, rfl⟩
  · intro heq
    have heq8 : ¬ (toInt8 b ≠ HTM_LEVEL) := fun hc => hc (h8.2 heq)
    unfold verifyStarData
    simp only [h1, h2]
    rw [if_neg heq8]
    exact ⟨_, rfl, ret_zero_iff _⟩

/-- C9 witness: `htm_mismatch_fatal` on a data section that declares level 5. -/
theorem htm_mismatch_fatal_witness :
    verifyStarData (nativeGlobals 1) { bytes := wrongLevelBytes, pos := 0 } zeroLocals.star =
      StarResult.formatMismatch { bytes := wrongLevelBytes, pos := 3 } :=
  ((htm_mismatch_fatal (nativeGlobals 1) wrongLevelBytes 0 5 zeroLocals.star (by decide)
    (by decide)).1 (by decide)).1

/-! ## The data scan -/

theorem fread_bytes (obj : List Nat) (size : Nat) (f : FILE) :
    (fread obj size f).2.2.bytes = f.bytes := rfl

theorem freadScalar_bytes (old size : Nat) (f : FILE) :
    (freadScalar old size f).2.2.bytes = f.bytes := rfl

theorem recordLoop_bytes (bs : Bool) : ∀ n (s : RecordScan),
    (recordLoop bs n s).f.bytes = s.f.bytes := by
  intro n
  induction n with
  | zero => intro s; rfl
  | succ n ih =>
    intro s
    rw [recordLoop, ih]
    rfl

theorem trixelBody_bytes (fr : Frame) (g : Globals) (i : Nat) (s : StarScan) :
    (trixelBody fr g i s).f.bytes = s.f.bytes := by
  unfold trixelBody
  simp only []
  split_ifs
  all_goals first
    | rfl
    | exact recordLoop_bytes _ _ _

theorem ofBytes_mag (bytes : List Nat) (p : Nat) (rest : List Nat) :
    (starData.ofBytes ((bytes.drop p).take 713 ++ rest)).mag = leAt bytes (p + 24) 2 ∨
      bytes.length < p + 713 := by
  by_cases h : p + 713 ≤ bytes.length
  · left
    have hl : ((bytes.drop p).take 713).length = 713 := by
      rw [List.length_take, List.length_drop]; omega
    show leNat ((((bytes.drop p).take 713 ++ rest).drop 24).take 2) = leAt bytes (p + 24) 2
    rw [List.drop_append_of_le_length (by omega), List.take_append_of_le_length
      (by rw [List.length_drop]; omega), List.drop_take, List.take_take, List.drop_drop]
    rfl
  · right; omega

theorem recordLoop_full (bs : Bool) (bytes : List Nat) : ∀ n p (d : starData) (mag rf ne : Int),
    p + 713 * n ≤ bytes.length →
    ((recordLoop bs n ⟨⟨bytes, p⟩, d, mag, rf, ne⟩).mag,
      (recordLoop bs n ⟨⟨bytes, p⟩, d, mag, rf, ne⟩).realFaintMag,
      (recordLoop bs n ⟨⟨bytes, p⟩, d, mag, rf, ne⟩).nerr_trixel) =
      (recMags bs bytes p n).foldl magStep (mag, rf, ne) := by
  intro n
  induction n with
  | zero => intro p d mag rf ne _; rfl
  | succ n ih =>
    intro p d mag rf ne hlen
    have hf : fread d.toBytes sizeof_starData ⟨bytes, p⟩ =
        ((bytes.drop p).take 713 ++ d.toBytes.drop 713, 1, ⟨bytes, p + 713⟩) :=
      fread_full _ 713 _ _ (by omega)
    have hm : (starData.ofBytes ((bytes.drop p).take 713 ++ d.toBytes.drop 713)).mag =
        leAt bytes (p + 24) 2 := by
      rcases ofBytes_mag bytes p (d.toBytes.drop 713) with h | h
      · exact h
      · omega
    have hmag : (if bs = true then
          bswap_stardata (starData.ofBytes ((bytes.drop p).take 713 ++ d.toBytes.drop 713))
        else starData.ofBytes ((bytes.drop p).take 713 ++ d.toBytes.drop 713)).mag =
        recMag bs bytes p := by
      cases bs with
      | false => simp only [Bool.false_eq_true, if_false]; rw [hm]; rfl
      | true => simp only [if_true]; show bswap_16 _ = _; rw [hm]; rfl
    rw [recordLoop]
    simp only [hf, hmag]
    rw [ih (p + 713) _ _ _ _ (by omega)]
    rfl

theorem trixel_reads (g : Globals) (bytes : List Nat) (f : FILE) (obj : List Nat) (i : Nat)
    (hb : f.bytes = bytes) (hlen : g.index_offset + 16 * i + 16 ≤ bytes.length) :
    leNat ((fread obj 8
        (fseek f (g.index_offset + i * INDEX_ENTRY_SIZE + 4))).1.take 4) =
      rawOffset bytes g.index_offset i ∧
    ∀ ns, freadScalar ns 4 (fread obj 8
        (fseek f (g.index_offset + i * INDEX_ENTRY_SIZE + 4))).2.2 =
      (rawCount bytes g.index_offset i, 1, ⟨bytes, g.index_offset + 16 * i + 16⟩) := by
  have hq : g.index_offset + i * INDEX_ENTRY_SIZE + 4 = g.index_offset + 16 * i + 4 := by
    unfold INDEX_ENTRY_SIZE; omega
  have hs : fseek f (g.index_offset + i * INDEX_ENTRY_SIZE + 4) =
      ⟨bytes, g.index_offset + 16 * i + 4⟩ := by
    rw [hq]; unfold fseek; rw [hb]
  rw [hs, fread_full _ 8 _ _ (by omega)]
  constructor
  · have hl : ((bytes.drop (g.index_offset + 16 * i + 4)).take 8).length = 8 := by
      rw [List.length_take, List.length_drop]; omega
    show leNat (((bytes.drop (g.index_offset + 16 * i + 4)).take 8 ++ _).take 4) = _
    rw [List.take_append_of_le_length (by omega), List.take_take]
    rfl
  · intro ns
    show freadScalar ns 4 ⟨bytes, g.index_offset + 16 * i + 4 + 8⟩ = _
    rw [freadScalar_full _ 4 _ _ (by omega)]
    have e1 : g.index_offset + 16 * i + 4 + 8 = g.index_offset + 16 * i + 12 := by omega
    have e2 : g.index_offset + 16 * i + 4 + 8 + 4 = g.index_offset + 16 * i + 16 := by omega
    rw [e2, e1]
    rfl

theorem msptStep_zero (r : Nat) : msptStep r 0 = r := by
  simp [msptStep]

/-- One iteration of the trixel loop when the index entry is in the file: the count and the
offset are those of the entry, whatever `offset` and `nstars` held; the record loop starts
with a record buffer `d`, which is the one held before when `nstars` follows `offset`. -/
theorem trixelBody_full (fr : Frame) (g : Globals) (bytes : List Nat) (i : Nat) (s : StarScan)
    (hb : s.f.bytes = bytes) (hlen : g.index_offset + 16 * i + 16 ≤ bytes.length) :
    ∃ d : starData, (fr = Frame.nstarsAfterOffset → d = s.data) ∧
    trixelBody fr g i s =
      if rawCount bytes g.index_offset i = 0 then
        { s with f := ⟨bytes, g.index_offset + 16 * i + 16⟩, data := d,
                 offset := rawOffset bytes g.index_offset i,
                 nstars := rawCount bytes g.index_offset i, mag := -500,
                 counts := s.counts ++ [0] }
      else
        { f := (recordLoop g.byteswap (rawCount bytes g.index_offset i)
            ⟨⟨bytes, rawOffset bytes g.index_offset i⟩, d, -500, s.realFaintMag, 0⟩).f,
          data := (recordLoop g.byteswap (rawCount bytes g.index_offset i)
            ⟨⟨bytes, rawOffset bytes g.index_offset i⟩, d, -500, s.realFaintMag, 0⟩).data,
          offset := rawOffset bytes g.index_offset i,
          nstars := rawCount bytes g.index_offset i,
          mag := (recordLoop g.byteswap (rawCount bytes g.index_offset i)
            ⟨⟨bytes, rawOffset bytes g.index_offset i⟩, d, -500, s.realFaintMag, 0⟩).mag,
          realFaintMag := (recordLoop g.byteswap (rawCount bytes g.index_offset i)
            ⟨⟨bytes, rawOffset bytes g.index_offset i⟩, d, -500,
              s.realFaintMag, 0⟩).realFaintMag,
          realMSpT := msptStep s.realMSpT (rawCount bytes g.index_offset i),
          nerr := wrapInt32 (s.nerr + wrapInt32 (recordLoop g.byteswap
            (rawCount bytes g.index_offset i)
            ⟨⟨bytes, rawOffset bytes g.index_offset i⟩, d, -500,
              s.realFaintMag, 0⟩).nerr_trixel),
          counts := s.counts ++ [wrapInt32 (recordLoop g.byteswap
            (rawCount bytes g.index_offset i)
            ⟨⟨bytes, rawOffset bytes g.index_offset i⟩, d, -500,
              s.realFaintMag, 0⟩).nerr_trixel] } := by
  cases fr with
  | nstarsAfterOffset =>
    obtain ⟨h1, h2⟩ := trixel_reads g bytes s.f (leBytes 4 s.offset ++ leBytes 4 s.nstars) i
      hb hlen
    refine ⟨s.data, fun _ => rfl, ?_⟩
    unfold trixelBody
    simp only [h1, h2]
    rfl
  | dataAfterOffset =>
    obtain ⟨h1, h2⟩ := trixel_reads g bytes s.f (leBytes 4 s.offset ++ s.data.toBytes.take 4) i
      hb hlen
    refine ⟨starData.ofBytes (((fread (leBytes 4 s.offset ++ s.data.toBytes.take 4) 8
      (fseek s.f (g.index_offset + i * INDEX_ENTRY_SIZE + 4))).1.drop 4).take 4 ++
        s.data.toBytes.drop 4), fun h => Frame.noConfusion h, ?_⟩
    unfold trixelBody
    simp only [h1, h2]
    rfl

/-- On a file that holds the whole index and declares fewer than `2^31` records in all, no
counter of the trixel loop wraps: the per-trixel counts are non-negative, each at most the
record count of its trixel, and `nerr` grows by their sum. -/
theorem trixelLoop_bounded (fr : Frame) (g : Globals) (bytes : List Nat) : ∀ n i (s : StarScan),
    s.f.bytes = bytes → g.index_offset + 16 * (i + n) ≤ bytes.length → 0 ≤ s.nerr →
    s.nerr + (((List.range' i n).map (rawCount bytes g.index_offset)).sum : Nat) < 2147483648 →
    ∃ cs : List Int, (trixelLoop fr g n i s).counts = s.counts ++ cs ∧ (∀ c, c ∈ cs → 0 ≤ c) ∧
      (trixelLoop fr g n i s).nerr = s.nerr + cs.sum ∧
      cs.sum ≤ (((List.range' i n).map (rawCount bytes g.index_offset)).sum : Nat) := by
  intro n
  induction n with
  | zero =>
    intro i s _ _ _ _
    exact ⟨[], by simp [trixelLoop], by simp, by simp [trixelLoop], by simp⟩
  | succ n ih =>
    intro i s hb hlen h0 hsum
    obtain ⟨d, _, hB⟩ := trixelBody_full fr g bytes i s hb (by omega)
    rw [List.range'_succ, List.map_cons, List.sum_cons, Nat.cast_add] at hsum ⊢
    have hk0 := recordLoop_nerr_nonneg g.byteswap (rawCount bytes g.index_offset i)
      ⟨bytes, rawOffset bytes g.index_offset i⟩ d (-500) s.realFaintMag
    have hk1 := recordLoop_nerr_le g.byteswap (rawCount bytes g.index_offset i)
      ⟨⟨bytes, rawOffset bytes g.index_offset i⟩, d, -500, s.realFaintMag, 0⟩
    simp only [Int.zero_add] at hk1
    generalize (recordLoop g.byteswap (rawCount bytes g.index_offset i)
      ⟨⟨bytes, rawOffset bytes g.index_offset i⟩, d, -500,
        s.realFaintMag, 0⟩).nerr_trixel = k at hB hk0 hk1
    have hS : (0 : Int) ≤ (((List.range' (i + 1) n).map (rawCount bytes g.index_offset)).sum : Nat) :=
      Int.natCast_nonneg _
    have hbB : (trixelBody fr g i s).f.bytes = bytes := (trixelBody_bytes fr g i s).trans hb
    by_cases hz : rawCount bytes g.index_offset i = 0
    · rw [if_pos hz] at hB
      have hn : (trixelBody fr g i s).nerr = s.nerr := by rw [hB]
      have hc : (trixelBody fr g i s).counts = s.counts ++ [0] := by rw [hB]
      obtain ⟨cs, c1, c2, c3, c4⟩ := ih (i + 1) (trixelBody fr g i s) hbB (by omega)
        (by rw [hn]; exact h0) (by rw [hn]; omega)
      refine ⟨0 :: cs, ?_, ?_, ?_, ?_⟩
      · rw [trixelLoop, c1, hc]; simp
      · intro c hc'
        rcases List.mem_cons.1 hc' with rfl | h
        · exact le_refl _
        · exact c2 c h
      · rw [trixelLoop, c3, hn]; simp
      · rw [List.sum_cons]; omega
    · rw [if_neg hz] at hB
      have hw : wrapInt32 k = k := wrapInt32_eq k (by omega) (by omega)
      have hn : (trixelBody fr g i s).nerr = s.nerr + k := by
        rw [hB]; dsimp only; rw [hw]; exact wrapInt32_eq _ (by omega) (by omega)
      have hc : (trixelBody fr g i s).counts = s.counts ++ [k] := by
        rw [hB]; dsimp only; rw [hw]
      obtain ⟨cs, c1, c2, c3, c4⟩ := ih (i + 1) (trixelBody fr g i s) hbB (by omega)
        (by rw [hn]; omega) (by rw [hn]; omega)
      refine ⟨k :: cs, ?_, ?_, ?_, ?_⟩
      · rw [trixelLoop, c1, hc]; simp
      · intro c hc'
        rcases List.mem_cons.1 hc' with rfl | h
        · exact hk0
        · exact c2 c h
      · rw [trixelLoop, c3, hn, List.sum_cons]; omega
      · rw [List.sum_cons]; omega

/-- The value of `realMSpT` after the trixel loop, on a file that holds the whole index:
the fold of `msptStep` over the record counts. -/
theorem trixelLoop_realMSpT (fr : Frame) (g : Globals) (bytes : List Nat) : ∀ n i (s : StarScan),
    s.f.bytes = bytes → g.index_offset + 16 * (i + n) ≤ bytes.length →
    (trixelLoop fr g n i s).realMSpT =
      ((List.range' i n).map (rawCount bytes g.index_offset)).foldl msptStep s.realMSpT := by
  intro n
  induction n with
  | zero => intro i s _ _; rfl
  | succ n ih =>
    intro i s hb hlen
    obtain ⟨d, _, hB⟩ := trixelBody_full fr g bytes i s hb (by omega)
    have hbB : (trixelBody fr g i s).f.bytes = bytes := (trixelBody_bytes fr g i s).trans hb
    rw [trixelLoop, List.range'_succ, List.map_cons, List.foldl_cons,
      ih _ _ hbB (by omega)]
    congr 1
    by_cases hz : rawCount bytes g.index_offset i = 0
    · rw [if_pos hz] at hB
      rw [hB, hz, msptStep_zero]
    · rw [if_neg hz] at hB
      rw [hB]

/-- On a stream that holds the 5 bytes of the data-section header with HTM level 6 and, at
`index_offset`, the whole index, `verifyStarData` reaches its final report; the candidate
`realMSpT` is the fold of `msptStep` over the record counts, and `nerr` is the wrapped sum of
the jump count and one for each of the two aggregate mismatches.  When the index declares
fewer than `2^31 - 2` records in all, no counter wraps. -/
theorem verifyStarData_finished (g : Globals) (bytes : List Nat) (p : Nat) (l : StarLocals)
    (hlen : p + 5 ≤ bytes.length) (hHTM : leAt bytes (p + 2) 1 = 6)
    (hidx : g.index_offset + 16 * g.ntrixels ≤ bytes.length) :
    ∃ r, verifyStarData g ⟨bytes, p⟩ l = StarResult.finished r ∧
      r.faintMag = toInt16 (leAt bytes p 2) ∧ r.MSpT = leAt bytes (p + 3) 2 ∧
      r.realMSpT =
        ((List.range g.ntrixels).map (rawCount bytes g.index_offset)).foldl msptStep 0 ∧
      r.nerr = wrapInt32 (r.jumps + (if r.MSpT ≠ r.realMSpT then 1 else 0) +
        (if r.realFaintMag ≠ r.faintMag then 1 else 0)) ∧
      (((List.range g.ntrixels).map (rawCount bytes g.index_offset)).sum < 2147483646 →
        (∀ c, c ∈ r.counts → 0 ≤ c) ∧ r.jumps = r.counts.sum ∧ 0 ≤ r.jumps ∧
        r.jumps ≤ (((List.range g.ntrixels).map (rawCount bytes g.index_offset)).sum : Nat) ∧
        r.nerr = r.jumps + (if r.MSpT ≠ r.realMSpT then 1 else 0) +
          (if r.realFaintMag ≠ r.faintMag then 1 else 0)) := by
  have h1 : freadScalar l.faintMag 2 ⟨bytes, p⟩ = (leAt bytes p 2, 1, ⟨bytes, p + 2⟩) :=
    freadScalar_full _ _ _ _ (by omega)
  have h2 : freadScalar l.HTM_Level 1 ⟨bytes, p + 2⟩ = (6, 1, ⟨bytes, p + 3⟩) := by
    rw [freadScalar_full _ _ _ _ (by omega), hHTM]
  have h3 : freadScalar l.MSpT 2 ⟨bytes, p + 3⟩ = (leAt bytes (p + 3) 2, 1, ⟨bytes, p + 5⟩) :=
    freadScalar_full _ _ _ _ (by omega)
  have h6 : ¬ (toInt8 6 ≠ HTM_LEVEL) := by decide
  obtain ⟨cs, hc1, _, hc3⟩ := trixelLoop_counts l.frame g g.ntrixels 0
    ⟨⟨bytes, p + 5⟩, l.data, l.offset, l.nstars, -500, -500, 0, 0, []⟩ rfl
  have hfix : wrapInt32 (trixelLoop l.frame g g.ntrixels 0
      ⟨⟨bytes, p + 5⟩, l.data, l.offset, l.nstars, -500, -500, 0, 0, []⟩).nerr =
      (trixelLoop l.frame g g.ntrixels 0
        ⟨⟨bytes, p + 5⟩, l.data, l.offset, l.nstars, -500, -500, 0, 0, []⟩).nerr := by
    rw [hc3, wrapInt32_idem]
  unfold verifyStarData
  simp only [h1, h2, h3]
  rw [if_neg h6]
  refine ⟨_, rfl, rfl, rfl, ?_, ?_, ?_⟩
  · dsimp only
    rw [trixelLoop_realMSpT l.frame g bytes g.ntrixels 0 _ rfl (by omega), List.range_eq_range']
  · dsimp only
    exact nerr_wrapped _ _ _ hfix
  · intro hsum
    obtain ⟨ds, hd1, hd2, hd3, hd4⟩ := trixelLoop_bounded l.frame g bytes g.ntrixels 0
      ⟨⟨bytes, p + 5⟩, l.data, l.offset, l.nstars, -500, -500, 0, 0, []⟩ rfl (by omega)
      (le_refl _) (by rw [← List.range_eq_range']; dsimp only; omega)
    rw [← List.range_eq_range'] at hd4
    dsimp only at hd1 hd3 ⊢
    rw [List.nil_append] at hd1
    rw [Int.zero_add] at hd3
    have hsum0 : 0 ≤ ds.sum := List.sum_nonneg hd2
    refine ⟨by rw [hd1]; exact hd2, by rw [hd1, hd3], by rw [hd3]; exact hsum0,
      by rw [hd3]; exact hd4, ?_⟩
    exact nerr_exact _ _ _ (by rw [hd3]; exact hsum0) (by rw [hd3]; omega)

/-! ## C10: the candidate max-stars-per-trixel -/

theorem leAt_append_left (pre rest : List Nat) (p n : Nat) (h : p + n ≤ pre.length) :
    leAt (pre ++ rest) p n = leAt pre p n := by
  unfold leAt
  rw [List.drop_append_of_le_length (by omega), List.take_append_of_le_length
    (by rw [List.length_drop]; omega)]

theorem bigTrixelFile_length : bigTrixelFile.length = 154 + 65536 * 713 := by
  unfold bigTrixelFile
  rw [List.length_append, List.length_replicate]
  rfl

/-- C10 (code at the failing input): the only trixel of this catalog declares 65536 records,
so the true maximum record count is 65536, but `realMSpT` is a 16-bit variable and ends as
0; it equals the declared value 0, so no max-stars-per-trixel mismatch is counted. -/
theorem realMSpT_truncates :
    (indexEntryAt false bigTrixelFile 133 0).nrecs = 65536 ∧
    ∃ r, verifyStarData oneTrixelGlobals ⟨bigTrixelFile, 149⟩ zeroLocals.star =
        StarResult.finished r ∧
      r.MSpT = 0 ∧ r.realMSpT = 0 ∧
      r.nerr = r.jumps + (if r.realFaintMag ≠ r.faintMag then 1 else 0) := by
  have hpl : bigTrixelPrefix.length = 154 := by
    simp [bigTrixelPrefix, headerOneTrixel]
  have hc : rawCount bigTrixelFile 133 0 = 65536 := by
    unfold rawCount bigTrixelFile
    rw [leAt_append_left _ _ _ _ (by omega)]
    decide
  have hH : leAt bigTrixelFile (149 + 2) 1 = 6 := by
    unfold bigTrixelFile
    rw [leAt_append_left _ _ _ _ (by omega)]
    decide
  have hM0 : leAt bigTrixelFile (149 + 3) 2 = 0 := by
    unfold bigTrixelFile
    rw [leAt_append_left _ _ _ _ (by omega)]
    decide
  refine ⟨hc, ?_⟩
  obtain ⟨r, hr, _, hM, hR, _, hb⟩ := verifyStarData_finished oneTrixelGlobals bigTrixelFile 149
    zeroLocals.star (by rw [bigTrixelFile_length]; omega) hH
    (by rw [bigTrixelFile_length]; decide)
  have hn := (hb (by
    show ((List.range 1).map (rawCount bigTrixelFile 133)).sum < 2147483646
    simp only [List.range_succ, List.range_zero, List.nil_append, List.map_cons, List.map_nil,
      List.sum_cons, List.sum_nil, hc]
    decide)).2.2.2.2
  have hR0 : r.realMSpT = 0 := by
    rw [hR]
    show ((List.range 1).map (rawCount bigTrixelFile 133)).foldl msptStep 0 = 0
    simp only [List.range_succ, List.range_zero, List.nil_append, List.map_cons, List.map_nil,
      List.foldl_cons, List.foldl_nil, hc]
    decide
  refine ⟨r, hr, by rw [hM, hM0], hR0, ?_⟩
  rw [hn, hM, hM0, hR0]
  simp

/-! ## Single-precision arithmetic on whole numbers -/

theorem fscale_eq : fscale = 2 ^ 149 := by decide

theorem bitLen_le : ∀ fuel a k, a < 2 ^ k → bitLen fuel a ≤ k := by
  intro fuel
  induction fuel with
  | zero => intro a k _; simp [bitLen]
  | succ n ih =>
    intro a k h
    rw [bitLen]
    by_cases ha : a = 0
    · rw [if_pos ha]; omega
    · rw [if_neg ha]
      cases k with
      | zero => simp at h; omega
      | succ k =>
        have : a / 2 < 2 ^ k := by
          rw [Nat.pow_succ] at h; omega
        have := ih (a / 2) k this
        omega

theorem roundNearestEven_exact (n : Nat) (hn : n < 2 ^ 24) :
    roundNearestEven (n * fscale) = n * fscale := by
  have hlt : n * fscale < 2 ^ 173 := by
    rw [fscale_eq]
    calc n * 2 ^ 149 < 2 ^ 24 * 2 ^ 149 := Nat.mul_lt_mul_of_pos_right hn (by positivity)
      _ = 2 ^ 173 := by rw [← Nat.pow_add]
  have hj : bitLen (n * fscale) (n * fscale) - 24 ≤ 149 := by
    have := bitLen_le (n * fscale) (n * fscale) 173 hlt
    omega
  unfold roundNearestEven
  simp only []
  generalize bitLen (n * fscale) (n * fscale) - 24 = j at hj ⊢
  have hdvd : 2 ^ j ∣ n * fscale := by
    rw [fscale_eq]
    exact Dvd.dvd.mul_left (Nat.pow_dvd_pow 2 hj) n
  have hr : n * fscale % 2 ^ j = 0 := Nat.mod_eq_zero_of_dvd hdvd
  have hpos : 0 < 2 ^ j := by positivity
  rw [hr, if_neg (by omega)]
  exact Nat.div_mul_cancel hdvd

theorem roundF32_int (n : Int) (hn : n.natAbs < 2 ^ 24) :
    roundF32 (n * (fscale : Int)) = FVal.fin (n * (fscale : Int)) := by
  have habs : (n * (fscale : Int)).natAbs = n.natAbs * fscale := by
    rw [Int.natAbs_mul, Int.natAbs_ofNat]
  have hlt : n.natAbs * fscale < foverflow := by
    have h1 : n.natAbs * fscale < 2 ^ 24 * fscale := by
      apply Nat.mul_lt_mul_of_pos_right hn
      rw [fscale_eq]; positivity
    have h2 : 2 ^ 24 * fscale ≤ foverflow := by decide
    omega
  unfold roundF32
  simp only [habs, roundNearestEven_exact _ hn]
  rw [if_neg (by omega)]
  congr 1
  have hpos : (0 : Int) < (fscale : Int) := by decide
  by_cases hneg : n * (fscale : Int) < 0
  · rw [if_pos hneg]
    have hn0 : n < 0 := by
      by_contra hc
      have : 0 ≤ n * (fscale : Int) := Int.mul_nonneg (by omega) (le_of_lt hpos)
      omega
    have : ((n.natAbs : Nat) : Int) = -n := by omega
    rw [Nat.cast_mul, this]
    ring
  · rw [if_neg hneg]
    have hn0 : 0 ≤ n := by
      by_contra hc
      have : n * (fscale : Int) < 0 := Int.mul_neg_of_neg_of_pos (by omega) hpos
      omega
    have : ((n.natAbs : Nat) : Int) = n := by omega
    rw [Nat.cast_mul, this]

theorem f32ToInt16_int (z : Int) (h1 : -32768 ≤ z) (h2 : z < 32768) :
    f32ToInt16 (FVal.fin (z * (fscale : Int))) = z := by
  have hpos : (fscale : Int) ≠ 0 := by decide
  unfold f32ToInt16
  simp only [Int.mul_tdiv_cancel _ hpos]
  rw [if_pos (by omega)]
  omega

theorem jumpTest_int (z zp : Int) (hz1 : -32768 ≤ z) (hz2 : z < 32768)
    (hp1 : -32768 ≤ zp) (hp2 : zp < 32768) :
    jumpTest (FVal.fin (z * (fscale : Int))) zp =
      ((decide (zp ≠ -500) && (decide (z - zp > 20) && decide (zp < 1250))) || decide (z < zp)) := by
  have hpos : (0 : Int) < (fscale : Int) := by decide
  have hsub : fsubInt (FVal.fin (z * (fscale : Int))) zp = FVal.fin ((z - zp) * (fscale : Int)) := by
    unfold fsubInt
    simp only []
    rw [← Int.sub_mul]
    exact roundF32_int _ (by omega)
  have hgt : fgtInt (FVal.fin ((z - zp) * (fscale : Int))) 20 = decide (z - zp > 20) := by
    unfold fgtInt
    simp only [gt_iff_lt]
    congr 1
    exact propext (mul_lt_mul_right hpos)
  have hlt : fltInt (FVal.fin (z * (fscale : Int))) zp = decide (z < zp) := by
    unfold fltInt
    simp only []
    congr 1
    exact propext (mul_lt_mul_right hpos)
  unfold jumpTest
  rw [hsub, hgt, hlt]

/-! ## Patterns and their values -/

theorem half_bits_finite (val : Nat) (hv : val < 65536) (he : val / 1024 % 32 ≠ 31) :
    half_to_float_bits val < 4294967296 ∧ half_to_float_bits val / 8388608 % 256 ≠ 255 := by
  have hs : val / 32768 < 2 := by omega
  by_cases hsub : val / 1024 % 32 = 0 ∧ val % 1024 ≠ 0
  · obtain ⟨he0, hm⟩ := hsub
    obtain ⟨k, hk1, hk10, hlo, hhi, hf⟩ := half_fields_subnormal val he0 hm
    have hpk := half_to_float_pack val _ _ hv hf (by omega) (by omega)
    unfold half_to_float_bits
    rw [hpk]
    constructor <;> dsimp only <;> omega
  · have hf := half_fields_normal val hsub
    have hm : val % 1024 < 1024 := Nat.mod_lt _ (by decide)
    have hpk := half_to_float_pack val _ _ hv hf (by split_ifs <;> omega) hm
    unfold half_to_float_bits
    rw [hpk]
    constructor <;> dsimp only <;> split_ifs <;> omega

theorem f32Val_fin (bits : Nat) (he : bits / 8388608 % 256 ≠ 255) :
    ∃ x : Int, f32Val bits = FVal.fin x ∧ (x : ℚ) = f32ToRat bits * 2 ^ 149 := by
  have hs : bits / 2147483648 % 2 = 0 ∨ bits / 2147483648 % 2 = 1 := by omega
  unfold f32Val f32ToRat
  simp only []
  rw [if_neg he]
  refine ⟨_, rfl, ?_⟩
  generalize bits / 8388608 % 256 = e at he
  generalize bits % 8388608 = fr
  by_cases he0 : e = 0
  · simp only [he0, if_true]
    rcases hs with h | h <;> simp only [h] <;> norm_num <;> ring
  · simp only [if_neg he0]
    have hexp : ((e : ℤ) - 127) = ((e - 1 : ℕ) : ℤ) + (-126 : ℤ) := by omega
    have hz : (2 : ℚ) ^ ((e : ℤ) - 127) = 2 ^ (e - 1) * 2 ^ (-126 : ℤ) := by
      rw [hexp, zpow_add₀ (by norm_num : (2 : ℚ) ≠ 0), zpow_natCast]
    rw [hz]
    rcases hs with h | h <;> simp only [h] <;> norm_num <;> ring

theorem wholeMag_val (b : Nat) (z : Int) (h : wholeMag b z) :
    f32Val (half_to_float_bits b) = FVal.fin (z * (fscale : Int)) := by
  obtain ⟨hb, he, hv⟩ := h
  obtain ⟨_, hfin⟩ := half_bits_finite b hb he
  obtain ⟨x, hx, hxv⟩ := f32Val_fin _ hfin
  rw [hx]
  congr 1
  rw [hv] at hxv
  have : (x : ℚ) = ((z * (fscale : Int) : Int) : ℚ) := by
    rw [hxv, fscale_eq]; push_cast; ring
  exact_mod_cast this

/-! ## C4: the magnitude rule -/

theorem magStep_whole (b : Nat) (z zp rf ne : Int) (h : wholeMag b z)
    (hz : -500 < z ∧ z < 32768) (hp : -500 ≤ zp ∧ zp < 32768) :
    magStep (zp, rf, ne) b =
      (z, (if z > rf then z else rf),
        (if ((decide (zp ≠ -500) && (decide (z - zp > 20) && decide (zp < 1250))) ||
          decide (z < zp)) then ne + 1 else ne)) := by
  unfold magStep
  simp only [wholeMag_val b z h]
  rw [f32ToInt16_int z (by omega) (by omega), jumpTest_int z zp (by omega) (by omega)
    (by omega) (by omega)]

theorem fold_whole_from (mags : List Nat) (zs : List Int) (h : List.Forall₂ wholeMag mags zs) :
    (∀ z, z ∈ zs → -500 < z ∧ z < 32768) →
    ∀ (zp rf ne : Int), -500 < zp ∧ zp < 32768 →
      (mags.foldl magStep (zp, rf, ne)).2.1 = zs.foldl max rf ∧
      (mags.foldl magStep (zp, rf, ne)).2.2 =
        ne + (specJumps ((zp :: zs).map fun (z : Int) => (z : ℚ)) : Nat) := by
  induction h with
  | nil => intro _ zp rf ne _; simp [specJumps]
  | @cons b z mags zs hbz _ ih =>
    intro hr zp rf ne hp
    have hz := hr z (List.mem_cons_self _ _)
    rw [List.foldl_cons, magStep_whole b z zp rf ne hbz hz ⟨by omega, hp.2⟩]
    obtain ⟨ih1, ih2⟩ := ih (fun y hy => hr y (List.mem_cons_of_mem _ hy)) z
      (if z > rf then z else rf)
      (if ((decide (zp ≠ -500) && (decide (z - zp > 20) && decide (zp < 1250))) ||
          decide (z < zp)) then ne + 1 else ne) hz
    refine ⟨?_, ?_⟩
    · rw [ih1, List.foldl_cons]
      congr 1
      rw [max_comm, max_def]
      split_ifs <;> omega
    · rw [ih2]
      simp only [List.map_cons, specJumps]
      have hrule : ((((z : ℚ) - (zp : ℚ) > 20 ∧ (zp : ℚ) < 1250) ∨ (z : ℚ) < (zp : ℚ))) ↔
          ((z - zp > 20 ∧ zp < 1250) ∨ z < zp) := by
        constructor
        · rintro (⟨h1, h2⟩ | h3)
          · left; exact ⟨by exact_mod_cast h1, by exact_mod_cast h2⟩
          · right; exact_mod_cast h3
        · rintro (⟨h1, h2⟩ | h3)
          · left; exact ⟨by exact_mod_cast h1, by exact_mod_cast h2⟩
          · right; exact_mod_cast h3
      have hne : zp ≠ -500 := by omega
      by_cases hj : (z - zp > 20 ∧ zp < 1250) ∨ z < zp
      · rw [if_pos (hrule.2 hj)]
        have : ((decide (zp ≠ -500) && (decide (z - zp > 20) && decide (zp < 1250))) ||
            decide (z < zp)) = true := by
          rcases hj with ⟨h1, h2⟩ | h3
          · simp [hne, h1, h2]
          · simp [h3]
        rw [if_pos this]
        push_cast
        ring
      · rw [if_neg (fun hc => hj (hrule.1 hc))]
        have : ¬ (((decide (zp ≠ -500) && (decide (z - zp > 20) && decide (zp < 1250))) ||
            decide (z < zp)) = true) := by
          intro hc
          apply hj
          simp only [Bool.or_eq_true, Bool.and_eq_true, decide_eq_true_eq] at hc
          rcases hc with ⟨_, h1, h2⟩ | h3
          · exact Or.inl ⟨h1, h2⟩
          · exact Or.inr h3
        rw [if_neg this]
        push_cast
        ring

theorem fold_whole (mags : List Nat) (zs : List Int) (h : List.Forall₂ wholeMag mags zs)
    (hr : ∀ z, z ∈ zs → -500 < z ∧ z < 32768) (rf : Int) :
    (mags.foldl magStep (-500, rf, 0)).2.1 = zs.foldl max rf ∧
    (mags.foldl magStep (-500, rf, 0)).2.2 = (specJumps (zs.map fun (z : Int) => (z : ℚ)) : Nat) := by
  cases h with
  | nil => simp [specJumps]
  | @cons b z mags zs hbz hrest =>
    have hz := hr z (List.mem_cons_self _ _)
    rw [List.foldl_cons, magStep_whole b z (-500) rf 0 hbz hz ⟨by omega, by omega⟩]
    have hno : ((decide ((-500 : Int) ≠ -500) &&
        (decide (z - -500 > 20) && decide ((-500 : Int) < 1250))) || decide (z < -500)) = false := by
      have : ¬ z < -500 := by omega
      simp [this]
    rw [hno]
    obtain ⟨h1, h2⟩ := fold_whole_from mags zs hrest
      (fun y hy => hr y (List.mem_cons_of_mem _ hy)) z (if z > rf then z else rf) 0 hz
    refine ⟨?_, ?_⟩
    · simp only [Bool.false_eq_true, if_false]
      rw [h1, List.foldl_cons]
      congr 1
      rw [max_comm, max_def]
      split_ifs <;> omega
    · simp only [Bool.false_eq_true, if_false]
      rw [h2]
      simp

theorem value_0x4940 : f32ToRat (half_to_float_bits 0x4940) = 21 / 2 := by
  have hb : half_to_float_bits 0x4940 = 0x41280000 := by decide
  rw [hb]
  norm_num [f32ToRat]

theorem value_0x4920 : f32ToRat (half_to_float_bits 0x4920) = 41 / 4 := by
  have hb : half_to_float_bits 0x4920 = 0x41240000 := by decide
  rw [hb]
  norm_num [f32ToRat]

theorem wholeMag_0x4900 : wholeMag 0x4900 10 := by
  refine ⟨by decide, by decide, ?_⟩
  have hb : half_to_float_bits 0x4900 = 0x41200000 := by decide
  rw [hb]
  norm_num [f32ToRat]

theorem wholeMag_0x5060 : wholeMag 0x5060 35 := by
  refine ⟨by decide, by decide, ?_⟩
  have hb : half_to_float_bits 0x5060 = 0x420C0000 := by decide
  rw [hb]
  norm_num [f32ToRat]

/-- C4 (as stated) fails: the trixel of this catalog holds the magnitudes 10.5 and 10.25, so
the rule of the claim counts one jump (10.25 < 10.5), but `verifyStarData` counts none: the
previous magnitude it compares with is stored in an `int16_t` and is 10, not 10.5. -/
theorem jump_rule_counterexample :
    f32ToRat (half_to_float_bits 0x4940) = 21 / 2 ∧
    f32ToRat (half_to_float_bits 0x4920) = 41 / 4 ∧
    specJumps [21 / 2, 41 / 4] = 1 ∧
    (runValidators 16 decreasingFile zeroLocals).2.final?.map StarFinal.jumps = some 0 := by
  refine ⟨value_0x4940, value_0x4920, ?_, by decide⟩
  norm_num [specJumps]

/-- C4 (amended): for every trixel whose records are all in the file and whose dequantized
magnitudes `m_1..m_n` are whole numbers with `-500 < m_k < 32768`, the number of jump errors
the record loop of `verifyStarData` counts (started, as for every trixel, with `mag = -500`
and `nerr_trixel = 0`) equals the number of positions `k ≥ 2` for which
`(m_k - m_(k-1) > 20 and m_(k-1) < 1250) or m_k < m_(k-1)`.  The magnitudes 10.0, 10.1, 10.2
(as their nearest halves) give 0 jump errors and 10.0, 35.0 give exactly 1. -/
theorem jump_count_whole_numbers (bs : Bool) (bytes : List Nat) (p n : Nat) (d : starData)
    (rf : Int) (zs : List Int) (hlen : p + 713 * n ≤ bytes.length)
    (hmag : List.Forall₂ wholeMag (recMags bs bytes p n) zs)
    (hr : ∀ z, z ∈ zs → -500 < z ∧ z < 32768) :
    (recordLoop bs n ⟨⟨bytes, p⟩, d, -500, rf, 0⟩).nerr_trixel =
      (specJumps (zs.map fun (z : Int) => (z : ℚ)) : Nat) ∧
    (recordLoop false 3 ⟨⟨threeRecords, 0⟩, starData.ofBytes [], -500, -500, 0⟩).nerr_trixel = 0 ∧
    (recordLoop false 2 ⟨⟨twoRecords, 0⟩, starData.ofBytes [], -500, -500, 0⟩).nerr_trixel = 1 := by
  refine ⟨?_, by decide, by decide⟩
  have h := recordLoop_full bs bytes n p d (-500) rf 0 hlen
  have h2 := (fold_whole _ zs hmag hr rf).2
  rw [← h] at h2
  exact h2

theorem twoRecords_length : twoRecords.length = 1426 := by
  simp [twoRecords, mkRecord]

/-- C4 witness: `jump_count_whole_numbers` on two records with magnitudes 10 and 35: one jump. -/
theorem jump_count_whole_numbers_witness :
    (recordLoop false 2 ⟨⟨twoRecords, 0⟩, starData.ofBytes [], -500, -500, 0⟩).nerr_trixel =
      (specJumps ([10, 35].map fun (z : Int) => (z : ℚ)) : Nat) :=
  (jump_count_whole_numbers false twoRecords 0 2 (starData.ofBytes []) (-500) [10, 35]
    (by rw [twoRecords_length])
    (List.Forall₂.cons wholeMag_0x4900 (List.Forall₂.cons wholeMag_0x5060 List.Forall₂.nil))
    (by decide)).1

/-! ## The trixel loop on a file that holds the index and the records -/

theorem trixelLoop_full (fr : Frame) (g : Globals) (bytes : List Nat)
    (hidx : g.index_offset + 16 * g.ntrixels ≤ bytes.length)
    (hrec : ∀ i, i < g.ntrixels → rawCount bytes g.index_offset i ≠ 0 →
      rawOffset bytes g.index_offset i + 713 * rawCount bytes g.index_offset i ≤ bytes.length) :
    ∀ n i (s : StarScan) (e : Int), i + n = g.ntrixels → s.f.bytes = bytes →
      wrapInt32 e = s.nerr →
      ((trixelLoop fr g n i s).realFaintMag, (trixelLoop fr g n i s).realMSpT,
        (trixelLoop fr g n i s).nerr) =
      (((List.range' i n).foldl (trixelStep g.byteswap bytes g.index_offset)
          (s.realFaintMag, s.realMSpT, e)).1,
        ((List.range' i n).foldl (trixelStep g.byteswap bytes g.index_offset)
          (s.realFaintMag, s.realMSpT, e)).2.1,
        wrapInt32 ((List.range' i n).foldl (trixelStep g.byteswap bytes g.index_offset)
          (s.realFaintMag, s.realMSpT, e)).2.2) := by
  intro n
  induction n with
  | zero => intro i s e _ _ he; simp [trixelLoop, he]
  | succ n ih =>
    intro i s e hi hb he
    obtain ⟨d, _, hB⟩ := trixelBody_full fr g bytes i s hb (by omega)
    rw [trixelLoop, List.range'_succ, List.foldl_cons]
    by_cases hz : rawCount bytes g.index_offset i = 0
    · rw [if_pos hz] at hB
      have hst : trixelStep g.byteswap bytes g.index_offset (s.realFaintMag, s.realMSpT, e) i =
          (s.realFaintMag, s.realMSpT, e) := by
        unfold trixelStep; rw [if_pos hz]
      rw [hst, hB]
      exact ih (i + 1) _ e (by omega) rfl he
    · rw [if_neg hz] at hB
      have hr := recordLoop_full g.byteswap bytes (rawCount bytes g.index_offset i)
        (rawOffset bytes g.index_offset i) d (-500) s.realFaintMag 0
        (hrec i (by omega) hz)
      have hRb := recordLoop_bytes g.byteswap (rawCount bytes g.index_offset i)
        ⟨⟨bytes, rawOffset bytes g.index_offset i⟩, d, -500, s.realFaintMag, 0⟩
      have hst : trixelStep g.byteswap bytes g.index_offset (s.realFaintMag, s.realMSpT, e) i =
          ((recordLoop g.byteswap (rawCount bytes g.index_offset i)
              ⟨⟨bytes, rawOffset bytes g.index_offset i⟩, d, -500,
                s.realFaintMag, 0⟩).realFaintMag,
            msptStep s.realMSpT (rawCount bytes g.index_offset i),
            e + (recordLoop g.byteswap (rawCount bytes g.index_offset i)
              ⟨⟨bytes, rawOffset bytes g.index_offset i⟩, d, -500,
                s.realFaintMag, 0⟩).nerr_trixel) := by
        unfold trixelStep
        rw [if_neg hz]
        dsimp only
        rw [← hr]
      rw [hst, hB]
      exact ih (i + 1) _ _ (by omega) hRb
        (by dsimp only; rw [← he, wrapInt32_add_left, wrapInt32_add_right])

theorem leNat_append (a b : List Nat) : leNat (a ++ b) = leNat a + 256 ^ a.length * leNat b := by
  induction a with
  | nil => simp [leNat]
  | cons x a ih =>
    rw [List.cons_append, leNat, ih, leNat, List.length_cons, Nat.pow_succ]
    ring

theorem leNat_lt (l : List Nat) (h : ∀ x, x ∈ l → x < 256) : leNat l < 256 ^ l.length := by
  induction l with
  | nil => simp [leNat]
  | cons x l ih =>
    have hx := h x (List.mem_cons_self _ _)
    have := ih (fun y hy => h y (List.mem_cons_of_mem _ hy))
    simp only [leNat, List.length_cons, Nat.pow_succ]
    omega

theorem leAt_lt (bytes : List Nat) (h : ∀ x, x ∈ bytes → x < 256) (p n : Nat) :
    leAt bytes p n < 256 ^ n := by
  unfold leAt
  have hm : ∀ x, x ∈ (bytes.drop p).take n → x < 256 :=
    fun x hx => h x (List.mem_of_mem_drop (List.mem_of_mem_take hx))
  have h1 := leNat_lt _ hm
  have h2 : ((bytes.drop p).take n).length ≤ n := List.length_take_le _ _
  calc leNat ((bytes.drop p).take n) < 256 ^ ((bytes.drop p).take n).length := h1
    _ ≤ 256 ^ n := Nat.pow_le_pow_right (by decide) h2

theorem leAt_low (bytes : List Nat) (q : Nat) (h : leAt bytes q 8 < 4294967296)
    (hlen : q + 4 ≤ bytes.length) : leAt bytes q 4 = leAt bytes q 8 := by
  unfold leAt at h ⊢
  have ht : (bytes.drop q).take 8 = (bytes.drop q).take 4 ++ ((bytes.drop q).drop 4).take 4 :=
    List.take_add (bytes.drop q) 4 4
  have hl : ((bytes.drop q).take 4).length = 4 := by
    rw [List.length_take, List.length_drop]; omega
  rw [ht, leNat_append, hl] at h ⊢
  have : (256 : Nat) ^ 4 = 4294967296 := by decide
  rw [this] at h ⊢
  generalize leNat (((bytes.drop q).drop 4).take 4) = hi at h ⊢
  have : hi = 0 := by
    by_contra hne
    have : 4294967296 * 1 ≤ 4294967296 * hi := Nat.mul_le_mul_left _ (by omega)
    omega
  rw [this]
  omega

/-- As `verifyStarData_finished`, giving the candidates and the jump count as the values the
trixel loop ends with. -/
theorem verifyStarData_scan (g : Globals) (bytes : List Nat) (p : Nat) (l : StarLocals)
    (hlen : p + 5 ≤ bytes.length) (hHTM : leAt bytes (p + 2) 1 = 6) :
    ∃ r, verifyStarData g ⟨bytes, p⟩ l = StarResult.finished r ∧
      r.faintMag = toInt16 (leAt bytes p 2) ∧ r.MSpT = leAt bytes (p + 3) 2 ∧
      r.realFaintMag = (trixelLoop l.frame g g.ntrixels 0
        ⟨⟨bytes, p + 5⟩, l.data, l.offset, l.nstars, -500, -500, 0, 0, []⟩).realFaintMag ∧
      r.realMSpT = (trixelLoop l.frame g g.ntrixels 0
        ⟨⟨bytes, p + 5⟩, l.data, l.offset, l.nstars, -500, -500, 0, 0, []⟩).realMSpT ∧
      r.jumps = (trixelLoop l.frame g g.ntrixels 0
        ⟨⟨bytes, p + 5⟩, l.data, l.offset, l.nstars, -500, -500, 0, 0, []⟩).nerr ∧
      r.counts = (trixelLoop l.frame g g.ntrixels 0
        ⟨⟨bytes, p + 5⟩, l.data, l.offset, l.nstars, -500, -500, 0, 0, []⟩).counts ∧
      r.nerr = wrapInt32 (r.jumps + (if r.MSpT ≠ r.realMSpT then 1 else 0) +
        (if r.realFaintMag ≠ r.faintMag then 1 else 0)) := by
  have h1 : freadScalar l.faintMag 2 ⟨bytes, p⟩ = (leAt bytes p 2, 1, ⟨bytes, p + 2⟩) :=
    freadScalar_full _ _ _ _ (by omega)
  have h2 : freadScalar l.HTM_Level 1 ⟨bytes, p + 2⟩ = (6, 1, ⟨bytes, p + 3⟩) := by
    rw [freadScalar_full _ _ _ _ (by omega), hHTM]
  have h3 : freadScalar l.MSpT 2 ⟨bytes, p + 3⟩ = (leAt bytes (p + 3) 2, 1, ⟨bytes, p + 5⟩) :=
    freadScalar_full _ _ _ _ (by omega)
  have h6 : ¬ (toInt8 6 ≠ HTM_LEVEL) := by decide
  obtain ⟨cs, _, _, hc3⟩ := trixelLoop_counts l.frame g g.ntrixels 0
    ⟨⟨bytes, p + 5⟩, l.data, l.offset, l.nstars, -500, -500, 0, 0, []⟩ rfl
  have hfix : wrapInt32 (trixelLoop l.frame g g.ntrixels 0
      ⟨⟨bytes, p + 5⟩, l.data, l.offset, l.nstars, -500, -500, 0, 0, []⟩).nerr =
      (trixelLoop l.frame g g.ntrixels 0
        ⟨⟨bytes, p + 5⟩, l.data, l.offset, l.nstars, -500, -500, 0, 0, []⟩).nerr := by
    rw [hc3, wrapInt32_idem]
  unfold verifyStarData
  simp only [h1, h2, h3]
  rw [if_neg h6]
  refine ⟨_, rfl, rfl, rfl, rfl, rfl, rfl, rfl, ?_⟩
  dsimp only
  exact nerr_wrapped _ _ _ hfix

theorem le_foldl_max (l : List Nat) : ∀ acc, acc ≤ l.foldl max acc ∧
    ∀ x, x ∈ l → x ≤ l.foldl max acc := by
  induction l with
  | nil => intro acc; simp
  | cons a l ih =>
    intro acc
    obtain ⟨h1, h2⟩ := ih (max acc a)
    rw [List.foldl_cons]
    refine ⟨le_trans (le_max_left _ _) h1, ?_⟩
    intro x hx
    rcases List.mem_cons.1 hx with rfl | hx
    · exact le_trans (le_max_right _ _) h1
    · exact h2 x hx

theorem foldl_msptStep_eq_max (l : List Nat) (h : ∀ x, x ∈ l → x < 65536) :
    ∀ acc, l.foldl msptStep acc = l.foldl max acc := by
  induction l with
  | nil => intro acc; rfl
  | cons a l ih =>
    intro acc
    have ha := h a (List.mem_cons_self _ _)
    rw [List.foldl_cons, List.foldl_cons, ih (fun x hx => h x (List.mem_cons_of_mem _ hx))]
    congr 1
    unfold msptStep
    rw [max_def]
    split_ifs <;> omega

theorem foldl_trixelStep_wellformed (bytes : List Nat) (P T : Nat) (zs : Nat → List Int)
    (hw : WellFormedCatalog bytes P T zs) :
    ∀ (l : List Nat), (∀ i, i ∈ l → i < T) → ∀ (rf : Int) (m : Nat) (ne : Int),
      l.foldl (trixelStep false bytes P) (rf, m, ne) =
        (l.foldl (fun acc i => (zs i).foldl max acc) rf,
          (l.map fun i => (indexEntryAt false bytes P i).nrecs).foldl msptStep m, ne) := by
  intro l
  induction l with
  | nil => intro _ rf m ne; rfl
  | cons i l ih =>
    intro hl rf m ne
    have hi : i < T := hl i (List.mem_cons_self _ _)
    have hstep : trixelStep false bytes P (rf, m, ne) i =
        ((zs i).foldl max rf, msptStep m (indexEntryAt false bytes P i).nrecs, ne) := by
      have hc : rawCount bytes P i = (indexEntryAt false bytes P i).nrecs := rfl
      unfold trixelStep
      rw [hc]
      by_cases hz : (indexEntryAt false bytes P i).nrecs = 0
      · rw [if_pos hz]
        have hwh := hw.whole i hi
        rw [hz] at hwh
        have hnil : zs i = [] := List.forall₂_nil_left_iff.1 hwh
        rw [hnil, hz, msptStep_zero]
        rfl
      · rw [if_neg hz]
        obtain ⟨h32, hin⟩ := hw.inFile i hi hz
        have hlen := hw.complete
        have hoff : rawOffset bytes P i = (indexEntryAt false bytes P i).offset :=
          leAt_low bytes (P + 16 * i + 4) h32 (by omega)
        rw [hoff]
        obtain ⟨f1, f2⟩ := fold_whole _ (zs i) (hw.whole i hi) (hw.range i hi) rf
        dsimp only
        rw [f1, f2, hw.rule i hi]
        simp
    rw [List.foldl_cons, hstep, ih (fun j hj => hl j (List.mem_cons_of_mem _ hj)),
      List.foldl_cons, List.map_cons, List.foldl_cons]

/-! ## C3: well-formed files pass -/

theorem value_0x4F90 : f32ToRat (half_to_float_bits 0x4F90) = 121 / 4 := by
  have hb : half_to_float_bits 0x4F90 = 0x41F20000 := by decide
  rw [hb]
  norm_num [f32ToRat]

theorem value_0x4FC0 : f32ToRat (half_to_float_bits 0x4FC0) = 31 := by
  have hb : half_to_float_bits 0x4FC0 = 0x41F80000 := by decide
  rw [hb]
  norm_num [f32ToRat]

theorem wholeMag_0x4A00 : wholeMag 0x4A00 12 := by
  refine ⟨by decide, by decide, ?_⟩
  have hb : half_to_float_bits 0x4A00 = 0x41400000 := by decide
  rw [hb]
  norm_num [f32ToRat]

/-- C3 (as stated) fails: this native catalog has no field descriptors, HTM level 6, one
index entry with trixelId 0, magnitudes 10.5, 30.25, 31 that satisfy the monotonicity rule of
the spec (no decrease, and 30.25 - 10.5 = 19.75 is not above 20), a declared
max-stars-per-trixel 3 equal to its record count and a declared faint limit 31 equal to its
largest magnitude; `verifyIndexValidity` counts zero errors, but `verifyStarData` counts one
jump error (it compares 30.25 with the truncated previous magnitude 10) and returns 0. -/
theorem wellformed_claim_counterexample :
    indexEntries false jumpyFile 133 1 = [{ trixelId := 0, offset := 154, nrecs := 3 }] ∧
    recMags false jumpyFile 154 3 = [0x4940, 0x4F90, 0x4FC0] ∧
    f32ToRat (half_to_float_bits 0x4940) = 21 / 2 ∧
    f32ToRat (half_to_float_bits 0x4F90) = 121 / 4 ∧
    f32ToRat (half_to_float_bits 0x4FC0) = 31 ∧
    specJumps [21 / 2, 121 / 4, 31] = 0 ∧
    toInt16 (leAt jumpyFile 149 2) = 31 ∧ leAt jumpyFile 151 1 = 6 ∧ leAt jumpyFile 152 2 = 3 ∧
    (runValidators 16 jumpyFile zeroLocals).1.nerr = 0 ∧
    (runValidators 16 jumpyFile zeroLocals).2.final?.map StarFinal.nerr = some 1 ∧
    (runValidators 16 jumpyFile zeroLocals).2.ret = 0 := by
  refine ⟨by decide, by decide, value_0x4940, value_0x4F90, value_0x4FC0, ?_, by decide,
    by decide, by decide, by decide, by decide, by decide⟩
  norm_num [specJumps]

/-- C3 (amended): well-formed files pass.  For every catalog in native byte order that is
well formed in the sense of `WellFormedCatalog` (complete in-order index, HTM level 6, data
offsets of non-empty trixels below `2^32` with their records inside the file, contiguous
layout, whole-number magnitudes strictly between -500 and 32768 obeying the monotonicity
rule, declared max-stars-per-trixel equal to the largest record count, declared faint limit
equal to the largest magnitude or -500 without records), `verifyIndexValidity` counts zero
errors, and `verifyStarData`, run after it as in `main`, counts zero errors and returns 1.
This holds in both frames of `Frame` (`l.frame`): the 4 bytes that `fread(&offset, 8, 1, f)`
writes past `offset` land in `nstars` or in the record buffer, and the next read, which
succeeds because the index and the records are in the file, overwrites them; a frame in which
they land in the loop counter is not covered. -/
theorem wellformed_passes (g : Globals) (bytes : List Nat) (P : Nat) (zs : Nat → List Int)
    (t o n : Nat) (l : StarLocals) (hbs : g.byteswap = false)
    (hw : WellFormedCatalog bytes P g.ntrixels zs) :
    (verifyIndexValidity g ⟨bytes, P⟩ t o n).nerr = 0 ∧
    ∃ r, verifyStarData (verifyIndexValidity g ⟨bytes, P⟩ t o n).g
        (verifyIndexValidity g ⟨bytes, P⟩ t o n).f l = StarResult.finished r ∧
      r.jumps = 0 ∧ r.nerr = 0 ∧
      (verifyStarData (verifyIndexValidity g ⟨bytes, P⟩ t o n).g
        (verifyIndexValidity g ⟨bytes, P⟩ t o n).f l).ret = 1 := by
  have hlen := hw.complete
  obtain ⟨hn, hf, hg⟩ := verifyIndexValidity_full g bytes P t o n (by omega)
  constructor
  · rw [hn, hbs]
    have hsum : ((List.range g.ntrixels).map
        (entryErrors g.ntrixels (indexEntries false bytes P g.ntrixels))).sum = 0 := by
      rw [List.sum_eq_zero_iff]
      intro x hx
      obtain ⟨i, hi, rfl⟩ := List.mem_map.1 hx
      rw [List.mem_range] at hi
      have hid := hw.ids i hi
      unfold entryErrors
      rw [indexEntries_get _ _ _ _ _ hi]
      dsimp only
      rw [hid, if_neg (by omega), if_neg (by simp)]
      have hgap : gapBad (indexEntries false bytes P g.ntrixels) i = false := by
        unfold gapBad
        rw [indexEntries_get _ _ _ _ _ hi]
        cases hA : prevNonEmpty (indexEntries false bytes P g.ntrixels) i with
        | none => rfl
        | some A =>
          dsimp only
          by_cases hz : (indexEntryAt false bytes P i).nrecs = 0
          · simp [hz]
          · have hc := hw.contiguous i A hi hA hz
            have h32 := (hw.inFile i hi hz).1
            have hq : A.nrecs = gapQuot A.offset (indexEntryAt false bytes P i).offset := by
              unfold gapQuot
              unfold sizeof_starData at hc ⊢
              omega
            simp [hq]
      rw [hgap]
      simp
    rw [hsum]
  · rw [hbs] at hg
    rw [hf, hg]
    obtain ⟨r, hr, hfm, hM, hrf, hrm, hj, _, hne⟩ := verifyStarData_scan
      { g with index_offset := P, data_offset := P + 16 * g.ntrixels, byteswap := false } bytes
      (P + 16 * g.ntrixels) l (by omega) hw.level
    have hfold := trixelLoop_full l.frame
      { g with index_offset := P, data_offset := P + 16 * g.ntrixels, byteswap := false } bytes
      (by dsimp only; omega)
      (by
        intro i hi hz
        dsimp only at hi hz ⊢
        have hz' : (indexEntryAt false bytes P i).nrecs ≠ 0 := hz
        obtain ⟨h32, hin⟩ := hw.inFile i hi hz'
        have hoff : rawOffset bytes P i = (indexEntryAt false bytes P i).offset :=
          leAt_low bytes (P + 16 * i + 4) h32 (by omega)
        rw [hoff]
        exact hin)
      g.ntrixels 0
      ⟨⟨bytes, P + 16 * g.ntrixels + 5⟩, l.data, l.offset, l.nstars, -500, -500, 0, 0, []⟩ 0
      (by dsimp only; omega) rfl rfl
    dsimp only at hfold hrf hrm hj
    rw [← List.range_eq_range', foldl_trixelStep_wellformed bytes P g.ntrixels zs hw _
      (fun i hi => List.mem_range.1 hi)] at hfold
    have h1 := congrArg Prod.fst hfold
    have h2 := congrArg (fun x => x.2.1) hfold
    have h3 := congrArg (fun x => x.2.2) hfold
    dsimp only at h1 h2 h3
    have hcount : ∀ x, x ∈ (List.range g.ntrixels).map
        (fun i => (indexEntryAt false bytes P i).nrecs) → x < 65536 := by
      intro x hx
      have hle := (le_foldl_max _ 0).2 x hx
      rw [← hw.maxStars] at hle
      have hlt := leAt_lt bytes hw.isBytes (P + 16 * g.ntrixels + 3) 2
      have : (256 : Nat) ^ 2 = 65536 := by decide
      omega
    rw [foldl_msptStep_eq_max _ hcount, ← hw.maxStars] at h2
    rw [← hw.faint] at h1
    have hj0 : r.jumps = 0 := by rw [hj, h3]; rfl
    have hM0 : r.MSpT = r.realMSpT := by rw [hM, hrm, h2]
    have hF0 : r.realFaintMag = r.faintMag := by rw [hrf, h1, hfm]
    have hnerr : r.nerr = 0 := by
      rw [hne, hj0, if_neg (by simp [hM0]), if_neg (by simp [hF0])]
      rfl
    refine ⟨r, hr, hj0, hnerr, ?_⟩
    rw [hr]
    simp [StarResult.ret, hnerr]

theorem goodFile_length : goodFile.length = 2309 := by
  simp [goodFile, headerTwoTrixels, mkRecord]

theorem goodFile_wellformed : WellFormedCatalog goodFile 133 2 goodMags where
  isBytes := by
    intro x hx
    simp only [goodFile, headerTwoTrixels, mkRecord, List.mem_append, List.mem_replicate,
      List.mem_cons, List.not_mem_nil, or_false] at hx
    omega
  complete := by rw [goodFile_length]; decide
  ids := by decide
  inFile := by rw [goodFile_length]; decide
  contiguous := by
    intro i A hi h hz
    have hcases : i = 0 ∨ i = 1 := by omega
    rcases hcases with rfl | rfl
    · simp [prevNonEmpty, lastNonEmpty] at h
    · have hp : prevNonEmpty (indexEntries false goodFile 133 2) 1 =
          some { trixelId := 0, offset := 170, nrecs := 2 } := by decide
      rw [hp] at h
      injection h with h
      subst h
      decide
  level := by decide
  whole := by
    intro i hi
    have hcases : i = 0 ∨ i = 1 := by omega
    rcases hcases with rfl | rfl
    · exact List.Forall₂.cons wholeMag_0x4900
        (List.Forall₂.cons wholeMag_0x4A00 List.Forall₂.nil)
    · exact List.Forall₂.cons wholeMag_0x4A00 List.Forall₂.nil
  range := by decide
  rule := by
    intro i hi
    have hcases : i = 0 ∨ i = 1 := by omega
    rcases hcases with rfl | rfl <;> norm_num [specJumps, goodMags]
  maxStars := by decide
  faint := by decide

/-- C3 witness: `wellformed_passes` on a two-trixel catalog with magnitudes 10, 12 and 12. -/
theorem wellformed_passes_witness :
    (verifyIndexValidity (nativeGlobals 2) ⟨goodFile, 133⟩ 0 0 0).nerr = 0 ∧
    ∃ r, verifyStarData (verifyIndexValidity (nativeGlobals 2) ⟨goodFile, 133⟩ 0 0 0).g
        (verifyIndexValidity (nativeGlobals 2) ⟨goodFile, 133⟩ 0 0 0).f zeroLocals.star =
          StarResult.finished r ∧
      r.jumps = 0 ∧ r.nerr = 0 ∧
      (verifyStarData (verifyIndexValidity (nativeGlobals 2) ⟨goodFile, 133⟩ 0 0 0).g
        (verifyIndexValidity (nativeGlobals 2) ⟨goodFile, 133⟩ 0 0 0).f zeroLocals.star).ret = 1 :=
  wellformed_passes (nativeGlobals 2) goodFile 133 goodMags 0 0 0 zeroLocals.star rfl
    goodFile_wellformed

/-! ## The data scan on whole-number magnitudes -/

theorem foldl_trixelStep_whole (bytes : List Nat) (P p T : Nat) (zs : Nat → List Int)
    (hw : WholeCatalog bytes P p T zs) :
    ∀ (l : List Nat), (∀ i, i ∈ l → i < T) → ∀ (rf : Int) (m : Nat) (ne : Int),
      l.foldl (trixelStep false bytes P) (rf, m, ne) =
        (l.foldl (fun acc i => (zs i).foldl max acc) rf,
          (l.map fun i => (indexEntryAt false bytes P i).nrecs).foldl msptStep m,
          ne + ((l.map fun i => specJumps ((zs i).map fun (z : Int) => (z : ℚ))).sum : Nat)) := by
  intro l
  induction l with
  | nil => intro _ rf m ne; simp
  | cons i l ih =>
    intro hl rf m ne
    have hi : i < T := hl i (List.mem_cons_self _ _)
    have hstep : trixelStep false bytes P (rf, m, ne) i =
        ((zs i).foldl max rf, msptStep m (indexEntryAt false bytes P i).nrecs,
          ne + (specJumps ((zs i).map fun (z : Int) => (z : ℚ)) : Nat)) := by
      have hc : rawCount bytes P i = (indexEntryAt false bytes P i).nrecs := rfl
      unfold trixelStep
      rw [hc]
      by_cases hz : (indexEntryAt false bytes P i).nrecs = 0
      · rw [if_pos hz]
        have hwh := hw.whole i hi
        rw [hz] at hwh
        have hnil : zs i = [] := List.forall₂_nil_left_iff.1 hwh
        rw [hnil, hz, msptStep_zero]
        simp [specJumps]
      · rw [if_neg hz]
        obtain ⟨h32, hin⟩ := hw.inFile i hi hz
        have hlen := hw.index
        have hoff : rawOffset bytes P i = (indexEntryAt false bytes P i).offset :=
          leAt_low bytes (P + 16 * i + 4) h32 (by omega)
        rw [hoff]
        obtain ⟨f1, f2⟩ := fold_whole _ (zs i) (hw.whole i hi) (hw.range i hi) rf
        dsimp only
        rw [f1, f2]
    rw [List.foldl_cons, hstep, ih (fun j hj => hl j (List.mem_cons_of_mem _ hj)),
      List.foldl_cons, List.map_cons, List.foldl_cons, List.map_cons, List.sum_cons]
    congr 2
    push_cast
    ring

/-- On a catalog with whole-number magnitudes `verifyStarData` reaches its final report with
`realFaintMag` the running maximum of the magnitudes started at -500, `realMSpT` the fold of
`msptStep` over the record counts and a jump count that is the sum of the spec rule over the
trixels. -/
theorem verifyStarData_whole (g : Globals) (bytes : List Nat) (P p : Nat) (zs : Nat → List Int)
    (l : StarLocals) (hbs : g.byteswap = false) (hP : g.index_offset = P)
    (hw : WholeCatalog bytes P p g.ntrixels zs) :
    ∃ r, verifyStarData g ⟨bytes, p⟩ l = StarResult.finished r ∧
      r.faintMag = toInt16 (leAt bytes p 2) ∧ r.MSpT = leAt bytes (p + 3) 2 ∧
      r.realFaintMag = (List.range g.ntrixels).foldl (fun acc i => (zs i).foldl max acc) (-500) ∧
      r.realMSpT = ((List.range g.ntrixels).map
        fun i => (indexEntryAt false bytes P i).nrecs).foldl msptStep 0 ∧
      r.jumps = wrapInt32 (((List.range g.ntrixels).map
        fun i => specJumps ((zs i).map fun (z : Int) => (z : ℚ))).sum : Nat) ∧
      r.nerr = wrapInt32 (r.jumps + (if r.MSpT ≠ r.realMSpT then 1 else 0) +
        (if r.realFaintMag ≠ r.faintMag then 1 else 0)) := by
  obtain ⟨r, hr, hfm, hM, hrf, hrm, hj, _, hne⟩ :=
    verifyStarData_scan g bytes p l hw.header hw.level
  have hidx := hw.index
  have hfold := trixelLoop_full l.frame g bytes (by rw [hP]; exact hidx)
    (by
      intro i hi hz
      rw [hP] at hz ⊢
      have hz' : (indexEntryAt false bytes P i).nrecs ≠ 0 := hz
      obtain ⟨h32, hin⟩ := hw.inFile i hi hz'
      have hoff : rawOffset bytes P i = (indexEntryAt false bytes P i).offset :=
        leAt_low bytes (P + 16 * i + 4) h32 (by omega)
      rw [hoff]
      exact hin)
    g.ntrixels 0 ⟨⟨bytes, p + 5⟩, l.data, l.offset, l.nstars, -500, -500, 0, 0, []⟩ 0
    (by omega) rfl rfl
  dsimp only at hfold
  rw [hbs, hP, ← List.range_eq_range', foldl_trixelStep_whole bytes P p g.ntrixels zs hw _
    (fun i hi => List.mem_range.1 hi)] at hfold
  have h1 := congrArg Prod.fst hfold
  have h2 := congrArg (fun x => x.2.1) hfold
  have h3 := congrArg (fun x => x.2.2) hfold
  dsimp only at h1 h2 h3
  refine ⟨r, hr, hfm, hM, by rw [hrf, h1], by rw [hrm, h2], ?_, hne⟩
  rw [hj, h3]
  simp
theorem foldl_max_of_le (l : List Int) : ∀ a, (∀ z, z ∈ l → z ≤ a) → l.foldl max a = a := by
  induction l with
  | nil => intro a _; rfl
  | cons x l ih =>
    intro a h
    have hx := h x (List.mem_cons_self _ _)
    rw [List.foldl_cons, max_eq_left hx]
    exact ih a (fun z hz => h z (List.mem_cons_of_mem _ hz))

theorem foldl_max_eq (l : List Int) : ∀ a m, m ∈ l → (∀ z, z ∈ l → z ≤ m) → a ≤ m →
    l.foldl max a = m := by
  induction l with
  | nil => intro a m hm; simp at hm
  | cons x l ih =>
    intro a m hm hle ha
    rw [List.foldl_cons]
    have hx := hle x (List.mem_cons_self _ _)
    rcases List.mem_cons.1 hm with rfl | hml
    · rw [max_eq_right ha]
      exact foldl_max_of_le l m (fun z hz => hle z (List.mem_cons_of_mem _ hz))
    · exact ih (max a x) m hml (fun z hz => hle z (List.mem_cons_of_mem _ hz)) (max_le ha hx)

theorem foldl_nested_max (zs : Nat → List Int) (l : List Nat) : ∀ a : Int,
    l.foldl (fun acc i => (zs i).foldl max acc) a = (l.flatMap zs).foldl max a := by
  induction l with
  | nil => intro a; rfl
  | cons i l ih =>
    intro a
    rw [List.foldl_cons, ih, List.flatMap_cons, List.foldl_append]

theorem WellFormedCatalog.toWhole {bytes : List Nat} {P T : Nat} {zs : Nat → List Int}
    (hw : WellFormedCatalog bytes P T zs) : WholeCatalog bytes P (P + 16 * T) T zs where
  index := by have := hw.complete; omega
  header := hw.complete
  level := hw.level
  inFile := hw.inFile
  whole := hw.whole
  range := hw.range

/-! ## C11: the candidate faint-magnitude limit -/

/-- C11 (as stated) fails: the only record of this catalog has magnitude 10.5, the largest
dequantized magnitude, and the header declares 10, which differs from it; the claim says a
faint-magnitude mismatch is counted, but `verifyStarData` counts no error at all: its
candidate is the `int16_t` value 10. -/
theorem faint_limit_counterexample :
    recMags false fractionalFile 154 1 = [0x4940] ∧
    f32ToRat (half_to_float_bits 0x4940) = 21 / 2 ∧
    toInt16 (leAt fractionalFile 149 2) = 10 ∧ ((10 : Int) : ℚ) ≠ 21 / 2 ∧
    (runValidators 16 fractionalFile zeroLocals).2.final?.map StarFinal.realFaintMag = some 10 ∧
    (runValidators 16 fractionalFile zeroLocals).2.final?.map StarFinal.nerr = some 0 := by
  refine ⟨by decide, value_0x4940, by decide, by norm_num, by decide, by decide⟩

/-- C11 (amended): for every catalog in native byte order with HTM level 6 whose index and
records are all in the file, with data offsets of non-empty trixels below `2^32`, whose
dequantized magnitudes are whole numbers strictly between -500 and 32768, and with at least
one record, the candidate faint-magnitude limit of `verifyStarData` is the largest magnitude
`m` over all records of all trixels, and a faint-magnitude mismatch error is counted if and
only if the header-declared limit differs from `m`: the error counter, a 32-bit `int`, ends
as the jump total, plus 1 for a max-stars-per-trixel mismatch, plus 1 exactly when the
declared limit differs from `m`.  This holds in both frames of `Frame`, that is when the 4
bytes written past `offset` land in `nstars` or in the record buffer. -/
theorem faint_limit_whole_numbers (g : Globals) (bytes : List Nat) (P p : Nat)
    (zs : Nat → List Int) (l : StarLocals) (m : Int) (hbs : g.byteswap = false)
    (hP : g.index_offset = P) (hw : WholeCatalog bytes P p g.ntrixels zs)
    (hm : m ∈ (List.range g.ntrixels).flatMap zs)
    (hmax : ∀ z, z ∈ (List.range g.ntrixels).flatMap zs → z ≤ m) :
    ∃ r, verifyStarData g ⟨bytes, p⟩ l = StarResult.finished r ∧
      r.faintMag = toInt16 (leAt bytes p 2) ∧ r.realFaintMag = m ∧
      r.nerr = wrapInt32 (r.jumps + (if r.MSpT ≠ r.realMSpT then 1 else 0) +
        (if toInt16 (leAt bytes p 2) ≠ m then 1 else 0)) := by
  obtain ⟨r, hr, hfm, _, hrf, _, _, hne⟩ := verifyStarData_whole g bytes P p zs l hbs hP hw
  have hlow : (-500 : Int) ≤ m := by
    obtain ⟨i, hi, hz⟩ := List.mem_flatMap.1 hm
    have := hw.range i (List.mem_range.1 hi) m hz
    omega
  have hmm : r.realFaintMag = m := by
    rw [hrf, foldl_nested_max]
    exact foldl_max_eq _ _ m hm hmax hlow
  refine ⟨r, hr, hfm, hmm, ?_⟩
  rw [hne, hmm, hfm]
  congr 2
  by_cases h : m = toInt16 (leAt bytes p 2)
  · simp [h]
  · have h' : toInt16 (leAt bytes p 2) ≠ m := fun hc => h hc.symm
    simp [h, h']

/-- C11 witness: `faint_limit_whole_numbers` on the two-trixel catalog with magnitudes 10, 12
and 12, whose largest magnitude is 12. -/
theorem faint_limit_whole_numbers_witness :
    ∃ r, verifyStarData { nativeGlobals 2 with index_offset := 133 } ⟨goodFile, 165⟩
        zeroLocals.star = StarResult.finished r ∧
      r.faintMag = toInt16 (leAt goodFile 165 2) ∧ r.realFaintMag = 12 ∧
      r.nerr = wrapInt32 (r.jumps + (if r.MSpT ≠ r.realMSpT then 1 else 0) +
        (if toInt16 (leAt goodFile 165 2) ≠ 12 then 1 else 0)) :=
  faint_limit_whole_numbers { nativeGlobals 2 with index_offset := 133 } goodFile 133 165
    goodMags zeroLocals.star 12 rfl rfl goodFile_wellformed.toWhole (by decide) (by decide)

/-! ## The data scan with exact and wrapped counters -/

/-- C13 (code at the failing input): a record read from a foreign-endian stream with the
byteswap flag set.  After `bswap_stardata` the fields `RA` and `mag` hold the byte reversal
of what was read (RA 1, magnitude 0x4900), but `source_id` still holds the value as read,
`2^56`, not its byte reversal 1: the function has no statement for `source_id`. -/
theorem bswap_stardata_skips_source_id :
    (starData.ofBytes foreignRecord).source_id = 72057594037927936 ∧
    bswap_64 72057594037927936 = 1 ∧
    (recordLoop true 1 ⟨⟨foreignRecord, 0⟩, starData.ofBytes [], -500, -500, 0⟩).data.source_id =
      72057594037927936 ∧
    (recordLoop true 1 ⟨⟨foreignRecord, 0⟩, starData.ofBytes [], -500, -500, 0⟩).data.RA = 1 ∧
    (recordLoop true 1 ⟨⟨foreignRecord, 0⟩, starData.ofBytes [], -500, -500, 0⟩).data.mag =
      0x4900 := by
  refine ⟨by decide, by decide, by decide, by decide, by decide⟩

/-! ## C14: the index as data validation reads it -/

/-- C14 (code at the failing inputs).  In the foreign-endian catalog `foreignFile` the header
sets the byteswap flag, `verifyIndexValidity` decodes entry 0 as offset 154 with 1 record and
counts no error, but the re-read in `verifyStarData` (no byte swap, a 32-bit `offset`) gives
offset 0 and 16777216 records.  In the native entry `farIndexBytes` the validated offset is
`2^32 + 154` and the re-read gives 154. -/
theorem reread_differs_from_validated_index :
    (readFileHeader 16 Globals.init (some ⟨foreignFile, 0⟩) 0 0).g.byteswap = true ∧
    (readFileHeader 16 Globals.init (some ⟨foreignFile, 0⟩) 0 0).g.ntrixels = 1 ∧
    indexEntryAt true foreignFile 133 0 = { trixelId := 0, offset := 154, nrecs := 1 } ∧
    (runValidators 16 foreignFile zeroLocals).1.nerr = 0 ∧
    leNat ((fread (leBytes 8 0) 8
      (fseek ⟨foreignFile, 149⟩ (133 + 0 * INDEX_ENTRY_SIZE + 4))).1.take 4) = 0 ∧
    (freadScalar 0 4 (fread (leBytes 8 0) 8
      (fseek ⟨foreignFile, 149⟩ (133 + 0 * INDEX_ENTRY_SIZE + 4))).2.2).1 = 16777216 ∧
    indexEntryAt false farIndexBytes 0 0 = { trixelId := 0, offset := 4294967450, nrecs := 1 } ∧
    leNat ((fread (leBytes 8 0) 8
      (fseek ⟨farIndexBytes, 16⟩ (0 + 0 * INDEX_ENTRY_SIZE + 4))).1.take 4) = 154 := by
  refine ⟨by decide, by decide, by decide, by decide, by decide, by decide, by decide,
    by decide⟩

/-! ## C15: the flux exponent -/

/-- The magnitude `unscaleStarData` stores is the decoded half-precision magnitude, the value
the record scan compares. -/
theorem unscaleStarData_mag (d : starData) :
    (unscaleStarData d).mag = half_to_float_bits d.mag := rfl

/-- C15 (counterexample): in a record whose flux exponent byte is 0xFF and whose first flux
sample is 1.0, `unscaleStarData` divides the sample by `10^255` (the byte is a `uint8_t`), not
by `10^(-1)`: the exact quotient is `1 / 10^255`, not 10. -/
theorem flux_exponent_counterexample :
    (starData.ofBytes exponentRecord).fexpo = 0xFF ∧
    toInt8 0xFF = -1 ∧
    (unscaleStarData (starData.ofBytes exponentRecord)).flux.head? =
      some { sample := 0x3F800000, exponent := 255 } ∧
    f32ToRat 0x3F800000 = 1 ∧
    FluxSample.value { sample := 0x3F800000, exponent := 255 } = 1 / 10 ^ 255 ∧
    FluxSample.value { sample := 0x3F800000, exponent := 255 } ≠
      f32ToRat 0x3F800000 / (10 : ℚ) ^ (toInt8 0xFF) := by
  have hv : f32ToRat 0x3F800000 = 1 := by norm_num [f32ToRat]
  have h8 : toInt8 0xFF = -1 := by decide
  refine ⟨by decide, h8, by decide, hv, ?_, ?_⟩
  · simp only [FluxSample.value, hv]
    norm_cast
  · simp only [FluxSample.value, hv, h8]
    have : (10 : ℚ) ^ (255 : ℤ) = ((10 : ℚ) ^ (255 : ℕ)) := by norm_cast
    rw [this]
    intro h
    have h1 : (1 : ℚ) / 10 ^ 255 < 1 := by
      rw [div_lt_one (by positivity)]
      exact one_lt_pow₀ (by norm_num) (by norm_num)
    have h2 : (1 : ℚ) / (10 : ℚ) ^ (-1 : ℤ) = 10 := by norm_num
    rw [h2] at h
    rw [h] at h1
    norm_num at h1

/-- C15 (amended): for every record, `unscaleStarData` produces 343 flux samples, sample `i`
being the decoded half-precision sample `i` divided by `10^e` with the same `e` for all
samples, where `e` is the record's flux exponent byte read as an unsigned 8-bit integer
(`0 ≤ e ≤ 255`); the flux exponent and the source id are copied unchanged. -/
theorem flux_exponent_unsigned (d : starData) (h : d.fexpo < 256) :
    (unscaleStarData d).flux.length = 343 ∧
    (∀ i, i < 343 → (unscaleStarData d).flux[i]? =
      some { sample := half_to_float_bits (d.flux.getD i 0 % 65536), exponent := (d.fexpo : Int) }) ∧
    (∀ s ∈ (unscaleStarData d).flux, s.exponent = (d.fexpo : Int) ∧
      s.value = f32ToRat s.sample / 10 ^ d.fexpo) ∧
    (unscaleStarData d).fexpo = d.fexpo ∧
    (unscaleStarData d).source_id = d.source_id := by
  have hm : d.fexpo % 256 = d.fexpo := Nat.mod_eq_of_lt h
  refine ⟨by simp [unscaleStarData], ?_, ?_, ?_, rfl⟩
  · intro i hi
    simp [unscaleStarData, hm, List.getElem?_range hi, hi]
  · intro s hs
    simp only [unscaleStarData, List.mem_map, List.mem_range] at hs
    obtain ⟨i, -, rfl⟩ := hs
    simp only [FluxSample.value, hm]
    exact ⟨trivial, by norm_cast⟩
  · show Int.toNat (((d.fexpo % 256 : Nat) : Int) % 256) = d.fexpo
    omega

/-- C15 (witness): the amended statement at the record with exponent byte 0xFF. -/
theorem flux_exponent_unsigned_witness :
    (starData.ofBytes exponentRecord).fexpo < 256 ∧
    (unscaleStarData (starData.ofBytes exponentRecord)).flux.length = 343 ∧
    (unscaleStarData (starData.ofBytes exponentRecord)).fexpo = 255 :=
  ⟨by decide,
    (flux_exponent_unsigned (starData.ofBytes exponentRecord) (by decide)).1,
    (flux_exponent_unsigned (starData.ofBytes exponentRecord) (by decide)).2.2.2.1.trans
      (by decide)⟩

/-! ## C16: the return value of readFileHeader -/

/-- C16 (code at the failing inputs): `readFileHeader` returns 1 for every open stream, whatever
the reads obtained.  On the empty stream and on a stream of 100 bytes the read of the
124-byte preamble returns 0 items, and the function still returns 1. -/
theorem readFileHeader_returns_one (size : Nat) (g : Globals) (f : FILE) (e v : Nat) :
    (readFileHeader size g (some f) e v).ret = 1 ∧
    (fread (List.replicate 124 0) 124 ⟨[], 0⟩).2.1 = 0 ∧
    (readFileHeader 16 Globals.init (some ⟨[], 0⟩) 0 0).ret = 1 ∧
    (fread (List.replicate 124 0) 124 ⟨List.replicate 100 32, 0⟩).2.1 = 0 ∧
    (readFileHeader 16 Globals.init (some ⟨List.replicate 100 32, 0⟩) 0 0).ret = 1 :=
  ⟨rfl, by decide, by decide, by decide, by decide⟩

/-! ## C17: records missing from the stream -/

/-- C17 (code at the failing inputs): in `shortFile` the index declares two records and the
stream ends after the first, in `midRecordFile` it ends 100 bytes into the second.  The read
of the second record returns 0 items in both, the loop goes on with what `data` holds, and
`verifyStarData` counts no error and returns 1. -/
theorem record_truncation_not_detected :
    indexEntries false shortFile 133 1 = [{ trixelId := 0, offset := 154, nrecs := 2 }] ∧
    (fread (starData.ofBytes []).toBytes sizeof_starData ⟨shortFile, 154 + sizeof_starData⟩).2.1 = 0 ∧
    (runValidators 16 shortFile zeroLocals).2.final?.map StarFinal.nerr = some 0 ∧
    (runValidators 16 shortFile zeroLocals).2.ret = 1 ∧
    indexEntries false midRecordFile 133 1 = [{ trixelId := 0, offset := 154, nrecs := 2 }] ∧
    (fread (starData.ofBytes []).toBytes sizeof_starData
      ⟨midRecordFile, 154 + sizeof_starData⟩).2.1 = 0 ∧
    (runValidators 16 midRecordFile zeroLocals).2.final?.map StarFinal.nerr = some 0 ∧
    (runValidators 16 midRecordFile zeroLocals).2.ret = 1 := by
  refine ⟨by decide, by decide, by decide, by decide, by decide, by decide, by decide,
    by decide⟩

/-! ## C18: the index error count -/

theorem wrapIndex_length : ∀ n, (wrapIndex n).length = 16 * n := by
  intro n
  induction n with
  | zero => rfl
  | succ n ih =>
    rw [wrapIndex, List.length_append, ih]
    simp [wrapEntry]
    omega

theorem wrapIndex_drop : ∀ i n, i < n →
    ∃ rest, (wrapIndex n).drop (16 * i) = wrapEntry ++ rest := by
  intro i
  induction i with
  | zero =>
    intro n hn
    obtain ⟨m, rfl⟩ : ∃ m, n = m + 1 := ⟨n - 1, by omega⟩
    exact ⟨wrapIndex m, rfl⟩
  | succ i ih =>
    intro n hn
    obtain ⟨m, rfl⟩ : ∃ m, n = m + 1 := ⟨n - 1, by omega⟩
    obtain ⟨rest, hr⟩ := ih m (by omega)
    refine ⟨rest, ?_⟩
    have h16 : 16 * (i + 1) = wrapEntry.length + 16 * i := by
      simp [wrapEntry]; omega
    rw [wrapIndex, h16, List.drop_append, hr]

theorem leAt_drop (bytes : List Nat) (q k w : Nat) :
    leAt bytes (q + k) w = leAt (bytes.drop q) k w := by
  unfold leAt
  rw [List.drop_drop, Nat.add_comm]

theorem wrapIndex_entry (n i : Nat) (hi : i < n) :
    indexEntryAt false (wrapIndex n) 0 i = { trixelId := 4294967295, offset := 1, nrecs := 1 } := by
  obtain ⟨rest, hr⟩ := wrapIndex_drop i n hi
  have h0 : leAt (wrapIndex n) (0 + 16 * i) 4 = 4294967295 := by
    rw [Nat.zero_add, ← Nat.add_zero (16 * i), leAt_drop, hr, leAt_append_left _ _ _ _ (by decide)]
    decide
  have h1 : leAt (wrapIndex n) (0 + 16 * i + 4) 8 = 1 := by
    rw [Nat.zero_add, leAt_drop, hr, leAt_append_left _ _ _ _ (by decide)]
    decide
  have h2 : leAt (wrapIndex n) (0 + 16 * i + 12) 4 = 1 := by
    rw [Nat.zero_add, leAt_drop, hr, leAt_append_left _ _ _ _ (by decide)]
    decide
  simp only [indexEntryAt, swapIf, h0, h1, h2]
  rfl

theorem map_range_const {α : Type} (f : Nat → α) (c : α) : ∀ n, (∀ i, i < n → f i = c) →
    (List.range n).map f = List.replicate n c := by
  intro n h
  apply List.ext_getElem
  · simp
  · intro i h1 h2
    simp at h1
    simp [h i h1]

theorem indexErrors_wrap (T : Nat) (hT : T ≤ 4294967295) : ∀ n i, i + n ≤ T →
    indexErrors T i 1 1 (List.replicate n { trixelId := 4294967295, offset := 1, nrecs := 1 }) =
      3 * n := by
  intro n
  induction n with
  | zero => intro i _; rfl
  | succ n ih =>
    intro i hi
    rw [List.replicate_succ, indexErrors]
    simp only []
    rw [ih (i + 1) (by omega), if_pos (by omega), if_pos (by omega), if_neg (by decide),
      if_pos ⟨by decide, by decide⟩]
    omega

/-- The entries of `wrapIndex T` give `3 * T - 1` errors in all: two for the first entry and
three for each later one. -/
theorem wrapIndex_sum (T : Nat) (h1 : 1 ≤ T) (hT : T ≤ 4294967295) :
    ((List.range T).map (entryErrors T (indexEntries false (wrapIndex T) 0 T))).sum =
      3 * T - 1 := by
  have hs := indexErrors_eq_sum T (indexEntries false (wrapIndex T) 0 T) []
  simp only [List.length_nil, List.nil_append, indexEntries_length] at hs
  have hp : prevState [] = (0, 0) := rfl
  rw [hp] at hs
  rw [List.range_eq_range', ← hs]
  have he : indexEntries false (wrapIndex T) 0 T =
      List.replicate T { trixelId := 4294967295, offset := 1, nrecs := 1 } :=
    map_range_const _ _ T (fun i hi => wrapIndex_entry T i hi)
  rw [he]
  obtain ⟨m, rfl⟩ : ∃ m, T = m + 1 := ⟨T - 1, by omega⟩
  rw [List.replicate_succ, indexErrors]
  simp only []
  rw [indexErrors_wrap (m + 1) hT m 1 (by omega), if_pos (by omega), if_pos (by omega),
    if_neg (by decide), if_neg (by simp)]
  omega

theorem prevNonEmpty_succ (es : List IndexEntry) (i : Nat) (e : IndexEntry)
    (h : es[i]? = some e) :
    prevNonEmpty es (i + 1) = if e.nrecs = 0 then prevNonEmpty es i else some e := by
  unfold prevNonEmpty
  rw [List.take_succ, h]
  exact lastNonEmpty_concat (es.take i) e

theorem wrapIndex_nerr (T : Nat) (h1 : 1 ≤ T) (hT : T ≤ 4294967295) :
    (verifyIndexValidity (nativeGlobals T) { bytes := wrapIndex T, pos := 0 } 0 0 0).nerr =
      (3 * T - 1) % 4294967296 := by
  have hlen := wrapIndex_length T
  have hv := (verifyIndexValidity_full (nativeGlobals T) (wrapIndex T) 0 0 0 0
    (by show 0 + 16 * T ≤ (wrapIndex T).length; omega)).1
  rw [hv]
  show ((List.range T).map (entryErrors T (indexEntries false (wrapIndex T) 0 T))).sum %
    4294967296 = _
  rw [wrapIndex_sum T h1 hT]

/-- C18 (as stated) fails: an index of 1431655766 entries, each with trixelId 0xFFFFFFFF,
offset 1 and one record, is all in the stream; the sum of the per-entry errors is
`2 + 3 * 1431655765 = 4294967297`, and the error count of `verifyIndexValidity`, an
`unsigned int`, is 1. -/
theorem index_error_sum_counterexample :
    wrapCount = 1431655766 ∧
    (wrapIndex wrapCount).length = 16 * wrapCount ∧
    (∀ i, i < wrapCount → indexEntryAt false (wrapIndex wrapCount) 0 i =
      { trixelId := 4294967295, offset := 1, nrecs := 1 }) ∧
    ((List.range wrapCount).map
      (entryErrors wrapCount (indexEntries false (wrapIndex wrapCount) 0 wrapCount))).sum =
        4294967297 ∧
    (verifyIndexValidity (nativeGlobals wrapCount) { bytes := wrapIndex wrapCount, pos := 0 }
      0 0 0).nerr = 1 := by
  have hc : wrapCount = 1431655766 := rfl
  have h1 : 1 ≤ wrapCount := by rw [hc]; omega
  have hT : wrapCount ≤ 4294967295 := by rw [hc]; omega
  have ha : 3 * wrapCount - 1 = 4294967297 := by rw [hc]
  refine ⟨hc, wrapIndex_length _, fun i hi => wrapIndex_entry _ i hi, ?_, ?_⟩
  · rw [wrapIndex_sum _ h1 hT, ha]
  · rw [wrapIndex_nerr _ h1 hT, ha]

/-- C18 (amended): for every stream holding all `T` entries, `verifyIndexValidity` reads every
entry (it leaves the stream just after the index) and its error count is the sum over the
entries `i` of `[trixelId_i >= T] + [trixelId_i != i] + gap_i`, reduced modulo `2^32`; it is
the sum itself when `3 * T < 2^32`.  An entry with record count 0 is not gap-checked and does
not become the previous entry, and an out-of-range trixelId contributes two errors. -/
theorem index_error_sum (g : Globals) (bytes : List Nat) (P t o n : Nat)
    (hlen : P + 16 * g.ntrixels ≤ bytes.length) :
    (verifyIndexValidity g { bytes := bytes, pos := P } t o n).nerr =
      ((List.range g.ntrixels).map
        (entryErrors g.ntrixels (indexEntries g.byteswap bytes P g.ntrixels))).sum % 4294967296 ∧
    (3 * g.ntrixels < 4294967296 →
      (verifyIndexValidity g { bytes := bytes, pos := P } t o n).nerr =
        ((List.range g.ntrixels).map
          (entryErrors g.ntrixels (indexEntries g.byteswap bytes P g.ntrixels))).sum) ∧
    (verifyIndexValidity g { bytes := bytes, pos := P } t o n).f =
      { bytes := bytes, pos := P + 16 * g.ntrixels } ∧
    (∀ i, i < g.ntrixels →
      entryErrors g.ntrixels (indexEntries g.byteswap bytes P g.ntrixels) i =
        (if (indexEntryAt g.byteswap bytes P i).trixelId ≥ g.ntrixels then 1 else 0) +
        (if (indexEntryAt g.byteswap bytes P i).trixelId ≠ i then 1 else 0) +
        (if gapBad (indexEntries g.byteswap bytes P g.ntrixels) i then 1 else 0)) ∧
    (∀ i, i < g.ntrixels → (indexEntryAt g.byteswap bytes P i).nrecs = 0 →
      gapBad (indexEntries g.byteswap bytes P g.ntrixels) i = false ∧
      prevNonEmpty (indexEntries g.byteswap bytes P g.ntrixels) (i + 1) =
        prevNonEmpty (indexEntries g.byteswap bytes P g.ntrixels) i) ∧
    (∀ i, i < g.ntrixels → (indexEntryAt g.byteswap bytes P i).nrecs ≠ 0 →
      prevNonEmpty (indexEntries g.byteswap bytes P g.ntrixels) (i + 1) =
        some (indexEntryAt g.byteswap bytes P i)) ∧
    (∀ i, i < g.ntrixels → (indexEntryAt g.byteswap bytes P i).trixelId ≥ g.ntrixels →
      2 ≤ entryErrors g.ntrixels (indexEntries g.byteswap bytes P g.ntrixels) i) := by
  have h := verifyIndexValidity_full g bytes P t o n hlen
  have hf : ∀ i, i < g.ntrixels →
      entryErrors g.ntrixels (indexEntries g.byteswap bytes P g.ntrixels) i =
        (if (indexEntryAt g.byteswap bytes P i).trixelId ≥ g.ntrixels then 1 else 0) +
        (if (indexEntryAt g.byteswap bytes P i).trixelId ≠ i then 1 else 0) +
        (if gapBad (indexEntries g.byteswap bytes P g.ntrixels) i then 1 else 0) := by
    intro i hi
    unfold entryErrors
    rw [indexEntries_get _ _ _ _ _ hi]
  refine ⟨h.1, ?_, h.2.1, hf, ?_, ?_, ?_⟩
  · intro h3
    rw [h.1]
    apply Nat.mod_eq_of_lt
    have := sum_map_le (entryErrors g.ntrixels (indexEntries g.byteswap bytes P g.ntrixels)) 3
      (entryErrors_le _ _) (List.range g.ntrixels)
    rw [List.length_range] at this
    omega
  · intro i hi hz
    refine ⟨?_, ?_⟩
    · unfold gapBad
      rw [indexEntries_get _ _ _ _ _ hi]
      cases prevNonEmpty (indexEntries g.byteswap bytes P g.ntrixels) i with
      | none => rfl
      | some A => simp [hz]
    · rw [prevNonEmpty_succ _ i _ (indexEntries_get _ _ _ _ _ hi), if_pos hz]
  · intro i hi hz
    rw [prevNonEmpty_succ _ i _ (indexEntries_get _ _ _ _ _ hi), if_neg hz]
  · intro i hi hge
    rw [hf i hi, if_pos hge, if_pos (by omega)]
    omega

/-- C18 (witness): the amended statement on a complete two-entry index. -/
theorem index_error_sum_witness :
    0 + 16 * (nativeGlobals 2).ntrixels ≤ slackIndexBytes.length ∧
    (verifyIndexValidity (nativeGlobals 2) { bytes := slackIndexBytes, pos := 0 } 0 0 0).nerr =
      ((List.range 2).map
        (entryErrors 2 (indexEntries false slackIndexBytes 0 2))).sum % 4294967296 :=
  ⟨by decide, (index_error_sum (nativeGlobals 2) slackIndexBytes 0 0 0 0 (by decide)).1⟩

/-! ## C19: the first record of a trixel -/

theorem jumpTest_sentinel (u : FVal) : jumpTest u (-500) = fltInt u (-500) := by
  unfold jumpTest
  simp

theorem fltInt_rat (bits : Nat) (he : bits / 8388608 % 256 ≠ 255) (c : Int) :
    fltInt (f32Val bits) c = true ↔ f32ToRat bits < (c : ℚ) := by
  obtain ⟨x, hx, hq⟩ := f32Val_fin bits he
  rw [hx]
  simp only [fltInt, decide_eq_true_eq]
  have hs : ((fscale : Int) : ℚ) = 2 ^ 149 := by rw [fscale_eq]; norm_num
  have hpos : (0 : ℚ) < 2 ^ 149 := by positivity
  constructor
  · intro h
    have h1 : (x : ℚ) < ((c * (fscale : Int) : Int) : ℚ) := by exact_mod_cast h
    rw [hq, Int.cast_mul, hs] at h1
    exact lt_of_mul_lt_mul_right h1 hpos.le
  · intro h
    have h1 : (x : ℚ) < ((c * (fscale : Int) : Int) : ℚ) := by
      rw [hq, Int.cast_mul, hs]
      exact mul_lt_mul_of_pos_right h hpos
    exact_mod_cast h1

theorem mkRecord_length (lo hi : Nat) : (mkRecord lo hi).length = 713 := by
  simp [mkRecord]

/-- C19 (as stated) fails: the first and only record of the trixel of `sentinelFile` has the
magnitude pattern 0xE3D0, which denotes -1000; it is below the starting value -500 of the
previous magnitude, so the record is flagged and `verifyStarData` counts one jump error (the
declared limits agree with the data, so this is its whole error count). -/
theorem first_record_counterexample :
    indexEntries false sentinelFile 133 1 = [{ trixelId := 0, offset := 154, nrecs := 1 }] ∧
    recMags false sentinelFile 154 1 = [0xE3D0] ∧
    f32ToRat (half_to_float_bits 0xE3D0) = -1000 ∧
    jumpTest (f32Val (half_to_float_bits 0xE3D0)) (-500) = true ∧
    (recordLoop false 1 ⟨⟨mkRecord 0xD0 0xE3, 0⟩, starData.ofBytes [], -500, -500, 0⟩).nerr_trixel =
      1 ∧
    (runValidators 16 sentinelFile zeroLocals).2.final?.map StarFinal.jumps = some 1 ∧
    (runValidators 16 sentinelFile zeroLocals).2.final?.map StarFinal.nerr = some 1 := by
  have hb : half_to_float_bits 0xE3D0 = 0xC47A0000 := by decide
  refine ⟨by decide, by decide, ?_, by decide, by decide, by decide, by decide⟩
  rw [hb]
  norm_num [f32ToRat]

/-- C19 (amended): the previous magnitude starts at -500 in every trixel, and this starting
value is compared like any other: the first record of a trixel is flagged exactly when its
magnitude is below -500 (for a finite magnitude pattern; a NaN is never flagged).  So a first
record whose magnitude is at least -500 adds no jump error, and a trixel with exactly one
record, present in the file, has jump-error count 0 in that case and 1 otherwise. -/
theorem first_record_flagged_iff (bs : Bool) (bytes : List Nat) (p : Nat) (d : starData)
    (rf : Int) (hlen : p + 713 ≤ bytes.length) :
    (recordLoop bs 1 ⟨⟨bytes, p⟩, d, -500, rf, 0⟩).nerr_trixel =
      (if fltInt (f32Val (half_to_float_bits (recMag bs bytes p))) (-500) then 1 else 0) ∧
    (∀ b, jumpTest (f32Val (half_to_float_bits b)) (-500) =
      fltInt (f32Val (half_to_float_bits b)) (-500)) ∧
    (∀ b, b < 65536 → b / 1024 % 32 ≠ 31 →
      (fltInt (f32Val (half_to_float_bits b)) (-500) = true ↔
        f32ToRat (half_to_float_bits b) < -500)) ∧
    (∀ b, f32Val (half_to_float_bits b) = FVal.nan →
      jumpTest (f32Val (half_to_float_bits b)) (-500) = false) := by
  refine ⟨?_, fun b => jumpTest_sentinel _, ?_, ?_⟩
  · have h := recordLoop_full bs bytes 1 p d (-500) rf 0 (by omega)
    have h2 := congrArg (fun t => t.2.2) h
    simp only [recMags, List.foldl, magStep, jumpTest_sentinel] at h2
    rw [h2]
    split_ifs <;> rfl
  · intro b hb he
    have h := fltInt_rat (half_to_float_bits b) (half_bits_finite b hb he).2 (-500)
    simpa using h
  · intro b hb
    rw [hb]
    rfl

/-- C19 (witness): the amended statement on a single record with magnitude 10.0, which is not
flagged. -/
theorem first_record_flagged_iff_witness :
    0 + 713 ≤ (mkRecord 0x00 0x49).length ∧
    (recordLoop false 1 ⟨⟨mkRecord 0x00 0x49, 0⟩, starData.ofBytes [], -500, -500, 0⟩).nerr_trixel =
      (if fltInt (f32Val (half_to_float_bits (recMag false (mkRecord 0x00 0x49) 0))) (-500)
        then 1 else 0) :=
  ⟨by rw [mkRecord_length],
    (first_record_flagged_iff false (mkRecord 0x00 0x49) 0 (starData.ofBytes []) (-500)
      (by rw [mkRecord_length])).1⟩

/-! ## C20: the normalisation loop of half_to_float -/

theorem normalize_short (fuel : Nat) : ∀ off f, f * 2 ^ fuel < 1024 →
    normalize fuel off f = none := by
  induction fuel with
  | zero => intro off f _; rfl
  | succ n ih =>
    intro off f h
    have hp : 1 ≤ 2 ^ n := Nat.one_le_two_pow
    have h2 : f * 2 * 2 ^ n < 1024 := by
      rw [Nat.pow_succ] at h
      calc f * 2 * 2 ^ n = f * (2 ^ n * 2) := by ring
        _ < 1024 := h
    have hf : f * 2 < 1024 := by nlinarith
    have hsh : (f <<< 1) % 65536 = f * 2 := by
      rw [Nat.shiftLeft_eq]; omega
    have hbit : ¬ ((f * 2) &&& 0x400 = 0x400) := by
      rw [bit10_iff (f * 2) (by omega)]; omega
    simp only [normalize, hsh]
    rw [if_pos hbit]
    exact ih _ _ h2

theorem shift_unique (m a b : Nat) (ha1 : 1024 ≤ m * 2 ^ a) (ha2 : m * 2 ^ a < 2048)
    (hb1 : 1024 ≤ m * 2 ^ b) (hb2 : m * 2 ^ b < 2048) : a = b := by
  have key : ∀ x y, x < y → 1024 ≤ m * 2 ^ x → m * 2 ^ y < 2048 → False := by
    intro x y hxy h1 h2
    have hle : 2 ^ (x + 1) ≤ 2 ^ y := Nat.pow_le_pow_right (by decide) hxy
    have h3 : m * 2 ^ (x + 1) ≤ m * 2 ^ y := Nat.mul_le_mul_left m hle
    have h4 : m * 2 ^ (x + 1) = 2 * (m * 2 ^ x) := by rw [Nat.pow_succ]; ring
    omega
  rcases Nat.lt_trichotomy a b with h | h | h
  · exact (key a b h ha1 hb2).elim
  · exact h
  · exact (key b a h hb1 ha2).elim

/-- The loop on a nonzero 10-bit mantissa `m` makes exactly `10 - floor(log2 m)` shifts. -/
theorem normalize_exact (m : Nat) (h0 : m ≠ 0) (h1 : m < 1024) :
    1 ≤ 10 - Nat.log 2 m ∧ 10 - Nat.log 2 m ≤ 10 ∧
    1024 ≤ m * 2 ^ (10 - Nat.log 2 m) ∧ m * 2 ^ (10 - Nat.log 2 m) < 2048 ∧
    (∀ fuel, 10 - Nat.log 2 m ≤ fuel → fuel ≤ 255 →
      normalize fuel 0 m = some (10 - Nat.log 2 m, m * 2 ^ (10 - Nat.log 2 m))) ∧
    (∀ fuel, fuel < 10 - Nat.log 2 m → normalize fuel 0 m = none) := by
  have hL1 : 2 ^ Nat.log 2 m ≤ m := Nat.pow_log_le_self 2 h0
  have hL2 : m < 2 ^ (Nat.log 2 m + 1) := Nat.lt_pow_succ_log_self (by decide) m
  have hL : Nat.log 2 m < 10 := by
    by_contra hc
    have : 2 ^ 10 ≤ 2 ^ Nat.log 2 m := Nat.pow_le_pow_right (by decide) (by omega)
    omega
  generalize Nat.log 2 m = L at hL1 hL2 hL
  have hk : L + (10 - L) = 10 := by omega
  have e10 : 2 ^ L * 2 ^ (10 - L) = 1024 := by rw [← Nat.pow_add, hk]
  have e11 : 2 ^ (L + 1) * 2 ^ (10 - L) = 2048 := by
    rw [← Nat.pow_add, show L + 1 + (10 - L) = 11 by omega]
  have hp : 0 < 2 ^ (10 - L) := Nat.two_pow_pos _
  have hlo : 1024 ≤ m * 2 ^ (10 - L) := by
    rw [← e10]; exact Nat.mul_le_mul_right _ hL1
  have hhi : m * 2 ^ (10 - L) < 2048 := by
    rw [← e11]; exact Nat.mul_lt_mul_of_pos_right hL2 hp
  refine ⟨by omega, by omega, hlo, hhi, ?_, ?_⟩
  · intro fuel hf1 hf2
    have hmono : m * 2 ^ (10 - L) ≤ m * 2 ^ fuel :=
      Nat.mul_le_mul_left m (Nat.pow_le_pow_right (by decide) hf1)
    obtain ⟨k, _, _, hk3, hk4, hk5⟩ :=
      normalize_spec fuel 0 m (by omega) h1 (by omega) (by omega)
    have hku : k = 10 - L := shift_unique m k (10 - L) hk4 hk5 hlo hhi
    rw [hk3, hku, Nat.zero_add]
  · intro fuel hf
    apply normalize_short
    have hle : 2 ^ (fuel + 1) ≤ 2 ^ (10 - L) := Nat.pow_le_pow_right (by decide) hf
    have h3 : m * 2 ^ (fuel + 1) ≤ m * 2 ^ (10 - L) := Nat.mul_le_mul_left m hle
    have h4 : m * 2 ^ (fuel + 1) = 2 * (m * 2 ^ fuel) := by rw [Nat.pow_succ]; ring
    omega

/-- C20: `half_to_float` returns a pattern for every input.  For an input with exponent field
0 and nonzero 10-bit mantissa `m` the loop ends after exactly `k = 10 - floor(log2 m)` shifts
(it has not ended after fewer), `1 ≤ k ≤ 10`, the shifted mantissa `m * 2^k` has bit 10 set
before masking, and the 32-bit exponent is `113 - k`, between 103 and 112.  For every other
input the exponent and fraction are those computed before the loop. -/
theorem half_to_float_total (val : Nat) :
    half_to_float val = some (half_to_float_bits val) ∧
    (val / 1024 % 32 = 0 → val % 1024 ≠ 0 →
      normalize 16 0 (val &&& 0x3ff) =
        some (10 - Nat.log 2 (val % 1024), val % 1024 * 2 ^ (10 - Nat.log 2 (val % 1024))) ∧
      (∀ fuel, fuel < 10 - Nat.log 2 (val % 1024) → normalize fuel 0 (val &&& 0x3ff) = none) ∧
      1 ≤ 10 - Nat.log 2 (val % 1024) ∧ 10 - Nat.log 2 (val % 1024) ≤ 10 ∧
      (val % 1024 * 2 ^ (10 - Nat.log 2 (val % 1024))) &&& 0x400 = 0x400 ∧
      half_fields val = some (113 - (10 - Nat.log 2 (val % 1024)),
        (val % 1024 * 2 ^ (10 - Nat.log 2 (val % 1024))) &&& 0x3ff) ∧
      103 ≤ 113 - (10 - Nat.log 2 (val % 1024)) ∧ 113 - (10 - Nat.log 2 (val % 1024)) ≤ 112) ∧
    (¬ (val / 1024 % 32 = 0 ∧ val % 1024 ≠ 0) →
      half_fields val = some
        (if val / 1024 % 32 = 31 then 255 else if val / 1024 % 32 = 0 then 0
          else val / 1024 % 32 + 112, val % 1024)) := by
  refine ⟨half_to_float_isSome val, ?_, half_fields_normal val⟩
  intro he hm
  obtain ⟨h1, h2, h3, h4, h5, h6⟩ := normalize_exact (val % 1024) hm (Nat.mod_lt _ (by decide))
  have hn := h5 16 (by omega) (by omega)
  have he2 : ((val &&& 0x7c00) >>> 10) % 256 = 0 := by
    rw [exp_field]; omega
  rw [and_3ff]
  refine ⟨hn, h6, h1, h2, (bit10_iff _ h4).2 h3, ?_, by omega, by omega⟩
  unfold half_fields
  simp only [he2, and_3ff]
  rw [if_pos ⟨trivial, hm⟩, hn]
  have e1 : Int.toNat ((113 - ((10 - Nat.log 2 (val % 1024) : Nat) : Int)) % 4294967296) =
      113 - (10 - Nat.log 2 (val % 1024)) := by omega
  simp only [e1]

/-- C20 (witness): the input 0x0001 (exponent field 0, mantissa 1) takes 10 shifts and gets
the 32-bit exponent 103. -/
theorem half_to_float_total_witness :
    (1 / 1024 % 32 = 0 ∧ 1 % 1024 ≠ 0) ∧
    normalize 16 0 (1 &&& 0x3ff) =
      some (10 - Nat.log 2 (1 % 1024), 1 % 1024 * 2 ^ (10 - Nat.log 2 (1 % 1024))) :=
  ⟨by decide, ((half_to_float_total 1).2.1 (by decide) (by decide)).1⟩

end Siril
